import Mathlib

/-!
Minesweeper solver: board model and deduction engine.

A shallow embedding of `src/minesweeper.cpp`.

* The board `std::vector<std::vector<char>>` is a list of rows of characters:
  `'E'` is an unrevealed tile, `'M'` a flagged mine, `'0'` .. `'8'` a revealed number.
* `std::vector::at` throws `std::out_of_range`; every function that uses it returns an
  `Option`, and `none` stands for the uncaught exception (the program aborts).
* No statement of the program resizes a board vector, so `board.size()` and
  `board[0].size()` are read once per call.
* C++ `int` values are integers; the pixel coordinates and tile indices of a board never
  come near the 32-bit range.
* The screen is an external collaborator: `screen k` is the image that the `k`-th call of
  `ImageFromDisplay` returns, and the clicks sent to the game are recorded in a log.
  Console output is not modelled.
-/

namespace Minesweeper

/-! ## Data model -/

/-- Board of tiles, `std::vector<std::vector<char>>`, indexed `board.at(row).at(column)`. -/
abbrev Board := List (List Char)

/-- Tile position `std::vector<int>{pos_x, pos_y}`: the row, then the column. -/
abbrev Pos := Int × Int

/-- Colour categories, `enum COLOR`. -/
inductive COLOR where
  | LIGHT_GRAY | BLUE | GREEN | RED | DARK_BLUE | BROWN | LIGHT_GREEN | BLACK | GRAY
  | UNKNOWN | WHITE
  deriving DecidableEq, Repr

/-- Numeric value of a `COLOR` enumerator. -/
def COLOR.val : COLOR → Nat
  | .LIGHT_GRAY => 0
  | .BLUE => 1
  | .GREEN => 2
  | .RED => 3
  | .DARK_BLUE => 4
  | .BROWN => 5
  | .LIGHT_GREEN => 6
  | .BLACK => 7
  | .GRAY => 8
  | .UNKNOWN => 9
  | .WHITE => 10

/-- Mouse actions, `enum ACTION`: `REVEAL_TILE` is the left button, `MARK_BOMB` the right. -/
inductive ACTION where
  | REVEAL_TILE | MARK_BOMB
  deriving DecidableEq, Repr

/-- Deduction strategies, `enum STRATEGY`. -/
inductive STRATEGY where
  | SIMPLE | PIVOT
  deriving DecidableEq, Repr

/-- Pixel `cv::Vec4b`: four 8-bit channels `val[0]` (blue), `val[1]` (green), `val[2]` (red)
and `val[3]`. -/
structure Vec4b where
  v0 : Nat
  v1 : Nat
  v2 : Nat
  v3 : Nat
  deriving DecidableEq, Repr

/-- Captured image `cv::Mat`, read as `img.at<Vec4b>(y, x)`. -/
abbrev Mat := Nat → Nat → Vec4b

/-- One call `warpAndClick(board, x, y, action)`: the pixel coordinates and the button. -/
structure Click where
  x : Int
  y : Int
  action : ACTION
  deriving DecidableEq, Repr

/-- Solver state together with its outside world: the board, the log of clicks sent so far
and the number of screenshots taken so far. -/
structure World where
  board : Board
  clicks : List Click
  frames : Nat

/-! ## Vector access -/

/-- Bounds-checked read `v.at(i)` with an `int` index; a negative index converts to a huge
unsigned value and is out of range. -/
def vecAt {α : Type} (v : List α) (i : Int) : Option α :=
  if i < 0 then none else v[i.toNat]?

/-- Read `board.at(x).at(y)`. -/
def boardAt (board : Board) (x y : Int) : Option Char :=
  (vecAt board x).bind fun row => vecAt row y

/-- Write `board.at(x).at(y) = c`. -/
def boardSet (board : Board) (x y : Int) (c : Char) : Option Board :=
  (vecAt board x).bind fun row =>
    (vecAt row y).map fun _ => board.set x.toNat (row.set y.toNat c)

/-! ## Colour classifier -/

/-- Classifier `colorIdentifier`: ordered threshold rules, first match wins. -/
def colorIdentifier (color : Vec4b) : COLOR :=
  let R := color.v2
  let G := color.v1
  let B := color.v0
  if R > 195 ∧ G > 195 ∧ B > 195 then .WHITE
  else if R > 180 ∧ G < 95 ∧ B < 95 then .RED
  else if R > 105 ∧ G < 60 ∧ B < 60 then .BROWN
  else if R < 95 ∧ G > 105 ∧ B < 95 then .GREEN
  else if R < 60 ∧ G > 105 ∧ B > 110 then .LIGHT_GREEN
  else if R < 95 ∧ G < 95 ∧ B > 180 then .BLUE
  else if R < 95 ∧ G < 95 ∧ B > 105 then .DARK_BLUE
  else if R < 150 ∧ G < 150 ∧ B < 150 ∧ R = G ∧ R = B ∧ G = B then .LIGHT_GRAY
  else if R > 150 ∧ G > 150 ∧ B > 150 ∧ R = G ∧ R = B ∧ G = B then .GRAY
  else if R < 50 ∧ G < 50 ∧ B < 50 then .BLACK
  else .UNKNOWN

/-- Average `pixelAverage(img, x, y, 0)`: with depth 0 the window is the single pixel
`(y, x)` and the weight is exactly 1, so the result is that pixel. The program calls
`pixelAverage` with no other depth. -/
def pixelAverage (img : Mat) (x y : Nat) : Vec4b :=
  img y x

/-! ## Neighbour lookup -/

/-- Clamp of `surroundingTiles`:
`v < 0 ? 0 : v >= size ? size-1 : v`. -/
def clampIndex (v : Int) (size : Nat) : Int :=
  if v < 0 then 0 else if v ≥ (size : Int) then (size : Int) - 1 else v

/-- Loop body of `surroundingTiles` over the remaining values of `i`. -/
def surroundingLoop (board : Board) (cols : Nat) (x y : Int) (searchList : List Char) :
    List Nat → List Pos → Option (List Pos)
  | [], result => some result
  | i :: rest, result =>
    let pos_x := clampIndex (x - 1 + ((i / 3 : Nat) : Int)) board.length
    let pos_y := clampIndex (y - 1 + ((i % 3 : Nat) : Int)) cols
    match boardAt board pos_x pos_y with
    | none => none
    | some c =>
      if c ∈ searchList then
        if (pos_x, pos_y) ∈ result then
          surroundingLoop board cols x y searchList rest result
        else
          surroundingLoop board cols x y searchList rest (result ++ [(pos_x, pos_y)])
      else
        surroundingLoop board cols x y searchList rest result

/-- Lookup `surroundingTiles(board, x, y, searchList)`; `board[0]` needs a first row. -/
def surroundingTiles (board : Board) (x y : Int) (searchList : List Char) :
    Option (List Pos) :=
  match board.head? with
  | none => none
  | some row0 => surroundingLoop board row0.length x y searchList (List.range 9) []

/-! ## Board snapshot builder -/

/-- Colour accumulator reset `real_color = {0, 0, 0, 0}`. -/
def zeroColor : Vec4b := ⟨0, 0, 0, 0⟩

/-- Running average of one channel,
`(real_color.val[aux]*(counter-1) + current_color.val[aux])/(counter)`, stored back into an
8-bit channel; `counter` is the value after `counter++`. -/
def averageChannel (real cur counter : Nat) : Nat :=
  ((real * (counter - 1) + cur) / counter) % 256

/-- Running average of the four channels. -/
def averageColor (real cur : Vec4b) (counter : Nat) : Vec4b :=
  ⟨averageChannel real.v0 cur.v0 counter, averageChannel real.v1 cur.v1 counter,
   averageChannel real.v2 cur.v2 counter, averageChannel real.v3 cur.v3 counter⟩

/-- Border probe, the `while (x <= 34+25*(j+1))` loop of `updateBoard`, with
`last = 34+25*(j+1)`. The result is the character the loop writes into the tile, or `none`
when the loop ends without writing. The first argument counts the values of `x` still to
visit, `last + 1 - x` at the call, so reaching zero is the loop condition failing. -/
def borderProbe (img : Mat) (y last : Nat) : Nat → Nat → Option Char
  | 0, _ => none
  | n + 1, x =>
    if x ≤ last then
      if colorIdentifier (pixelAverage img x y) = COLOR.WHITE then some 'E'
      else if (last : Int) - (x : Int) < 1 then some '0'
      else borderProbe img y last n (x + 1)
    else none

/-- Upper limit of the column loop, `260+(board[0].size()-9)*25`. The subtraction is done
in `size_t`; modulo `2^64` the value is the integer below, which is positive. -/
def colLimit (cols : Nat) : Int :=
  260 + ((cols : Int) - 9) * 25

/-- Upper limit of the row loop, `530+(board.size()-9)*25`, as for `colLimit`. -/
def rowLimit (rows : Nat) : Int :=
  530 + ((rows : Int) - 9) * 25

/-- Inner loop of `updateBoard` (`for offset ...`) for board row `i` at pixel row
`offset_row`. Each step is one evaluation of the loop condition; the first argument bounds
the number of steps and `none` is returned when it runs out or when `at` throws. The test
`limit - offset <= 1` is unsigned in the source; it is evaluated only when `offset < limit`,
where the difference does not wrap. -/
def updateRow (img : Mat) (cols i offset_row : Nat) :
    Nat → Board → Nat → Nat → Nat → Nat → Vec4b → Option Board
  | 0, _, _, _, _, _, _ => none
  | fuel + 1, board, j, offset, tile_counter, counter, real_color =>
    if (offset : Int) < colLimit cols then
      match boardAt board i j with
      | none => none
      | some c =>
        if c ≠ 'E' ∨ c = '0' ∨ c = 'M' ∨ c = '9' then
          updateRow img cols i offset_row fuel board (j + 1) (34 + 25 * (j + 1) + 1) 0 0
            zeroColor
        else
          let corrector_x := j / 2
          let x := offset + corrector_x
          let y := offset_row
          let current_color := img y x
          if tile_counter = 25 ∨ colLimit cols - (offset : Int) ≤ 1 then
            let color_verdict :=
              if counter > 0 then colorIdentifier real_color else COLOR.LIGHT_GRAY
            let written : Option Board :=
              if color_verdict.val ≠ 0 then
                boardSet board i j (Char.ofNat (48 + color_verdict.val))
              else
                let first := 34 + 25 * j + corrector_x
                let last := 34 + 25 * (j + 1)
                match borderProbe img y last (last + 1 - first) first with
                | none => some board
                | some ch => boardSet board i j ch
            match written with
            | none => none
            | some board1 =>
              updateRow img cols i offset_row fuel board1 (j + 1) (offset + 1) 1 0 zeroColor
          else if current_color.v2 > 110 ∧ current_color.v1 > 110 ∧ current_color.v0 > 110 then
            updateRow img cols i offset_row fuel board j (offset + 1) (tile_counter + 1)
              counter real_color
          else
            updateRow img cols i offset_row fuel board j (offset + 1) (tile_counter + 1)
              (counter + 1) (averageColor real_color current_color (counter + 1))
    else some board

/-- Number of steps that always suffices for `updateRow` on a row of `cols` tiles. -/
def rowFuel (cols : Nat) : Nat :=
  26 * cols + 2

/-- Outer loop of `updateBoard` (`for offset_row ...`); the first argument bounds the
number of rows still to visit. -/
def updateRows (img : Mat) (rows cols : Nat) : Nat → Board → Nat → Nat → Option Board
  | 0, _, _, _ => none
  | fuel + 1, board, i, offset_row =>
    if (offset_row : Int) < rowLimit rows then
      match updateRow img cols i offset_row (rowFuel cols) board 0 34 0 0 zeroColor with
      | none => none
      | some board1 => updateRows img rows cols fuel board1 (i + 1) (offset_row + 25)
    else some board

/-- Refresh `updateBoard(board)`: takes the next screenshot and re-samples the tiles. On an
empty board the limit of the row loop, `530+(0-9)*25` in `size_t`, is 305, below the first
`offset_row`: no loop body runs, `board[0]` is never read and the board is returned as it
is. -/
def updateBoard (screen : Nat → Mat) (w : World) : Option World :=
  match w.board.head? with
  | none => some { board := w.board, clicks := w.clicks, frames := w.frames + 1 }
  | some row0 =>
    match updateRows (screen w.frames) w.board.length row0.length (w.board.length + 1)
        w.board 0 318 with
    | none => none
    | some board1 => some { board := board1, clicks := w.clicks, frames := w.frames + 1 }

/-- Actuator `warpAndClick(board, x, y, action)`: sends the click, then refreshes the board.
The pointer is warped to `(x + 4*((x-46)/25)/9, y)`; the log keeps the arguments. -/
def warpAndClick (screen : Nat → Mat) (w : World) (x y : Int) (action : ACTION) :
    Option World :=
  updateBoard screen { w with clicks := w.clicks ++ [⟨x, y, action⟩] }

/-! ## Deduction engine -/

/-- Loop "separate marked bombs from bomb-candidates" of `markBombs` and `pivotBoard`:
a tile that is not `'M'` is appended to the results, an `'M'` tile increments the bomb
counter. -/
def separateBombs (board : Board) : List Pos → List Pos → Int → Option (List Pos × Int)
  | [], results, bomb_counter => some (results, bomb_counter)
  | i :: rest, results, bomb_counter =>
    match boardAt board i.1 i.2 with
    | none => none
    | some c =>
      if c ≠ 'M' then separateBombs board rest (results ++ [i]) bomb_counter
      else separateBombs board rest results (bomb_counter + 1)

/-- The guarded separation `if (surroundings.size() > 0) { for (auto &i :
surroundingTiles(board, x, y)) ... }`, which calls `surroundingTiles` a second time. -/
def separateSurroundings (board : Board) (x y : Int) (surroundings : List Pos) :
    Option (List Pos × Int) :=
  if surroundings.length > 0 then
    match surroundingTiles board x y ['E', 'M'] with
    | none => none
    | some again => separateBombs board again [] 0
  else some ([], 0)

/-- Flagging loop `for (i : tiles) { board.at(i[0]).at(i[1]) = 'M'; warpAndClick(board,
46+25*i[1], 318+25*i[0], MARK_BOMB); }`, used by `markBombs` and twice by `pivotBoard`. -/
def markAll (screen : Nat → Mat) : List Pos → World → Option World
  | [], w => some w
  | i :: rest, w =>
    match boardSet w.board i.1 i.2 'M' with
    | none => none
    | some board1 =>
      match warpAndClick screen { w with board := board1 } (46 + 25 * i.2) (318 + 25 * i.1)
          ACTION.MARK_BOMB with
      | none => none
      | some w1 => markAll screen rest w1

/-- Revealing loop `for (i : tiles) warpAndClick(board, 46+25*i[1], 318+25*i[0],
REVEAL_TILE);`, used three times by `pivotBoard`. -/
def revealAll (screen : Nat → Mat) : List Pos → World → Option World
  | [], w => some w
  | i :: rest, w =>
    match warpAndClick screen w (46 + 25 * i.2) (318 + 25 * i.1) ACTION.REVEAL_TILE with
    | none => none
    | some w1 => revealAll screen rest w1

/-- First intersection loop of `pivotBoard`, over `results`: a tile found in
`pivot_results` goes to `results_intersection`, any other tile that is not `'M'` goes to
`results_not_intersection`. -/
def intersectLoop (board : Board) (pivot_results : List Pos) :
    List Pos → List Pos → List Pos → Option (List Pos × List Pos)
  | [], results_intersection, results_not_intersection =>
    some (results_intersection, results_not_intersection)
  | i :: rest, results_intersection, results_not_intersection =>
    if i ∈ pivot_results then
      intersectLoop board pivot_results rest (results_intersection ++ [i])
        results_not_intersection
    else
      match boardAt board i.1 i.2 with
      | none => none
      | some c =>
        if c ≠ 'M' then
          intersectLoop board pivot_results rest results_intersection
            (results_not_intersection ++ [i])
        else
          intersectLoop board pivot_results rest results_intersection
            results_not_intersection

/-- Second intersection loop of `pivotBoard`, over `pivot_surroundings`: a tile outside
`results_intersection` that is not `'M'` is appended both to `results_not_intersection` and
to `pivot_not_intersection`. -/
def pivotLoop (board : Board) (results_intersection : List Pos) :
    List Pos → List Pos → List Pos → Option (List Pos × List Pos)
  | [], results_not_intersection, pivot_not_intersection =>
    some (results_not_intersection, pivot_not_intersection)
  | i :: rest, results_not_intersection, pivot_not_intersection =>
    if i ∈ results_intersection then
      pivotLoop board results_intersection rest results_not_intersection
        pivot_not_intersection
    else
      match boardAt board i.1 i.2 with
      | none => none
      | some c =>
        if c ≠ 'M' then
          pivotLoop board results_intersection rest (results_not_intersection ++ [i])
            (pivot_not_intersection ++ [i])
        else
          pivotLoop board results_intersection rest results_not_intersection
            pivot_not_intersection

/-- Order `operator<=` derived from the lexicographic `operator<` of `std::vector<int>` on
two-element vectors. -/
def posLE (a b : Pos) : Prop :=
  a.1 < b.1 ∨ (a.1 = b.1 ∧ a.2 ≤ b.2)

instance posLE_decidable : DecidableRel posLE :=
  fun a b => inferInstanceAs (Decidable (a.1 < b.1 ∨ (a.1 = b.1 ∧ a.2 ≤ b.2)))

/-- Sorting `std::sort(v.begin(), v.end())` of a vector of positions. The order is total and
two positions that compare equal are equal, so the sorted vector does not depend on the
sorting algorithm. -/
def sortPos (v : List Pos) : List Pos :=
  v.insertionSort posLE

/-- Deduction rules of `pivotBoard`, the part after the neighbour lists are built. -/
def pivotRules (screen : Nat → Mat) (w : World) (results results_intersection
    results_not_intersection pivot_surroundings pivot_not_intersection : List Pos)
    (expected_bombs pivot_expected_bombs : Int) : Option (Bool × World) :=
  if pivot_expected_bombs > expected_bombs ∧ pivot_not_intersection.length = 0 then
    some (false, w)
  else if pivot_expected_bombs > expected_bombs ∧
      pivot_expected_bombs - expected_bombs = (pivot_not_intersection.length : Int) then
    (markAll screen pivot_not_intersection w).map fun w1 => (true, w1)
  else
    let results := sortPos results
    let results_intersection := sortPos results_intersection
    if pivot_expected_bombs = expected_bombs ∧ pivot_surroundings = results_intersection then
      if results_not_intersection.length = 0 then some (false, w)
      else (revealAll screen results_not_intersection w).map fun w1 => (true, w1)
    else if pivot_expected_bombs = expected_bombs ∧ results = results_intersection then
      if pivot_not_intersection.length = 0 then some (false, w)
      else (revealAll screen pivot_not_intersection w).map fun w1 => (true, w1)
    else if pivot_expected_bombs = expected_bombs ∧ results_not_intersection.length = 0 then
      if pivot_not_intersection.length = 0 then some (false, w)
      else (revealAll screen pivot_not_intersection w).map fun w1 => (true, w1)
    else if expected_bombs - pivot_expected_bombs = (results_not_intersection.length : Int) then
      if results_not_intersection.length = 0 then some (false, w)
      else (markAll screen results_not_intersection w).map fun w1 => (true, w1)
    else some (false, w)

set_option linter.unusedVariables false in
/-- Two-tile deduction `pivotBoard(board, x, y, pivot_x, pivot_y, surroundings, results,
bomb_counter)`. The result is the returned flag and the world after the call. The
parameter `surroundings` is only printed. -/
def pivotBoard (screen : Nat → Mat) (w : World) (x y pivot_x pivot_y : Int)
    (surroundings results : List Pos) (bomb_counter : Int) : Option (Bool × World) :=
  match boardAt w.board x y with
  | none => none
  | some tile =>
    let bombs : Int := (tile.toNat : Int) - 48
    match boardAt w.board pivot_x pivot_y with
    | none => none
    | some pivot =>
      if pivot ≠ 'E' ∧ pivot ≠ '0' ∧ pivot ≠ 'M' then
        let pivot_bombs : Int := (pivot.toNat : Int) - 48
        match surroundingTiles w.board pivot_x pivot_y ['E', 'M'] with
        | none => none
        | some pivot_surroundings =>
          match separateSurroundings w.board pivot_x pivot_y pivot_surroundings with
          | none => none
          | some (pivot_results, pivot_bomb_counter) =>
            let pivot_expected_bombs := pivot_bombs - pivot_bomb_counter
            match intersectLoop w.board pivot_results results [] [] with
            | none => none
            | some (results_intersection, not_intersection) =>
              match pivotLoop w.board results_intersection pivot_surroundings
                  not_intersection [] with
              | none => none
              | some (results_not_intersection, pivot_not_intersection) =>
                let expected_bombs := bombs - bomb_counter
                pivotRules screen w results results_intersection results_not_intersection
                  pivot_surroundings pivot_not_intersection expected_bombs
                  pivot_expected_bombs
      else some (false, w)

/-- Pivot directions of `markBombs`, in source order: left, right, up, then down; a tile of
the last row ends in the `else` branch that returns `false`. -/
def pivotDirections (screen : Nat → Mat) (w : World) (x y : Int) (rows cols : Nat)
    (surroundings results : List Pos) (bomb_counter : Int) : Option (Bool × World) :=
  let left : Option (Bool × World) :=
    if y > 0 then pivotBoard screen w x y x (y - 1) surroundings results bomb_counter
    else some (false, w)
  match left with
  | none => none
  | some (true, w1) => some (true, w1)
  | some (false, w1) =>
    let right : Option (Bool × World) :=
      if y < (cols : Int) - 1 then
        pivotBoard screen w1 x y x (y + 1) surroundings results bomb_counter
      else some (false, w1)
    match right with
    | none => none
    | some (true, w2) => some (true, w2)
    | some (false, w2) =>
      let up : Option (Bool × World) :=
        if x > 0 then pivotBoard screen w2 x y (x - 1) y surroundings results bomb_counter
        else some (false, w2)
      match up with
      | none => none
      | some (true, w3) => some (true, w3)
      | some (false, w3) =>
        if x < (rows : Int) - 1 then
          pivotBoard screen w3 x y (x + 1) y surroundings results bomb_counter
        else some (false, w3)

/-- Deduction `markBombs(board, x, y, strategy)`: the returned flag and the world after the
call. -/
def markBombs (screen : Nat → Mat) (w : World) (x y : Int) (strategy : STRATEGY) :
    Option (Bool × World) :=
  match boardAt w.board x y with
  | none => none
  | some tile =>
    let bombs : Int := (tile.toNat : Int) - 48
    match surroundingTiles w.board x y ['E', 'M'] with
    | none => none
    | some surroundings =>
      match separateSurroundings w.board x y surroundings with
      | none => none
      | some (results, bomb_counter) =>
        match strategy with
        | STRATEGY.SIMPLE =>
          if bomb_counter = bombs then
            (warpAndClick screen w (46 + 25 * y) (318 + 25 * x) ACTION.REVEAL_TILE).map
              fun w1 => (true, w1)
          else if bomb_counter + (results.length : Int) = bombs then
            (markAll screen results w).map fun w1 => (true, w1)
          else some (false, w)
        | STRATEGY.PIVOT =>
          match w.board.head? with
          | none => none
          | some row0 =>
            pivotDirections screen w x y w.board.length row0.length surroundings results
              bomb_counter

/-- The call of `pivotBoard` that `markBombs` makes for the tile `p` and the pivot `q`: with
the `surroundings`, `results` and `bomb_counter` that `markBombs` has computed for `p`. -/
def pivotCall (screen : Nat → Mat) (w : World) (p q : Pos) : Option (Bool × World) :=
  match surroundingTiles w.board p.1 p.2 ['E', 'M'] with
  | none => none
  | some surroundings =>
    match separateSurroundings w.board p.1 p.2 surroundings with
    | none => none
    | some (results, bomb_counter) =>
      pivotBoard screen w p.1 p.2 q.1 q.2 surroundings results bomb_counter

/-! ## Specification vocabulary -/

/-- A rectangular board: `rows` rows, each of `cols` tiles. -/
def Rect (board : Board) (rows cols : Nat) : Prop :=
  board.length = rows ∧ ∀ row ∈ board, row.length = cols

/-- Position inside `[0,rows) × [0,cols)`. -/
def InBounds (rows cols : Nat) (p : Pos) : Prop :=
  0 ≤ p.1 ∧ p.1 < (rows : Int) ∧ 0 ≤ p.2 ∧ p.2 < (cols : Int)

/-- Position `q` is within one row and one column of `p`. -/
def Adjacent (p q : Pos) : Prop :=
  p.1 - 1 ≤ q.1 ∧ q.1 ≤ p.1 + 1 ∧ p.2 - 1 ≤ q.2 ∧ q.2 ≤ p.2 + 1

/-- Two boards with the same row lengths. -/
def SameShape (b b1 : Board) : Prop :=
  b1.map List.length = b.map List.length

/-- Board `b1` keeps every tile of `b` that is not `'E'`, and has the same shape. -/
def Keeps (b b1 : Board) : Prop :=
  SameShape b b1 ∧ ∀ x y c, boardAt b x y = some c → c ≠ 'E' → boardAt b1 x y = some c

/-- Board `b1` is a refresh of `b`: same shape, every tile of `b` other than `'E'` is kept,
and no tile has become `'M'`. -/
def Refreshes (b b1 : Board) : Prop :=
  Keeps b b1 ∧ ∀ x y, boardAt b1 x y = some 'M' → boardAt b x y = some 'M'

/-- Position that `surroundingTiles` examines at loop index `i` on a board of `rows` rows
and `cols` columns: the pair `(pos_x, pos_y)` of the loop body. -/
def clampedPos (rows cols : Nat) (x y : Int) (i : Nat) : Pos :=
  (clampIndex (x - 1 + ((i / 3 : Nat) : Int)) rows,
   clampIndex (y - 1 + ((i % 3 : Nat) : Int)) cols)

/-- The tile at `q` exists and is one of the characters of `searchList`. -/
def TileIn (board : Board) (searchList : List Char) (q : Pos) : Prop :=
  ∃ c, boardAt board q.1 q.2 = some c ∧ c ∈ searchList

/-- The tile at `q` is the character `c`. -/
def holds (board : Board) (c : Char) (q : Pos) : Bool :=
  decide (boardAt board q.1 q.2 = some c)

/-- The tile at `q` is unrevealed or flagged, the default search list `{'E', 'M'}`. -/
def hidden (board : Board) (q : Pos) : Bool :=
  holds board 'E' q || holds board 'M' q

instance inBounds_decidable (rows cols : Nat) (p : Pos) : Decidable (InBounds rows cols p) :=
  inferInstanceAs (Decidable (0 ≤ p.1 ∧ p.1 < (rows : Int) ∧ 0 ≤ p.2 ∧ p.2 < (cols : Int)))

/-- The neighbours of `p`: the up to eight in-bounds positions within one row and one column
of `p`, other than `p`, in row-major order. -/
def neighbours (rows cols : Nat) (p : Pos) : List Pos :=
  [(p.1 - 1, p.2 - 1), (p.1 - 1, p.2), (p.1 - 1, p.2 + 1), (p.1, p.2 - 1), (p.1, p.2 + 1),
   (p.1 + 1, p.2 - 1), (p.1 + 1, p.2), (p.1 + 1, p.2 + 1)].filter
    fun q => decide (InBounds rows cols q)

/-- Number of flagged (`'M'`) neighbours of `p`. -/
def flaggedCount (board : Board) (rows cols : Nat) (p : Pos) : Nat :=
  (neighbours rows cols p).countP (holds board 'M')

/-- Number of unrevealed (`'E'`) neighbours of `p`. -/
def unrevealedCount (board : Board) (rows cols : Nat) (p : Pos) : Nat :=
  (neighbours rows cols p).countP (holds board 'E')

/-- The tile at `p` is `Number(n)`: the digit character of `n`, with `n` at most 8. -/
def IsNumber (board : Board) (p : Pos) (n : Nat) : Prop :=
  n ≤ 8 ∧ boardAt board p.1 p.2 = some (Char.ofNat (48 + n))

/-- The click that flags tile `q`: `warpAndClick(board, 46+25*q[1], 318+25*q[0],
MARK_BOMB)`. -/
def flagClick (q : Pos) : Click :=
  ⟨46 + 25 * q.2, 318 + 25 * q.1, ACTION.MARK_BOMB⟩

/-- The click that reveals tile `q`: `warpAndClick(board, 46+25*q[1], 318+25*q[0],
REVEAL_TILE)`. -/
def revealClick (q : Pos) : Click :=
  ⟨46 + 25 * q.2, 318 + 25 * q.1, ACTION.REVEAL_TILE⟩

/-- Number of mines of a placement among the neighbours of `p`. -/
def mineCount (mine : Pos → Bool) (rows cols : Nat) (p : Pos) : Nat :=
  (neighbours rows cols p).countP mine

/-- A placement puts mines only on in-bounds tiles that are unrevealed or flagged. -/
def MinesHidden (board : Board) (mine : Pos → Bool) : Prop :=
  ∀ q, mine q = true → hidden board q = true

/-- Every flagged tile of the board is a mine of the placement. -/
def FlagsAreMines (board : Board) (mine : Pos → Bool) : Prop :=
  ∀ q, holds board 'M' q = true → mine q = true

/-- Strict lexicographic order `operator<` of `std::vector<int>` on two-element vectors. -/
def posLT (a b : Pos) : Prop :=
  a.1 < b.1 ∨ (a.1 = b.1 ∧ a.2 < b.2)

/-- Position `q` is orthogonally adjacent to `p`: directly left, right, above or below. -/
def Orthogonal (p q : Pos) : Prop :=
  (q.1 = p.1 ∧ (q.2 = p.2 - 1 ∨ q.2 = p.2 + 1)) ∨ (q.2 = p.2 ∧ (q.1 = p.1 - 1 ∨ q.1 = p.1 + 1))

instance orthogonal_decidable (p q : Pos) : Decidable (Orthogonal p q) :=
  inferInstanceAs (Decidable ((q.1 = p.1 ∧ (q.2 = p.2 - 1 ∨ q.2 = p.2 + 1)) ∨
    (q.2 = p.2 ∧ (q.1 = p.1 - 1 ∨ q.1 = p.1 + 1))))

/-- The unrevealed neighbours of `q` that are not neighbours of `p`. With `p` the original
tile and `q` the pivot this is `pivotNotIntersection`; with the roles exchanged it is the
original tile's own part of `notIntersection`. -/
def exclusive (board : Board) (rows cols : Nat) (p q : Pos) : List Pos :=
  (neighbours rows cols q).filter fun t =>
    holds board 'E' t && !decide (t ∈ neighbours rows cols p)

/-- The tiles of `notIntersection` for the tile `p` and the pivot `q`: the unrevealed
neighbours of exactly one of the two, first those of `p`, then those of `q`. -/
def notIntersection (board : Board) (rows cols : Nat) (p q : Pos) : List Pos :=
  exclusive board rows cols q p ++ exclusive board rows cols p q

/-- Remaining mines expected around the `Number(n)` tile `p`: `n` minus its flagged
neighbours (`expected_bombs`, `pivot_expected_bombs`). -/
def expectedBombs (board : Board) (rows cols : Nat) (p : Pos) (n : Nat) : Int :=
  (n : Int) - (flaggedCount board rows cols p : Int)

/-- A deduction result is sound for a mine placement: the call returned, every `MARK_BOMB`
click it issued is the flag click of a mine, every `REVEAL_TILE` click it issued is the
reveal click of a tile without a mine, and every tile that has become `'M'` is a mine. -/
def SoundOutcome (w : World) (mine : Pos → Bool) (r : Option (Bool × World)) : Prop :=
  ∃ (changed : Bool) (w1 : World) (issued : List Click),
    r = some (changed, w1) ∧ w1.clicks = w.clicks ++ issued ∧
    (∀ c ∈ issued, c.action = ACTION.MARK_BOMB → ∃ t, c = flagClick t ∧ mine t = true) ∧
    (∀ c ∈ issued, c.action = ACTION.REVEAL_TILE → ∃ t, c = revealClick t ∧ mine t = false) ∧
    ∀ t : Pos, boardAt w1.board t.1 t.2 = some 'M' →
      boardAt w.board t.1 t.2 = some 'M' ∨ mine t = true

/-- A screen whose every pixel is black, whatever is clicked; used in concrete runs. -/
def blackScreen : Nat → Mat :=
  fun _ _ _ => ⟨0, 0, 0, 0⟩

/-- The pixel of the colour `RGB(r, g, b)`: OpenCV stores blue in `val[0]`, green in
`val[1]` and red in `val[2]`; the fourth channel is not read by the classifier. -/
def ofRGB (r g b : Nat) : Vec4b :=
  ⟨b, g, r, 0⟩

/-- Decision of the tile sampler for tile `j` of a row, taken when the tile's pixels have
been walked: the character written into the tile, or `none` when the border probe ends
without writing. `counter` and `real_color` are the number and the running average of the
accumulated foreground pixels; `y` is the pixel row and `start` the first probed column,
`34+25*j+corrector_x` in `updateBoard` and `34+25*j` in the copy of this code in `main`. -/
def tileValue (img : Mat) (y j start counter : Nat) (real_color : Vec4b) : Option Char :=
  let color_verdict := if counter > 0 then colorIdentifier real_color else COLOR.LIGHT_GRAY
  if color_verdict.val ≠ 0 then some (Char.ofNat (48 + color_verdict.val))
  else
    let last := 34 + 25 * (j + 1)
    borderProbe img y last (last + 1 - start) start

/-- The characters the tile sampler can write. -/
def sampleChars : List Char :=
  ['E', '0', '1', '2', '3', '4', '5', '6', '7', '8', '9', ':']

/-- Board `b1` comes from `b` by sampling: a tile of `b1` is the tile of `b` at the same
place, or that tile was `'E'` and the new one is a character the sampler writes. -/
def Sampled (b b1 : Board) : Prop :=
  ∀ x y c, boardAt b1 x y = some c →
    boardAt b x y = some c ∨ (boardAt b x y = some 'E' ∧ c ∈ sampleChars)

/-- One board-changing call of the solver: a refresh `updateBoard(board)`, a deduction
`markBombs(board, x, y, strategy)`, or the call of `pivotBoard` that `markBombs` makes for
the tile `p` and the pivot `q`. -/
inductive Op where
  | refresh
  | deduce (x y : Int) (strategy : STRATEGY)
  | pivot (p q : Pos)

/-- The world after one call. -/
def runOp (screen : Nat → Mat) (w : World) : Op → Option World
  | Op.refresh => updateBoard screen w
  | Op.deduce x y strategy => (markBombs screen w x y strategy).map Prod.snd
  | Op.pivot p q => (pivotCall screen w p q).map Prod.snd

/-- The world after a sequence of calls, each starting from the world the previous one
left. -/
def runOps (screen : Nat → Mat) : List Op → World → Option World
  | [], w => some w
  | op :: rest, w =>
    match runOp screen w op with
    | none => none
    | some w1 => runOps screen rest w1

/-- A screen whose every pixel is the blue `RGB(30,30,200)` of the digit 1. -/
def blueScreen : Nat → Mat :=
  fun _ _ _ => ofRGB 30 30 200

/-- A screen whose every pixel is white. -/
def whiteScreen : Nat → Mat :=
  fun _ _ _ => ofRGB 255 255 255

/-- A screen whose every pixel is `RGB(100,100,101)`, which matches no rule of the
classifier. -/
def dullScreen : Nat → Mat :=
  fun _ _ _ => ofRGB 100 100 101

/-- A screen whose every pixel is the dark `RGB(10,20,30)`. -/
def darkScreen : Nat → Mat :=
  fun _ _ _ => ofRGB 10 20 30

/-- A resolved tile: an in-bounds `Number` tile with no unrevealed neighbour. -/
def Resolved (board : Board) (rows cols : Nat) (t : Pos) : Prop :=
  InBounds rows cols t ∧ (∃ n, IsNumber board t n) ∧ unrevealedCount board rows cols t = 0

/-! ## The solver loop of `main` -/

/-- State of the solver loop of `main`: the world, the vectors `visited` and
`pivots_visited`, the flag `board_stalled` and the counter `board_changes` of the pass in
progress. Two logs that the program does not keep are added for the specification:
`calls` records every call of `markBombs` (tile and strategy), and `passes` records the
value of `board_changes` at the end of every finished pass. -/
structure Solver where
  world : World
  visited : List Pos
  pivots_visited : List Pos
  board_stalled : Bool
  board_changes : Nat
  calls : List (Pos × STRATEGY)
  passes : List Nat

/-- Body of the two inner loops of the solver for the tile `(i, j)`. The test of the source
is `notVisited || board_stalled && notPivotVisited`, in which `&&` binds tighter. -/
def solverTile (screen : Nat → Mat) (s : Solver) (i j : Nat) : Option Solver :=
  match boardAt s.world.board i j with
  | none => none
  | some tile =>
    if tile ≠ 'E' ∧ tile ≠ '0' ∧ tile ≠ 'M' then
      let aux : Pos := ((i : Int), (j : Int))
      if aux ∉ s.visited ∨ (s.board_stalled = true ∧ aux ∉ s.pivots_visited) then
        let strategy := if s.board_stalled then STRATEGY.PIVOT else STRATEGY.SIMPLE
        match markBombs screen s.world i j strategy with
        | none => none
        | some (true, w1) =>
          match strategy with
          | STRATEGY.SIMPLE =>
            match surroundingTiles w1.board i j ['E'] with
            | none => none
            | some after_marking =>
              some { s with
                world := w1
                visited := if after_marking.length = 0 then s.visited ++ [aux] else s.visited
                board_changes := s.board_changes + 1
                calls := s.calls ++ [(aux, strategy)] }
          | STRATEGY.PIVOT =>
            some { s with
              world := w1
              pivots_visited := []
              board_stalled := false
              board_changes := s.board_changes + 1
              calls := s.calls ++ [(aux, strategy)] }
        | some (false, w1) =>
          match strategy with
          | STRATEGY.SIMPLE =>
            some { s with world := w1, calls := s.calls ++ [(aux, strategy)] }
          | STRATEGY.PIVOT =>
            some { s with
              world := w1
              pivots_visited := s.pivots_visited ++ [aux]
              calls := s.calls ++ [(aux, strategy)] }
      else some s
    else some s

/-- Loop `for (j = 0; j < board_size_x; j++)` over the tiles of row `i`, given as the
list of the column indices still to visit. -/
def solverRow (screen : Nat → Mat) (i : Nat) : List Nat → Solver → Option Solver
  | [], s => some s
  | j :: rest, s =>
    match solverTile screen s i j with
    | none => none
    | some s1 => solverRow screen i rest s1

/-- Loop `for (i = 0; i < board_size_y; i++)` over the rows, given as the list of the row
indices still to visit. -/
def solverRows (screen : Nat → Mat) (board_size_x : Nat) : List Nat → Solver → Option Solver
  | [], s => some s
  | i :: rest, s =>
    match solverRow screen i (List.range board_size_x) s with
    | none => none
    | some s1 => solverRows screen board_size_x rest s1

/-- One pass of the solver: the body of `for (k = 0; k < 50; k++)`. -/
def solverPass (screen : Nat → Mat) (board_size_y board_size_x : Nat) (s : Solver) :
    Option Solver :=
  match solverRows screen board_size_x (List.range board_size_y)
      { s with board_changes := 0 } with
  | none => none
  | some s1 =>
    some { s1 with
      board_stalled := if s1.board_changes = 0 then true else s1.board_stalled
      passes := s1.passes ++ [s1.board_changes] }

/-- The given number of passes of the solver, one after the other. -/
def solverLoop (screen : Nat → Mat) (board_size_y board_size_x : Nat) :
    Nat → Solver → Option Solver
  | 0, s => some s
  | k + 1, s =>
    match solverPass screen board_size_y board_size_x s with
    | none => none
    | some s1 => solverLoop screen board_size_y board_size_x k s1

/-- The solver loop of `main` on the parsed board: both vectors empty, `board_stalled`
false, and the round budget of 50 passes. -/
def solver (screen : Nat → Mat) (board_size_y board_size_x : Nat) (w : World) :
    Option Solver :=
  solverLoop screen board_size_y board_size_x 50 ⟨w, [], [], false, 0, [], []⟩

/-- Sequencing of the pivot attempts of `markBombs`: `if (pivotBoard(...)) return true;`
followed by the rest. A `true` result ends the sequence, a `false` one continues with
`next` on the world the attempt has left. -/
def thenPivot (attempt : Option (Bool × World)) (next : World → Option (Bool × World)) :
    Option (Bool × World) :=
  match attempt with
  | none => none
  | some (true, w1) => some (true, w1)
  | some (false, w1) => next w1

/-- Pivot attempts for the tile `p` with the pivots of a list, tried in order: the first
attempt that returns `true` ends the sequence, and the result is `false` when every
attempt has returned `false`. This is the reading of the PIVOT strategy that the
direction tests of `markBombs` are compared with. -/
def pivotChain (screen : Nat → Mat) (w : World) (p : Pos) : List Pos → Option (Bool × World)
  | [] => some (false, w)
  | q :: rest => thenPivot (pivotCall screen w p q) fun _ => pivotChain screen w p rest

theorem vecAt_eq_some {α : Type} {v : List α} {i : Int} {a : α} :
    vecAt v i = some a ↔ 0 ≤ i ∧ v[i.toNat]? = some a := by
  unfold vecAt
  split <;> simp <;> omega

theorem boardAt_eq_some {b : Board} {x y : Int} {c : Char} :
    boardAt b x y = some c ↔
      0 ≤ x ∧ 0 ≤ y ∧ ∃ row, b[x.toNat]? = some row ∧ row[y.toNat]? = some c := by
  unfold boardAt
  constructor
  · intro h
    obtain ⟨row, hr, hc⟩ := Option.bind_eq_some.mp h
    rw [vecAt_eq_some] at hr hc
    exact ⟨hr.1, hc.1, row, hr.2, hc.2⟩
  · rintro ⟨hx, hy, row, hr, hc⟩
    exact Option.bind_eq_some.mpr ⟨row, vecAt_eq_some.mpr ⟨hx, hr⟩, vecAt_eq_some.mpr ⟨hy, hc⟩⟩

theorem rect_row_length {b : Board} {rows cols : Nat} (h : Rect b rows cols) {k : Nat}
    {row : List Char} (hk : b[k]? = some row) : row.length = cols := by
  obtain ⟨hlt, rfl⟩ := List.getElem?_eq_some.mp hk
  exact h.2 _ (List.getElem_mem hlt)

theorem rect_inBounds_of_boardAt {b : Board} {rows cols : Nat} (h : Rect b rows cols)
    {x y : Int} {c : Char} (hc : boardAt b x y = some c) : InBounds rows cols (x, y) := by
  obtain ⟨hx, hy, row, hr, hcc⟩ := boardAt_eq_some.mp hc
  have hlen := rect_row_length h hr
  obtain ⟨h1, -⟩ := List.getElem?_eq_some.mp hr
  obtain ⟨h2, -⟩ := List.getElem?_eq_some.mp hcc
  have h0 := h.1
  refine ⟨hx, ?_, hy, ?_⟩ <;> simp only <;> omega

theorem rect_boardAt_of_inBounds {b : Board} {rows cols : Nat} (h : Rect b rows cols)
    {x y : Int} (hp : InBounds rows cols (x, y)) : ∃ c, boardAt b x y = some c := by
  obtain ⟨hx, hx1, hy, hy1⟩ := hp
  simp only at hx hx1 hy hy1
  have h1 : x.toNat < b.length := by have := h.1; omega
  have hr : b[x.toNat]? = some b[x.toNat] := List.getElem?_eq_getElem h1
  have hlen := rect_row_length h hr
  have h2 : y.toNat < (b[x.toNat]).length := by omega
  exact ⟨_, boardAt_eq_some.mpr ⟨hx, hy, _, hr, List.getElem?_eq_getElem h2⟩⟩

theorem rect_head {b : Board} {rows cols : Nat} (h : Rect b rows cols) (hrows : 0 < rows) :
    ∃ row0, b.head? = some row0 ∧ row0.length = cols := by
  cases b with
  | nil => have := h.1; simp at this; omega
  | cons r t => exact ⟨r, rfl, h.2 r (List.mem_cons_self _ _)⟩

theorem sameShape_refl (b : Board) : SameShape b b := rfl

theorem sameShape_trans {a b c : Board} (h1 : SameShape a b) (h2 : SameShape b c) :
    SameShape a c := by
  unfold SameShape at *
  rw [h2, h1]

theorem sameShape_length {b b1 : Board} (h : SameShape b b1) : b1.length = b.length := by
  have := congrArg List.length h
  simpa using this

theorem sameShape_rect {b b1 : Board} {rows cols : Nat} (h : SameShape b b1)
    (hr : Rect b rows cols) : Rect b1 rows cols := by
  refine ⟨by rw [sameShape_length h, hr.1], ?_⟩
  intro row hrow
  have h1 : row.length ∈ b1.map List.length := List.mem_map_of_mem _ hrow
  rw [h] at h1
  obtain ⟨r, hr1, hr2⟩ := List.mem_map.mp h1
  rw [← hr2]
  exact hr.2 r hr1

theorem keeps_refl (b : Board) : Keeps b b :=
  ⟨sameShape_refl b, fun _ _ _ h _ => h⟩

theorem keeps_trans {a b c : Board} (h1 : Keeps a b) (h2 : Keeps b c) : Keeps a c :=
  ⟨sameShape_trans h1.1 h2.1, fun x y ch h hne => h2.2 x y ch (h1.2 x y ch h hne) hne⟩

theorem boardSet_eq_some {b : Board} {x y : Int} {c0 : Char} (c : Char)
    (h : boardAt b x y = some c0) : ∃ b1, boardSet b x y c = some b1 := by
  obtain ⟨hx, hy, row, hr, hc⟩ := boardAt_eq_some.mp h
  refine ⟨b.set x.toNat (row.set y.toNat c), ?_⟩
  unfold boardSet
  rw [vecAt_eq_some.mpr ⟨hx, hr⟩]
  simp [vecAt_eq_some.mpr ⟨hy, hc⟩]

theorem boardSet_spec {b b1 : Board} {x y : Int} {c : Char}
    (h : boardSet b x y c = some b1) :
    SameShape b b1 ∧ boardAt b1 x y = some c ∧
      ∀ x1 y1, (x1, y1) ≠ (x, y) → boardAt b1 x1 y1 = boardAt b x1 y1 := by
  unfold boardSet at h
  obtain ⟨row, hr, h2⟩ := Option.bind_eq_some.mp h
  obtain ⟨c0, hc0, h3⟩ := Option.map_eq_some'.mp h2
  rw [vecAt_eq_some] at hr hc0
  obtain ⟨hx, hr⟩ := hr
  obtain ⟨hy, hc0⟩ := hc0
  obtain ⟨hxl, hrow⟩ := List.getElem?_eq_some.mp hr
  obtain ⟨hyl, -⟩ := List.getElem?_eq_some.mp hc0
  subst h3
  refine ⟨?_, ?_, ?_⟩
  · unfold SameShape
    rw [List.map_set, List.length_set]
    apply List.ext_getElem? 
    intro k
    rw [List.getElem?_set]
    split
    · next hk => subst hk; simp [hxl, hrow]
    · rfl
  · exact boardAt_eq_some.mpr ⟨hx, hy, row.set y.toNat c, by simp [hxl], by simp [hyl]⟩
  · intro x1 y1 hne
    unfold boardAt vecAt
    by_cases hx1 : x1 < 0
    · simp [hx1]
    · simp only [hx1, if_false]
      by_cases hxx : x.toNat = x1.toNat
      · have hxe : x1 = x := by omega
        subst hxe
        have hyy : y.toNat ≠ y1.toNat ∨ y1 < 0 := by
          by_contra hcon
          push_neg at hcon
          apply hne
          have : y1 = y := by omega
          rw [this]
        rw [List.getElem?_set, if_pos rfl, if_pos hxl, hr]
        simp only [Option.some_bind]
        by_cases hy1 : y1 < 0
        · simp [hy1]
        · simp only [hy1, if_false]
          rcases hyy with hyy | hyy
          · rw [List.getElem?_set_ne hyy]
          · exact absurd hyy hy1
      · rw [List.getElem?_set_ne hxx]

theorem boardSet_keeps {b b1 : Board} {x y : Int} {c : Char}
    (hE : boardAt b x y = some 'E') (h : boardSet b x y c = some b1) : Keeps b b1 := by
  obtain ⟨hs, -, hother⟩ := boardSet_spec h
  refine ⟨hs, ?_⟩
  intro x1 y1 c1 h1 hne
  by_cases hp : (x1, y1) = (x, y)
  · cases hp
    rw [hE] at h1
    cases h1
    exact absurd rfl hne
  · rw [hother x1 y1 hp]
    exact h1

/-! ## The refresh keeps every decided tile -/

theorem refreshes_refl (b : Board) : Refreshes b b :=
  ⟨keeps_refl b, fun _ _ h => h⟩

theorem refreshes_trans {a b c : Board} (h1 : Refreshes a b) (h2 : Refreshes b c) :
    Refreshes a c :=
  ⟨keeps_trans h1.1 h2.1, fun x y h => h1.2 x y (h2.2 x y h)⟩

theorem boardSet_refreshes {b b1 : Board} {x y : Int} {c : Char}
    (hE : boardAt b x y = some 'E') (hc : c ≠ 'M') (h : boardSet b x y c = some b1) :
    Refreshes b b1 := by
  refine ⟨boardSet_keeps hE h, ?_⟩
  obtain ⟨-, hat, hother⟩ := boardSet_spec h
  intro x1 y1 h1
  by_cases hp : (x1, y1) = (x, y)
  · cases hp
    rw [hat] at h1
    cases h1
    exact absurd rfl hc
  · rw [hother x1 y1 hp] at h1
    exact h1

theorem borderProbe_char (img : Mat) (y last : Nat) :
    ∀ (n x : Nat) (ch : Char), borderProbe img y last n x = some ch → ch = 'E' ∨ ch = '0' := by
  intro n
  induction n with
  | zero =>
    intro x ch h
    simp [borderProbe] at h
  | succ n ih =>
    intro x ch h
    unfold borderProbe at h
    split at h
    · split at h
      · left
        cases h
        rfl
      · split at h
        · right
          cases h
          rfl
        · exact ih _ _ h
    · cases h

theorem verdict_char_ne_flag (v : COLOR) : Char.ofNat (48 + v.val) ≠ 'M' := by
  cases v <;> decide

theorem written_refreshes (img : Mat) {board : Board} {i j : Nat} (verdict : COLOR)
    (y first last n : Nat) (hE : boardAt board i j = some 'E') :
    ∃ b1, (if verdict.val ≠ 0 then boardSet board i j (Char.ofNat (48 + verdict.val))
        else match borderProbe img y last n first with
          | none => some board
          | some ch => boardSet board i j ch) = some b1 ∧ Refreshes board b1 := by
  split
  · obtain ⟨b1, h1⟩ := boardSet_eq_some (Char.ofNat (48 + verdict.val)) hE
    exact ⟨b1, h1, boardSet_refreshes hE (verdict_char_ne_flag verdict) h1⟩
  · split
    · exact ⟨board, rfl, refreshes_refl board⟩
    · next ch hprobe =>
      obtain ⟨b1, h1⟩ := boardSet_eq_some ch hE
      have hch : ch ≠ 'M' := by
        rcases borderProbe_char img y last n first ch hprobe with h | h <;> rw [h] <;> decide
      exact ⟨b1, h1, boardSet_refreshes hE hch h1⟩

theorem updateRow_refreshes (img : Mat) {rows cols : Nat} (hcols : 0 < cols)
    (i offset_row : Nat) (hi : i < rows) :
    ∀ (fuel : Nat) (board : Board) (j offset tc counter : Nat) (rc : Vec4b),
      Rect board rows cols → 34 + 25 * j + tc ≤ offset → (j = 0 ∨ 35 + 25 * j ≤ offset) →
      offset ≤ 35 + 25 * j + tc → tc ≤ 25 → offset ≤ 35 + 25 * cols →
      36 + 26 * cols ≤ offset + j + fuel →
      ∃ b1, updateRow img cols i offset_row fuel board j offset tc counter rc = some b1 ∧
        Refreshes board b1 := by
  intro fuel
  induction fuel with
  | zero =>
    intro board j offset tc counter rc _ _ h2 _ _ h5 h6
    omega
  | succ fuel ih =>
    intro board j offset tc counter rc hrect h1 h2 h3 h4 h5 h6
    unfold updateRow
    have hlim : colLimit cols = 35 + 25 * (cols : Int) := by unfold colLimit; ring
    rw [hlim]
    by_cases hlt : (offset : Int) < 35 + 25 * (cols : Int)
    · rw [if_pos hlt]
      have hj : j < cols := by omega
      obtain ⟨c, hc⟩ := rect_boardAt_of_inBounds hrect (x := (i : Int)) (y := (j : Int))
        ⟨by simp, by simp; omega, by simp, by simp; omega⟩
      simp only [hc]
      by_cases hkept : c ≠ 'E' ∨ c = '0' ∨ c = 'M' ∨ c = '9'
      · rw [if_pos hkept]
        exact ih board (j + 1) (34 + 25 * (j + 1) + 1) 0 0 zeroColor hrect (by omega)
          (by omega) (by omega) (by omega) (by omega) (by omega)
      · rw [if_neg hkept]
        have hE : boardAt board i j = some 'E' := by
          have : c = 'E' := by
            by_contra hne
            exact hkept (Or.inl hne)
          rw [hc, this]
        split
        · next hdec =>
          obtain ⟨b1, hw, hk⟩ := written_refreshes img
            (if counter > 0 then colorIdentifier rc else COLOR.LIGHT_GRAY) offset_row
            (34 + 25 * j + j / 2) (34 + 25 * (j + 1))
            (34 + 25 * (j + 1) + 1 - (34 + 25 * j + j / 2)) hE
          simp only [hw]
          have hoff : 34 + 25 * (j + 1) ≤ offset := by
            rcases hdec with hdec | hdec
            · omega
            · omega
          obtain ⟨b2, hb2, hk2⟩ := ih b1 (j + 1) (offset + 1) 1 0 zeroColor
            (sameShape_rect hk.1.1 hrect) (by omega) (by omega) (by omega) (by omega) (by omega)
            (by omega)
          exact ⟨b2, hb2, refreshes_trans hk hk2⟩
        · split
          · exact ih board j (offset + 1) (tc + 1) counter rc hrect (by omega) (by omega)
              (by omega) (by omega) (by omega) (by omega)
          · exact ih board j (offset + 1) (tc + 1) (counter + 1) _ hrect (by omega) (by omega)
              (by omega) (by omega) (by omega) (by omega)
    · rw [if_neg hlt]
      exact ⟨board, rfl, refreshes_refl board⟩

theorem updateRows_refreshes (img : Mat) {rows cols : Nat} (hcols : 0 < cols) :
    ∀ (fuel : Nat) (board : Board) (i : Nat),
      Rect board rows cols → rows + 1 ≤ i + fuel → i ≤ rows →
      ∃ b1, updateRows img rows cols fuel board i (318 + 25 * i) = some b1 ∧
        Refreshes board b1 := by
  intro fuel
  induction fuel with
  | zero =>
    intro board i _ h1 h2
    omega
  | succ fuel ih =>
    intro board i hrect h1 h2
    unfold updateRows
    have hlim : rowLimit rows = 305 + 25 * (rows : Int) := by unfold rowLimit; ring
    rw [hlim]
    by_cases hlt : ((318 + 25 * i : Nat) : Int) < 305 + 25 * (rows : Int)
    · rw [if_pos hlt]
      have hi : i < rows := by omega
      obtain ⟨b1, hb1, hk1⟩ := updateRow_refreshes img hcols i (318 + 25 * i) hi (rowFuel cols)
        board 0 34 0 0 zeroColor hrect (by omega) (by omega) (by omega) (by omega) (by omega)
        (by unfold rowFuel; omega)
      simp only [hb1]
      obtain ⟨b2, hb2, hk2⟩ := ih b1 (i + 1) (sameShape_rect hk1.1.1 hrect) (by omega) (by omega)
      have he : 318 + 25 * i + 25 = 318 + 25 * (i + 1) := by ring
      rw [he]
      exact ⟨b2, hb2, refreshes_trans hk1 hk2⟩
    · rw [if_neg hlt]
      exact ⟨board, rfl, refreshes_refl board⟩

/-- The refresh succeeds on every non-empty rectangular board: it takes one screenshot,
sends no click, keeps every tile that is not `'E'` and writes no `'M'`. -/
theorem updateBoard_spec (screen : Nat → Mat) (w : World) {rows cols : Nat}
    (hrect : Rect w.board rows cols) (hrows : 0 < rows) (hcols : 0 < cols) :
    ∃ w1, updateBoard screen w = some w1 ∧ w1.clicks = w.clicks ∧
      w1.frames = w.frames + 1 ∧ Refreshes w.board w1.board := by
  obtain ⟨row0, h0, hlen⟩ := rect_head hrect hrows
  obtain ⟨b1, hb1, hk⟩ := updateRows_refreshes (screen w.frames) hcols (rows + 1) w.board 0
    hrect (by omega) (by omega)
  unfold updateBoard
  rw [h0]
  simp only [hlen, hrect.1]
  simp only [Nat.mul_zero, Nat.add_zero] at hb1
  rw [hb1]
  exact ⟨_, rfl, rfl, rfl, hk⟩

theorem warpAndClick_spec (screen : Nat → Mat) (w : World) (x y : Int) (action : ACTION)
    {rows cols : Nat} (hrect : Rect w.board rows cols) (hrows : 0 < rows) (hcols : 0 < cols) :
    ∃ w1, warpAndClick screen w x y action = some w1 ∧
      w1.clicks = w.clicks ++ [⟨x, y, action⟩] ∧ w1.frames = w.frames + 1 ∧
      Refreshes w.board w1.board := by
  unfold warpAndClick
  exact updateBoard_spec screen { w with clicks := w.clicks ++ [⟨x, y, action⟩] } hrect
    hrows hcols

/-! ## Neighbour lookup lemmas -/

theorem clampedPos_inBounds {rows cols : Nat} (hrows : 0 < rows) (hcols : 0 < cols)
    (x y : Int) (i : Nat) : InBounds rows cols (clampedPos rows cols x y i) := by
  unfold InBounds clampedPos clampIndex
  simp only
  omega

theorem surroundingLoop_spec {board : Board} {rows cols : Nat} (hrect : Rect board rows cols)
    (hrows : 0 < rows) (hcols : 0 < cols) (x y : Int) (sl : List Char) :
    ∀ (is : List Nat) (result : List Pos),
      ∃ res, surroundingLoop board cols x y sl is result = some res ∧
        (∀ q, q ∈ res ↔
          q ∈ result ∨ ∃ i ∈ is, q = clampedPos rows cols x y i ∧ TileIn board sl q) ∧
        (result.Nodup → res.Nodup) := by
  intro is
  induction is with
  | nil =>
    intro result
    exact ⟨result, rfl, by simp, fun h => h⟩
  | cons i rest ih =>
    intro result
    unfold surroundingLoop
    have hpos : (clampIndex (x - 1 + ((i / 3 : Nat) : Int)) board.length,
        clampIndex (y - 1 + ((i % 3 : Nat) : Int)) cols) = clampedPos rows cols x y i := by
      rw [hrect.1]
      rfl
    obtain ⟨c, hc⟩ := rect_boardAt_of_inBounds hrect (clampedPos_inBounds hrows hcols x y i)
    have hc1 : boardAt board (clampIndex (x - 1 + ((i / 3 : Nat) : Int)) board.length)
        (clampIndex (y - 1 + ((i % 3 : Nat) : Int)) cols) = some c := by
      rw [hrect.1]
      exact hc
    simp only [hc1, hpos]
    by_cases hin : c ∈ sl
    · rw [if_pos hin]
      have htile : TileIn board sl (clampedPos rows cols x y i) := ⟨c, hc, hin⟩
      by_cases hmem : clampedPos rows cols x y i ∈ result
      · rw [if_pos hmem]
        obtain ⟨res, hres, hiff, hnd⟩ := ih result
        refine ⟨res, hres, ?_, hnd⟩
        intro q
        rw [hiff q]
        constructor
        · rintro (h | ⟨k, hk, hq, ht⟩)
          · exact Or.inl h
          · exact Or.inr ⟨k, List.mem_cons_of_mem _ hk, hq, ht⟩
        · rintro (h | ⟨k, hk, hq, ht⟩)
          · exact Or.inl h
          · rcases List.mem_cons.mp hk with rfl | hk
            · exact Or.inl (hq ▸ hmem)
            · exact Or.inr ⟨k, hk, hq, ht⟩
      · rw [if_neg hmem]
        obtain ⟨res, hres, hiff, hnd⟩ := ih (result ++ [clampedPos rows cols x y i])
        refine ⟨res, hres, ?_, ?_⟩
        · intro q
          rw [hiff q, List.mem_append, List.mem_singleton]
          constructor
          · rintro ((h | h) | ⟨k, hk, hq, ht⟩)
            · exact Or.inl h
            · exact Or.inr ⟨i, List.mem_cons_self _ _, h, h ▸ htile⟩
            · exact Or.inr ⟨k, List.mem_cons_of_mem _ hk, hq, ht⟩
          · rintro (h | ⟨k, hk, hq, ht⟩)
            · exact Or.inl (Or.inl h)
            · rcases List.mem_cons.mp hk with rfl | hk
              · exact Or.inl (Or.inr hq)
              · exact Or.inr ⟨k, hk, hq, ht⟩
        · intro hn
          apply hnd
          rw [List.nodup_append]
          refine ⟨hn, List.nodup_singleton _, ?_⟩
          intro a ha hb
          rw [List.mem_singleton] at hb
          exact hmem (hb ▸ ha)
    · rw [if_neg hin]
      obtain ⟨res, hres, hiff, hnd⟩ := ih result
      refine ⟨res, hres, ?_, hnd⟩
      intro q
      rw [hiff q]
      constructor
      · rintro (h | ⟨k, hk, hq, ht⟩)
        · exact Or.inl h
        · exact Or.inr ⟨k, List.mem_cons_of_mem _ hk, hq, ht⟩
      · rintro (h | ⟨k, hk, hq, ht⟩)
        · exact Or.inl h
        · rcases List.mem_cons.mp hk with rfl | hk
          · exfalso
            obtain ⟨c1, hc1, hin1⟩ := ht
            rw [hq] at hc1
            have hcc : some c = some c1 := hc.symm.trans hc1
            cases hcc
            exact hin hin1
          · exact Or.inr ⟨k, hk, hq, ht⟩

/-- On a non-empty rectangular board `surroundingTiles` returns a duplicate-free list whose
members are the examined positions with a tile of the search list. -/
theorem surroundingTiles_spec {board : Board} {rows cols : Nat} (hrect : Rect board rows cols)
    (hrows : 0 < rows) (hcols : 0 < cols) (x y : Int) (sl : List Char) :
    ∃ res, surroundingTiles board x y sl = some res ∧ res.Nodup ∧
      ∀ q, q ∈ res ↔ (∃ i, i < 9 ∧ q = clampedPos rows cols x y i) ∧ TileIn board sl q := by
  obtain ⟨row0, h0, hlen⟩ := rect_head hrect hrows
  obtain ⟨res, hres, hiff, hnd⟩ :=
    surroundingLoop_spec hrect hrows hcols x y sl (List.range 9) []
  refine ⟨res, ?_, hnd List.nodup_nil, ?_⟩
  · unfold surroundingTiles
    rw [h0]
    simp only [hlen]
    exact hres
  · intro q
    rw [hiff q]
    constructor
    · rintro (h | ⟨i, hi, hq, ht⟩)
      · cases h
      · exact ⟨⟨i, List.mem_range.mp hi, hq⟩, ht⟩
    · rintro ⟨⟨i, hi, hq⟩, ht⟩
      exact Or.inr ⟨i, List.mem_range.mpr hi, hq, ht⟩

/-- The positions examined around an in-bounds `p` are `p` itself and the in-bounds
positions within one row and one column of it. -/
theorem clampedPos_iff {rows cols : Nat} {p : Pos} (hp : InBounds rows cols p) (q : Pos) :
    (∃ i, i < 9 ∧ q = clampedPos rows cols p.1 p.2 i) ↔ InBounds rows cols q ∧ Adjacent p q := by
  obtain ⟨x, y⟩ := p
  obtain ⟨a, b⟩ := q
  unfold InBounds at hp
  simp only at hp
  constructor
  · rintro ⟨i, hi, hq⟩
    have h3 : i / 3 < 3 := by omega
    have h4 : i % 3 < 3 := by omega
    unfold clampedPos clampIndex at hq
    simp only [Prod.mk.injEq] at hq
    unfold InBounds Adjacent
    simp only
    omega
  · rintro ⟨hq, hadj⟩
    unfold InBounds at hq
    unfold Adjacent at hadj
    simp only at hq hadj
    refine ⟨(3 * (a - x + 1) + (b - y + 1)).toNat, by omega, ?_⟩
    have h3 : (((3 * (a - x + 1) + (b - y + 1)).toNat / 3 : Nat) : Int) = a - x + 1 := by omega
    have h4 : (((3 * (a - x + 1) + (b - y + 1)).toNat % 3 : Nat) : Int) = b - y + 1 := by omega
    unfold clampedPos clampIndex
    rw [h3, h4]
    simp only [Prod.mk.injEq]
    omega

/-! ## Claims about the neighbour lookup -/

/-- C4: on a non-empty rectangular board, for an in-bounds position `(x, y)` and any search
list, `surroundingTiles` returns (no lookup goes out of range) and every position of its
result lies inside `[0,rows) × [0,cols)`. -/
theorem surroundingTiles_in_bounds (board : Board) (rows cols : Nat) (x y : Int)
    (searchList : List Char) (hrect : Rect board rows cols) (hrows : 0 < rows)
    (hcols : 0 < cols) (_hp : InBounds rows cols (x, y)) :
    ∃ res, surroundingTiles board x y searchList = some res ∧
      ∀ q ∈ res, InBounds rows cols q := by
  obtain ⟨res, hres, -, hiff⟩ := surroundingTiles_spec hrect hrows hcols x y searchList
  refine ⟨res, hres, ?_⟩
  intro q hq
  obtain ⟨⟨i, -, hi⟩, -⟩ := (hiff q).mp hq
  rw [hi]
  exact clampedPos_inBounds hrows hcols x y i

theorem surroundingTiles_in_bounds_witness :
    Rect [['1', 'E'], ['E', 'M']] 2 2 ∧ InBounds 2 2 (0, 0) ∧
      ∃ res, surroundingTiles [['1', 'E'], ['E', 'M']] 0 0 ['E', 'M'] = some res ∧
        ∀ q ∈ res, InBounds 2 2 q :=
  have hrect : Rect [['1', 'E'], ['E', 'M']] 2 2 := ⟨rfl, by simp⟩
  have hp : InBounds 2 2 (0, 0) := by unfold InBounds; simp
  ⟨hrect, hp, surroundingTiles_in_bounds [['1', 'E'], ['E', 'M']] 2 2 0 0 ['E', 'M'] hrect
    (by decide) (by decide) hp⟩

/-- C5: on a non-empty rectangular board, for an in-bounds position `p` and any search
list, a position `q` other than `p` is in the result of `surroundingTiles` exactly when `q`
is in bounds, within one row and one column of `p`, and holds a tile of the search list. -/
theorem surroundingTiles_mem_iff (board : Board) (rows cols : Nat) (p : Pos)
    (searchList : List Char) (hrect : Rect board rows cols) (hrows : 0 < rows)
    (hcols : 0 < cols) (hp : InBounds rows cols p) :
    ∃ res, surroundingTiles board p.1 p.2 searchList = some res ∧
      ∀ q, q ≠ p →
        (q ∈ res ↔ InBounds rows cols q ∧ Adjacent p q ∧ TileIn board searchList q) := by
  obtain ⟨res, hres, -, hiff⟩ := surroundingTiles_spec hrect hrows hcols p.1 p.2 searchList
  refine ⟨res, hres, ?_⟩
  intro q _
  rw [hiff q, clampedPos_iff hp q, and_assoc]

theorem surroundingTiles_mem_iff_witness :
    Rect [['1', 'E'], ['E', 'M']] 2 2 ∧ InBounds 2 2 (0, 0) ∧
      ∃ res, surroundingTiles [['1', 'E'], ['E', 'M']] 0 0 ['E'] = some res ∧
        ∀ q, q ≠ ((0, 0) : Pos) →
          (q ∈ res ↔ InBounds 2 2 q ∧ Adjacent (0, 0) q ∧
            TileIn [['1', 'E'], ['E', 'M']] ['E'] q) :=
  have hrect : Rect [['1', 'E'], ['E', 'M']] 2 2 := ⟨rfl, by simp⟩
  have hp : InBounds 2 2 (0, 0) := by unfold InBounds; simp
  ⟨hrect, hp, surroundingTiles_mem_iff [['1', 'E'], ['E', 'M']] 2 2 (0, 0) ['E'] hrect
    (by decide) (by decide) hp⟩

/-! ## Neighbours and counts -/

theorem mem_neighbours {rows cols : Nat} {p q : Pos} :
    q ∈ neighbours rows cols p ↔ InBounds rows cols q ∧ Adjacent p q ∧ q ≠ p := by
  obtain ⟨x, y⟩ := p
  obtain ⟨a, b⟩ := q
  simp only [neighbours, List.mem_filter, List.mem_cons, Prod.mk.injEq, List.not_mem_nil,
    decide_eq_true_eq, Adjacent, InBounds, ne_eq, or_false]
  omega

theorem neighbours_nodup (rows cols : Nat) (p : Pos) : (neighbours rows cols p).Nodup := by
  obtain ⟨x, y⟩ := p
  unfold neighbours
  apply List.Nodup.filter
  simp only [List.nodup_cons, List.mem_cons, Prod.mk.injEq, List.not_mem_nil, or_false,
    List.nodup_nil, and_true, not_false_eq_true]
  omega

theorem holds_iff {board : Board} {c : Char} {q : Pos} :
    holds board c q = true ↔ boardAt board q.1 q.2 = some c := by
  unfold holds
  simp

theorem hidden_iff {board : Board} {q : Pos} :
    hidden board q = true ↔ TileIn board ['E', 'M'] q := by
  unfold hidden TileIn
  simp only [Bool.or_eq_true, holds_iff, List.mem_cons, List.not_mem_nil, or_false]
  constructor
  · rintro (h | h)
    · exact ⟨'E', h, Or.inl rfl⟩
    · exact ⟨'M', h, Or.inr rfl⟩
  · rintro ⟨c, hc, rfl | rfl⟩
    · exact Or.inl hc
    · exact Or.inr hc

theorem number_char {n : Nat} (hn : n ≤ 8) :
    ((Char.ofNat (48 + n)).toNat : Int) - 48 = n ∧ Char.ofNat (48 + n) ≠ 'E' ∧
      Char.ofNat (48 + n) ≠ 'M' := by
  interval_cases n <;> refine ⟨by rfl, by decide, by decide⟩

/-- Around an in-bounds tile that is neither `'E'` nor `'M'`, the default lookup returns a
duplicate-free list of exactly the hidden neighbours. -/
theorem surroundings_spec {board : Board} {rows cols : Nat} (hrect : Rect board rows cols)
    (hrows : 0 < rows) (hcols : 0 < cols) {p : Pos} (hp : InBounds rows cols p)
    (hself : hidden board p = false) :
    ∃ S, surroundingTiles board p.1 p.2 ['E', 'M'] = some S ∧ S.Nodup ∧
      ∀ q, q ∈ S ↔ q ∈ neighbours rows cols p ∧ hidden board q = true := by
  obtain ⟨S, hS, hnd, hiff⟩ := surroundingTiles_spec hrect hrows hcols p.1 p.2 ['E', 'M']
  refine ⟨S, hS, hnd, ?_⟩
  intro q
  rw [hiff q, clampedPos_iff hp q, mem_neighbours, ← hidden_iff]
  constructor
  · rintro ⟨⟨h1, h2⟩, h3⟩
    refine ⟨⟨h1, h2, ?_⟩, h3⟩
    rintro rfl
    rw [hself] at h3
    cases h3
  · rintro ⟨⟨h1, h2, -⟩, h3⟩
    exact ⟨⟨h1, h2⟩, h3⟩

theorem surroundings_perm {rows cols : Nat} {board : Board} {p : Pos} {S : List Pos}
    (hnd : S.Nodup) (hiff : ∀ q, q ∈ S ↔ q ∈ neighbours rows cols p ∧ hidden board q = true) :
    S.Perm ((neighbours rows cols p).filter (hidden board)) := by
  rw [List.perm_ext_iff_of_nodup hnd ((neighbours_nodup rows cols p).filter _)]
  intro q
  rw [hiff q, List.mem_filter]

theorem holds_flag_not_unrevealed {board : Board} {q : Pos} (h : holds board 'M' q = true) :
    holds board 'E' q = false := by
  rw [holds_iff] at h
  unfold holds
  rw [h]
  decide

theorem count_flag_surroundings {rows cols : Nat} {board : Board} {p : Pos} {S : List Pos}
    (hnd : S.Nodup) (hiff : ∀ q, q ∈ S ↔ q ∈ neighbours rows cols p ∧ hidden board q = true) :
    S.countP (holds board 'M') = flaggedCount board rows cols p := by
  rw [(surroundings_perm hnd hiff).countP_eq, List.countP_filter]
  unfold flaggedCount
  apply List.countP_congr
  intro q _
  unfold hidden
  simp only [Bool.and_eq_true, Bool.or_eq_true]
  constructor
  · exact fun h => h.1
  · exact fun h => ⟨h, Or.inr h⟩

theorem count_unrevealed_surroundings {rows cols : Nat} {board : Board} {p : Pos}
    {S : List Pos} (hnd : S.Nodup)
    (hiff : ∀ q, q ∈ S ↔ q ∈ neighbours rows cols p ∧ hidden board q = true) :
    (S.filter fun q => !holds board 'M' q).length = unrevealedCount board rows cols p := by
  rw [← List.countP_eq_length_filter, (surroundings_perm hnd hiff).countP_eq,
    List.countP_filter]
  unfold unrevealedCount
  apply List.countP_congr
  intro q _
  unfold hidden
  simp only [Bool.and_eq_true, Bool.or_eq_true, Bool.not_eq_true']
  constructor
  · rintro ⟨h1, h2 | h2⟩
    · exact h2
    · rw [h1] at h2
      cases h2
  · intro h
    refine ⟨?_, Or.inl h⟩
    cases hM : holds board 'M' q
    · rfl
    · rw [holds_flag_not_unrevealed hM] at h
      cases h

theorem separateBombs_eq (board : Board) :
    ∀ (tiles results : List Pos) (bomb_counter : Int),
      (∀ q ∈ tiles, ∃ c, boardAt board q.1 q.2 = some c) →
      separateBombs board tiles results bomb_counter =
        some (results ++ tiles.filter (fun q => !holds board 'M' q),
          bomb_counter + (tiles.countP (holds board 'M') : Nat)) := by
  intro tiles
  induction tiles with
  | nil =>
    intro results bc _
    simp [separateBombs]
  | cons i rest ih =>
    intro results bc hall
    obtain ⟨c, hc⟩ := hall i (List.mem_cons_self _ _)
    have hrest : ∀ q ∈ rest, ∃ c, boardAt board q.1 q.2 = some c :=
      fun q hq => hall q (List.mem_cons_of_mem _ hq)
    unfold separateBombs
    simp only [hc]
    by_cases hM : c = 'M'
    · subst hM
      have hh : holds board 'M' i = true := holds_iff.mpr hc
      rw [if_neg (by simp), ih results (bc + 1) hrest]
      simp only [List.filter_cons, hh, Bool.not_true, List.countP_cons_of_pos]
      simp only [Bool.false_eq_true, if_false, Nat.cast_add, Nat.cast_one]
      congr 2
      ring
    · have hh : holds board 'M' i = false := by
        unfold holds
        rw [hc]
        simp [hM]
      rw [if_pos hM, ih (results ++ [i]) bc hrest]
      simp [List.filter_cons, hh, List.countP_cons]

theorem separateSurroundings_eq {board : Board} {x y : Int} {S : List Pos}
    (hS : surroundingTiles board x y ['E', 'M'] = some S)
    (hall : ∀ q ∈ S, ∃ c, boardAt board q.1 q.2 = some c) :
    separateSurroundings board x y S =
      some (S.filter (fun q => !holds board 'M' q), ((S.countP (holds board 'M') : Nat) : Int)) := by
  unfold separateSurroundings
  split
  · rw [hS]
    simp only
    rw [separateBombs_eq board S [] 0 hall]
    simp
  · next h =>
    have : S = [] := by
      cases S with
      | nil => rfl
      | cons a t => simp at h
    subst this
    simp

/-! ## Flagging and revealing loops -/

theorem keeps_set {b0 b b1 : Board} {x y : Int} {c : Char} (hk : Keeps b0 b)
    (hE : boardAt b0 x y = some 'E') (h : boardSet b x y c = some b1) : Keeps b0 b1 := by
  obtain ⟨hs, -, hother⟩ := boardSet_spec h
  refine ⟨sameShape_trans hk.1 hs, ?_⟩
  intro x1 y1 c1 h1 hne
  by_cases hp : (x1, y1) = (x, y)
  · cases hp
    rw [hE] at h1
    cases h1
    exact absurd rfl hne
  · rw [hother x1 y1 hp]
    exact hk.2 x1 y1 c1 h1 hne

theorem markAll_spec (screen : Nat → Mat) {rows cols : Nat} (hrows : 0 < rows)
    (hcols : 0 < cols) {b0 : Board} (hrect : Rect b0 rows cols) :
    ∀ (tiles : List Pos) (w : World), Keeps b0 w.board →
      (∀ q ∈ tiles, boardAt b0 q.1 q.2 = some 'E') →
      ∃ w1, markAll screen tiles w = some w1 ∧
        w1.clicks = w.clicks ++ tiles.map flagClick ∧
        w1.frames = w.frames + tiles.length ∧ Keeps b0 w1.board ∧
        (∀ q ∈ tiles, boardAt w1.board q.1 q.2 = some 'M') ∧
        (∀ x y, boardAt w.board x y = some 'M' → boardAt w1.board x y = some 'M') ∧
        (∀ x y, boardAt w1.board x y = some 'M' →
          boardAt w.board x y = some 'M' ∨ (x, y) ∈ tiles) := by
  intro tiles
  induction tiles with
  | nil =>
    intro w hk _
    exact ⟨w, rfl, by simp, by simp, hk, by simp, fun _ _ h => h, fun _ _ h => Or.inl h⟩
  | cons i rest ih =>
    intro w hk hall
    have hiE := hall i (List.mem_cons_self _ _)
    have hin : InBounds rows cols (i.1, i.2) := rect_inBounds_of_boardAt hrect hiE
    have hrw : Rect w.board rows cols := sameShape_rect hk.1 hrect
    obtain ⟨c, hc⟩ := rect_boardAt_of_inBounds hrw hin
    obtain ⟨b1, hb1⟩ := boardSet_eq_some 'M' hc
    obtain ⟨hs1, hat1, hother1⟩ := boardSet_spec hb1
    have hk1 : Keeps b0 b1 := keeps_set hk hiE hb1
    obtain ⟨w1, hw1, hcl1, hfr1, hrf1⟩ := warpAndClick_spec screen { w with board := b1 }
      (46 + 25 * i.2) (318 + 25 * i.1) ACTION.MARK_BOMB (sameShape_rect hk1.1 hrect) hrows hcols
    have hk2 : Keeps b0 w1.board := keeps_trans hk1 hrf1.1
    obtain ⟨w2, hw2, hcl2, hfr2, hk3, hM2, hpres2, hnew2⟩ := ih w1 hk2
      (fun q hq => hall q (List.mem_cons_of_mem _ hq))
    refine ⟨w2, ?_, ?_, ?_, hk3, ?_, ?_, ?_⟩
    · unfold markAll
      simp only [hb1, hw1, hw2]
    · rw [hcl2, hcl1]
      simp [flagClick]
    · rw [hfr2, hfr1]
      simp only [List.length_cons]
      omega
    · intro q hq
      rcases List.mem_cons.mp hq with rfl | hq
      · apply hpres2
        exact hrf1.1.2 _ _ _ hat1 (by decide)
      · exact hM2 q hq
    · intro x y h
      apply hpres2
      apply hrf1.1.2 _ _ _ _ (by decide)
      by_cases hp : (x, y) = (i.1, i.2)
      · cases hp
        exact hat1
      · rw [hother1 x y hp]
        exact h
    · intro x y h
      rcases hnew2 x y h with h1 | h1
      · have h2 := hrf1.2 x y h1
        by_cases hp : (x, y) = (i.1, i.2)
        · right
          rw [hp]
          exact List.mem_cons_self _ _
        · left
          rw [hother1 x y hp] at h2
          exact h2
      · exact Or.inr (List.mem_cons_of_mem _ h1)

theorem revealAll_spec (screen : Nat → Mat) {rows cols : Nat} (hrows : 0 < rows)
    (hcols : 0 < cols) :
    ∀ (tiles : List Pos) (w : World), Rect w.board rows cols →
      ∃ w1, revealAll screen tiles w = some w1 ∧
        w1.clicks = w.clicks ++ tiles.map revealClick ∧
        w1.frames = w.frames + tiles.length ∧ Refreshes w.board w1.board := by
  intro tiles
  induction tiles with
  | nil =>
    intro w _
    exact ⟨w, rfl, by simp, by simp, refreshes_refl _⟩
  | cons i rest ih =>
    intro w hrect
    obtain ⟨w1, hw1, hcl1, hfr1, hrf1⟩ := warpAndClick_spec screen w
      (46 + 25 * i.2) (318 + 25 * i.1) ACTION.REVEAL_TILE hrect hrows hcols
    obtain ⟨w2, hw2, hcl2, hfr2, hrf2⟩ := ih w1 (sameShape_rect hrf1.1.1 hrect)
    refine ⟨w2, ?_, ?_, ?_, refreshes_trans hrf1 hrf2⟩
    · unfold revealAll
      simp only [hw1, hw2]
    · rw [hcl2, hcl1]
      simp [revealClick]
    · rw [hfr2, hfr1]
      simp only [List.length_cons]
      omega

/-! ## The SIMPLE strategy -/

theorem isNumber_not_hidden {board : Board} {p : Pos} {n : Nat} (h : IsNumber board p n) :
    hidden board p = false := by
  obtain ⟨hn, hat⟩ := h
  obtain ⟨-, hE, hM⟩ := number_char hn
  unfold hidden holds
  rw [hat]
  simp only [Option.some.injEq, Bool.or_eq_false_iff, decide_eq_false_iff_not]
  exact ⟨hE, hM⟩

/-- The neighbour lists that `markBombs` builds around a number tile. -/
theorem markBombs_lists {board : Board} {rows cols : Nat} (hrect : Rect board rows cols)
    (hrows : 0 < rows) (hcols : 0 < cols) {p : Pos} (hp : InBounds rows cols p)
    (hself : hidden board p = false) :
    ∃ S, surroundingTiles board p.1 p.2 ['E', 'M'] = some S ∧ S.Nodup ∧
      (∀ q, q ∈ S ↔ q ∈ neighbours rows cols p ∧ hidden board q = true) ∧
      separateSurroundings board p.1 p.2 S =
        some (S.filter (fun q => !holds board 'M' q),
          ((flaggedCount board rows cols p : Nat) : Int)) ∧
      (S.filter (fun q => !holds board 'M' q)).length = unrevealedCount board rows cols p := by
  obtain ⟨S, hS, hnd, hiff⟩ := surroundings_spec hrect hrows hcols hp hself
  refine ⟨S, hS, hnd, hiff, ?_, count_unrevealed_surroundings hnd hiff⟩
  rw [separateSurroundings_eq hS, count_flag_surroundings hnd hiff]
  intro q hq
  obtain ⟨c, hc, -⟩ := hidden_iff.mp ((hiff q).mp hq).2
  exact ⟨c, hc⟩

/-- The candidates of `markBombs`: the hidden neighbours that are not flagged are the
unrevealed neighbours. -/
theorem results_mem {board : Board} {rows cols : Nat} {p : Pos} {S : List Pos}
    (hiff : ∀ q, q ∈ S ↔ q ∈ neighbours rows cols p ∧ hidden board q = true) (q : Pos) :
    q ∈ S.filter (fun q => !holds board 'M' q) ↔
      q ∈ neighbours rows cols p ∧ boardAt board q.1 q.2 = some 'E' := by
  rw [List.mem_filter, hiff q, ← holds_iff]
  unfold hidden
  simp only [Bool.or_eq_true, Bool.not_eq_true']
  constructor
  · rintro ⟨⟨h1, h2 | h2⟩, h3⟩
    · exact ⟨h1, h2⟩
    · rw [h3] at h2
      cases h2
  · rintro ⟨h1, h2⟩
    refine ⟨⟨h1, Or.inl h2⟩, ?_⟩
    cases hM : holds board 'M' q
    · rfl
    · rw [holds_flag_not_unrevealed hM] at h2
      cases h2

theorem markBombs_simple_eq (screen : Nat → Mat) (w : World) {rows cols : Nat}
    (hrect : Rect w.board rows cols) (hrows : 0 < rows) (hcols : 0 < cols) {p : Pos}
    (hp : InBounds rows cols p) {n : Nat} (hnum : IsNumber w.board p n) :
    ∃ S : List Pos, S.Nodup ∧
      (∀ q, q ∈ S ↔ q ∈ neighbours rows cols p ∧ hidden w.board q = true) ∧
      (S.filter (fun q => !holds w.board 'M' q)).length = unrevealedCount w.board rows cols p ∧
      markBombs screen w p.1 p.2 STRATEGY.SIMPLE =
        if flaggedCount w.board rows cols p = n then
          (warpAndClick screen w (46 + 25 * p.2) (318 + 25 * p.1) ACTION.REVEAL_TILE).map
            fun w1 => (true, w1)
        else if flaggedCount w.board rows cols p + unrevealedCount w.board rows cols p = n then
          (markAll screen (S.filter (fun q => !holds w.board 'M' q)) w).map fun w1 => (true, w1)
        else some (false, w) := by
  obtain ⟨S, hS, hnd, hiff, hsep, hlen⟩ :=
    markBombs_lists hrect hrows hcols hp (isNumber_not_hidden hnum)
  refine ⟨S, hnd, hiff, hlen, ?_⟩
  obtain ⟨hn, hat⟩ := hnum
  obtain ⟨hval, -, -⟩ := number_char hn
  unfold markBombs
  simp only [hat, hS, hsep, hval, hlen]
  have e1 : (((flaggedCount w.board rows cols p : Nat) : Int) = (n : Int)) ↔
      flaggedCount w.board rows cols p = n := by omega
  have e2 : (((flaggedCount w.board rows cols p : Nat) : Int) +
      ((unrevealedCount w.board rows cols p : Nat) : Int) = (n : Int)) ↔
      flaggedCount w.board rows cols p + unrevealedCount w.board rows cols p = n := by omega
  simp only [e1, e2]

/-! ## Counting mines -/

theorem countP_forces {α : Type} (p q : α → Bool) :
    ∀ l : List α, (∀ a ∈ l, p a = true → q a = true) → l.countP q ≤ l.countP p →
      ∀ a ∈ l, q a = true → p a = true := by
  intro l
  induction l with
  | nil =>
    intro _ _ a ha
    cases ha
  | cons b t ih =>
    intro himp hle a ha hq
    have ht : ∀ a ∈ t, p a = true → q a = true := fun a ha => himp a (List.mem_cons_of_mem _ ha)
    have hmono : t.countP p ≤ t.countP q := List.countP_mono_left ht
    rw [List.countP_cons, List.countP_cons] at hle
    have hb := himp b (List.mem_cons_self _ _)
    cases hpb : p b <;> cases hqb : q b <;> simp only [hpb, hqb] at hle hb
    · rcases List.mem_cons.mp ha with rfl | ha
      · rw [hqb] at hq
        cases hq
      · exact ih ht (by simpa using hle) a ha hq
    · simp at hle
      omega
    · simp at hb
    · rcases List.mem_cons.mp ha with rfl | ha
      · exact hpb
      · exact ih ht (by simpa using hle) a ha hq

theorem countP_hidden (board : Board) :
    ∀ l : List Pos, l.countP (hidden board) =
      l.countP (holds board 'M') + l.countP (holds board 'E') := by
  intro l
  induction l with
  | nil => rfl
  | cons a t ih =>
    rw [List.countP_cons, List.countP_cons, List.countP_cons, ih]
    unfold hidden
    cases hM : holds board 'M' a
    · cases hE : holds board 'E' a
      · simp
      · simp
        omega
    · rw [holds_flag_not_unrevealed hM]
      simp
      omega

/-- When the hidden neighbours of `p` are as many as its mines, each of them is a mine. -/
theorem hidden_neighbours_are_mines {board : Board} {rows cols : Nat} {p : Pos} {n : Nat}
    {mine : Pos → Bool} (hcount : mineCount mine rows cols p = n)
    (hhid : MinesHidden board mine)
    (hsum : flaggedCount board rows cols p + unrevealedCount board rows cols p = n) :
    ∀ q ∈ neighbours rows cols p, hidden board q = true → mine q = true := by
  apply countP_forces mine (hidden board) (neighbours rows cols p) (fun a _ h => hhid a h)
  rw [countP_hidden]
  unfold mineCount at hcount
  unfold flaggedCount unrevealedCount at hsum
  omega

/-! ## Claims about the SIMPLE strategy -/

/-- C1: SIMPLE flagging is sound. For a `Number(n)` tile `p` and every mine placement with
exactly `n` mines among the neighbours of `p` and mines only on unrevealed or flagged
tiles, `markBombs` with strategy SIMPLE returns, every `MARK_BOMB` click it issues is the
flag click of a mine, and every tile that holds `'M'` afterwards and did not before is a
mine. -/
theorem simple_flagging_sound (screen : Nat → Mat) (w : World) (rows cols : Nat) (p : Pos)
    (n : Nat) (mine : Pos → Bool) (hrect : Rect w.board rows cols) (hrows : 0 < rows)
    (hcols : 0 < cols) (hp : InBounds rows cols p) (hnum : IsNumber w.board p n)
    (hcount : mineCount mine rows cols p = n) (hhid : MinesHidden w.board mine) :
    ∃ changed w1 issued, markBombs screen w p.1 p.2 STRATEGY.SIMPLE = some (changed, w1) ∧
      w1.clicks = w.clicks ++ issued ∧
      (∀ c ∈ issued, c.action = ACTION.MARK_BOMB → ∃ q, c = flagClick q ∧ mine q = true) ∧
      ∀ q : Pos, boardAt w1.board q.1 q.2 = some 'M' →
        boardAt w.board q.1 q.2 = some 'M' ∨ mine q = true := by
  obtain ⟨S, hnd, hiff, hlen, heq⟩ := markBombs_simple_eq screen w hrect hrows hcols hp hnum
  rw [heq]
  split
  · obtain ⟨w1, hw1, hcl, -, hrf⟩ := warpAndClick_spec screen w (46 + 25 * p.2)
      (318 + 25 * p.1) ACTION.REVEAL_TILE hrect hrows hcols
    refine ⟨true, w1, [⟨46 + 25 * p.2, 318 + 25 * p.1, ACTION.REVEAL_TILE⟩], ?_, hcl, ?_, ?_⟩
    · rw [hw1]
      rfl
    · intro c hc hact
      rw [List.mem_singleton] at hc
      rw [hc] at hact
      cases hact
    · intro q hq
      exact Or.inl (hrf.2 _ _ hq)
  · split
    · next hsum =>
      have hmines := hidden_neighbours_are_mines hcount hhid hsum
      have hE : ∀ q ∈ S.filter (fun q => !holds w.board 'M' q),
          boardAt w.board q.1 q.2 = some 'E' := fun q hq => ((results_mem hiff q).mp hq).2
      obtain ⟨w1, hw1, hcl, -, -, -, -, hnew⟩ := markAll_spec screen hrows hcols hrect
        (S.filter (fun q => !holds w.board 'M' q)) w (keeps_refl _) hE
      have hmine : ∀ q ∈ S.filter (fun q => !holds w.board 'M' q), mine q = true := by
        intro q hq
        have h1 := (hiff q).mp (List.mem_filter.mp hq).1
        exact hmines q h1.1 h1.2
      refine ⟨true, w1, _, ?_, hcl, ?_, ?_⟩
      · rw [hw1]
        rfl
      · intro c hc _
        obtain ⟨q, hq, rfl⟩ := List.mem_map.mp hc
        exact ⟨q, rfl, hmine q hq⟩
      · intro q hq
        rcases hnew q.1 q.2 hq with h | h
        · exact Or.inl h
        · exact Or.inr (hmine q h)
    · exact ⟨false, w, [], rfl, by simp, by simp, fun q hq => Or.inl hq⟩

theorem simple_flagging_sound_witness :
    Rect [['1', 'E']] 1 2 ∧ InBounds 1 2 (0, 0) ∧ IsNumber [['1', 'E']] (0, 0) 1 ∧
      mineCount (fun q => decide (q = ((0, 1) : Pos))) 1 2 (0, 0) = 1 ∧
      MinesHidden [['1', 'E']] (fun q => decide (q = ((0, 1) : Pos))) ∧
      ∃ changed w1 issued,
        markBombs blackScreen ⟨[['1', 'E']], [], 0⟩ 0 0 STRATEGY.SIMPLE = some (changed, w1) ∧
        w1.clicks = [] ++ issued ∧
        (∀ c ∈ issued, c.action = ACTION.MARK_BOMB →
          ∃ q, c = flagClick q ∧ (fun q => decide (q = ((0, 1) : Pos))) q = true) ∧
        ∀ q : Pos, boardAt w1.board q.1 q.2 = some 'M' →
          boardAt [['1', 'E']] q.1 q.2 = some 'M' ∨
            (fun q => decide (q = ((0, 1) : Pos))) q = true :=
  have hrect : Rect [['1', 'E']] 1 2 := ⟨rfl, by simp⟩
  have hp : InBounds 1 2 (0, 0) := by decide
  have hnum : IsNumber [['1', 'E']] (0, 0) 1 := ⟨by decide, by decide⟩
  have hcount : mineCount (fun q => decide (q = ((0, 1) : Pos))) 1 2 (0, 0) = 1 := by decide
  have hhid : MinesHidden [['1', 'E']] (fun q => decide (q = ((0, 1) : Pos))) := by
    intro q hq
    have : q = (0, 1) := by simpa using hq
    subst this
    decide
  ⟨hrect, hp, hnum, hcount, hhid,
    simple_flagging_sound blackScreen ⟨[['1', 'E']], [], 0⟩ 1 2 (0, 0) 1 _ hrect (by decide)
      (by decide) hp hnum hcount hhid⟩

/-- C6: for a `Number(n)` tile whose neighbours satisfy `flagged + unrevealed = n` with
`flagged < n`, `markBombs` with strategy SIMPLE returns `true`, issues exactly one
`MARK_BOMB` click per neighbour that was unrevealed at the call, and on return each of
those neighbours holds `'M'`, for every sequence of screenshots. -/
theorem markBombs_simple_flag (screen : Nat → Mat) (w : World) (rows cols : Nat) (p : Pos)
    (n : Nat) (hrect : Rect w.board rows cols) (hrows : 0 < rows) (hcols : 0 < cols)
    (hp : InBounds rows cols p) (hnum : IsNumber w.board p n)
    (hsum : flaggedCount w.board rows cols p + unrevealedCount w.board rows cols p = n)
    (hlt : flaggedCount w.board rows cols p < n) :
    ∃ (w1 : World) (flaggedTiles : List Pos), markBombs screen w p.1 p.2 STRATEGY.SIMPLE = some (true, w1) ∧
      flaggedTiles.Nodup ∧
      (∀ q, q ∈ flaggedTiles ↔
        q ∈ neighbours rows cols p ∧ boardAt w.board q.1 q.2 = some 'E') ∧
      w1.clicks = w.clicks ++ flaggedTiles.map flagClick ∧
      ∀ q ∈ neighbours rows cols p, boardAt w.board q.1 q.2 = some 'E' →
        boardAt w1.board q.1 q.2 = some 'M' := by
  obtain ⟨S, hnd, hiff, hlen, heq⟩ := markBombs_simple_eq screen w hrect hrows hcols hp hnum
  rw [heq, if_neg (Nat.ne_of_lt hlt), if_pos hsum]
  have hE : ∀ q ∈ S.filter (fun q => !holds w.board 'M' q),
      boardAt w.board q.1 q.2 = some 'E' := fun q hq => ((results_mem hiff q).mp hq).2
  obtain ⟨w1, hw1, hcl, -, -, hM, -, -⟩ := markAll_spec screen hrows hcols hrect
    (S.filter (fun q => !holds w.board 'M' q)) w (keeps_refl _) hE
  refine ⟨w1, S.filter (fun q => !holds w.board 'M' q), ?_, hnd.filter _, results_mem hiff,
    hcl, ?_⟩
  · rw [hw1]
    rfl
  · intro q hq hqE
    exact hM q ((results_mem hiff q).mpr ⟨hq, hqE⟩)

theorem markBombs_simple_flag_witness :
    Rect [['1', 'E']] 1 2 ∧ InBounds 1 2 (0, 0) ∧ IsNumber [['1', 'E']] (0, 0) 1 ∧
      flaggedCount [['1', 'E']] 1 2 (0, 0) + unrevealedCount [['1', 'E']] 1 2 (0, 0) = 1 ∧
      flaggedCount [['1', 'E']] 1 2 (0, 0) < 1 ∧
      ∃ (w1 : World) (flaggedTiles : List Pos),
        markBombs blackScreen ⟨[['1', 'E']], [], 0⟩ 0 0 STRATEGY.SIMPLE = some (true, w1) ∧
        flaggedTiles.Nodup ∧
        (∀ q, q ∈ flaggedTiles ↔
          q ∈ neighbours 1 2 (0, 0) ∧ boardAt [['1', 'E']] q.1 q.2 = some 'E') ∧
        w1.clicks = [] ++ flaggedTiles.map flagClick ∧
        ∀ q ∈ neighbours 1 2 (0, 0), boardAt [['1', 'E']] q.1 q.2 = some 'E' →
          boardAt w1.board q.1 q.2 = some 'M' :=
  have hrect : Rect [['1', 'E']] 1 2 := ⟨rfl, by simp⟩
  have hp : InBounds 1 2 (0, 0) := by decide
  have hnum : IsNumber [['1', 'E']] (0, 0) 1 := ⟨by decide, by decide⟩
  ⟨hrect, hp, hnum, by decide, by decide,
    markBombs_simple_flag blackScreen ⟨[['1', 'E']], [], 0⟩ 1 2 (0, 0) 1 hrect (by decide)
      (by decide) hp hnum (by decide) (by decide)⟩

/-- C7, the claim as stated fails: on the board `[['0', 'E']]` the tile `(0, 0)` is
`Number(0)` with no flagged and one unrevealed neighbour; `markBombs` with strategy SIMPLE
returns `true` after a single `REVEAL_TILE` click on `(0, 0)` itself and issues no reveal
click at the unrevealed neighbour `(0, 1)`. -/
theorem markBombs_simple_reveal_counterexample :
    IsNumber [['0', 'E']] (0, 0) 0 ∧ flaggedCount [['0', 'E']] 1 2 (0, 0) = 0 ∧
      ((0, 1) : Pos) ∈ neighbours 1 2 (0, 0) ∧ boardAt [['0', 'E']] 0 1 = some 'E' ∧
      (markBombs blackScreen ⟨[['0', 'E']], [], 0⟩ 0 0 STRATEGY.SIMPLE).map
        (fun r => (r.1, r.2.clicks)) = some (true, [revealClick (0, 0)]) ∧
      revealClick (0, 1) ∉ [revealClick (0, 0)] := by
  refine ⟨⟨by decide, by decide⟩, by decide, by decide, by decide, ?_, by decide⟩
  set_option maxRecDepth 100000 in decide

/-- C7 as amended: for a `Number(n)` tile (including `n = 0`) with exactly `n` flagged
neighbours and at least one unrevealed neighbour, `markBombs` with strategy SIMPLE returns
`true` and issues exactly one `REVEAL_TILE` click, on the number tile itself. -/
theorem markBombs_simple_reveal (screen : Nat → Mat) (w : World) (rows cols : Nat) (p : Pos)
    (n : Nat) (hrect : Rect w.board rows cols) (hrows : 0 < rows) (hcols : 0 < cols)
    (hp : InBounds rows cols p) (hnum : IsNumber w.board p n)
    (hflag : flaggedCount w.board rows cols p = n)
    (_hcand : 0 < unrevealedCount w.board rows cols p) :
    ∃ w1, markBombs screen w p.1 p.2 STRATEGY.SIMPLE = some (true, w1) ∧
      w1.clicks = w.clicks ++ [revealClick p] := by
  obtain ⟨S, -, -, -, heq⟩ := markBombs_simple_eq screen w hrect hrows hcols hp hnum
  rw [heq, if_pos hflag]
  obtain ⟨w1, hw1, hcl, -, -⟩ := warpAndClick_spec screen w (46 + 25 * p.2)
    (318 + 25 * p.1) ACTION.REVEAL_TILE hrect hrows hcols
  refine ⟨w1, ?_, hcl⟩
  rw [hw1]
  rfl

theorem markBombs_simple_reveal_witness :
    Rect [['0', 'E']] 1 2 ∧ InBounds 1 2 (0, 0) ∧ IsNumber [['0', 'E']] (0, 0) 0 ∧
      flaggedCount [['0', 'E']] 1 2 (0, 0) = 0 ∧ 0 < unrevealedCount [['0', 'E']] 1 2 (0, 0) ∧
      ∃ w1, markBombs blackScreen ⟨[['0', 'E']], [], 0⟩ 0 0 STRATEGY.SIMPLE = some (true, w1) ∧
        w1.clicks = [] ++ [revealClick (0, 0)] :=
  have hrect : Rect [['0', 'E']] 1 2 := ⟨rfl, by simp⟩
  have hp : InBounds 1 2 (0, 0) := by decide
  have hnum : IsNumber [['0', 'E']] (0, 0) 0 := ⟨by decide, by decide⟩
  ⟨hrect, hp, hnum, by decide, by decide,
    markBombs_simple_reveal blackScreen ⟨[['0', 'E']], [], 0⟩ 1 2 (0, 0) 0 hrect (by decide)
      (by decide) hp hnum (by decide) (by decide)⟩

/-- C8: for a `Number(n)` tile with `flagged < n` and `flagged + unrevealed > n`,
`markBombs` with strategy SIMPLE returns `false`, issues no click and leaves the board
unchanged: the world after the call is the world before it. -/
theorem markBombs_simple_no_change (screen : Nat → Mat) (w : World) (rows cols : Nat)
    (p : Pos) (n : Nat) (hrect : Rect w.board rows cols) (hrows : 0 < rows)
    (hcols : 0 < cols) (hp : InBounds rows cols p) (hnum : IsNumber w.board p n)
    (hlt : flaggedCount w.board rows cols p < n)
    (hgt : n < flaggedCount w.board rows cols p + unrevealedCount w.board rows cols p) :
    markBombs screen w p.1 p.2 STRATEGY.SIMPLE = some (false, w) := by
  obtain ⟨S, -, -, -, heq⟩ := markBombs_simple_eq screen w hrect hrows hcols hp hnum
  rw [heq, if_neg (Nat.ne_of_lt hlt), if_neg (Nat.ne_of_gt hgt)]

theorem markBombs_simple_no_change_witness :
    Rect [['1', 'E'], ['E', 'E']] 2 2 ∧ InBounds 2 2 (0, 0) ∧
      IsNumber [['1', 'E'], ['E', 'E']] (0, 0) 1 ∧
      flaggedCount [['1', 'E'], ['E', 'E']] 2 2 (0, 0) < 1 ∧
      1 < flaggedCount [['1', 'E'], ['E', 'E']] 2 2 (0, 0) +
        unrevealedCount [['1', 'E'], ['E', 'E']] 2 2 (0, 0) ∧
      markBombs blackScreen ⟨[['1', 'E'], ['E', 'E']], [], 0⟩ 0 0 STRATEGY.SIMPLE =
        some (false, ⟨[['1', 'E'], ['E', 'E']], [], 0⟩) :=
  have hrect : Rect [['1', 'E'], ['E', 'E']] 2 2 := ⟨rfl, by simp⟩
  have hp : InBounds 2 2 (0, 0) := by decide
  have hnum : IsNumber [['1', 'E'], ['E', 'E']] (0, 0) 1 := ⟨by decide, by decide⟩
  ⟨hrect, hp, hnum, by decide, by decide,
    markBombs_simple_no_change blackScreen ⟨[['1', 'E'], ['E', 'E']], [], 0⟩ 2 2 (0, 0) 1
      hrect (by decide) (by decide) hp hnum (by decide) (by decide)⟩

/-! ## The neighbour lookup returns its positions in increasing order -/

theorem clampIndex_mono (v : Int) {size : Nat} (h : 0 < size) :
    clampIndex v size ≤ clampIndex (v + 1) size := by
  unfold clampIndex
  omega

/-- In a row-major walk over a grid of non-decreasing row and column values, each pair
either repeats an earlier pair or is greater than all earlier pairs. -/
theorem grid_fresh (R C : Nat → Int) (hR : ∀ a, R a ≤ R (a + 1)) (hC : ∀ b, C b ≤ C (b + 1))
    (j : Nat) (hj : j < 9) :
    (∃ k, k < j ∧ (R (k / 3), C (k % 3)) = (R (j / 3), C (j % 3))) ∨
      ∀ k, k < j → posLT (R (k / 3), C (k % 3)) (R (j / 3), C (j % 3)) := by
  have r01 := hR 0
  have r12 := hR 1
  have c01 := hC 0
  have c12 := hC 1
  simp only [Nat.zero_add, Nat.reduceAdd] at r01 r12 c01 c12
  by_cases h1 : 1 ≤ j % 3 ∧ C (j % 3 - 1) = C (j % 3)
  · left
    refine ⟨j - 1, by omega, ?_⟩
    have e1 : (j - 1) / 3 = j / 3 := by omega
    have e2 : (j - 1) % 3 = j % 3 - 1 := by omega
    rw [e1, e2, h1.2]
  · by_cases h2 : 1 ≤ j / 3 ∧ R (j / 3 - 1) = R (j / 3)
    · left
      refine ⟨j - 3, by omega, ?_⟩
      have e1 : (j - 3) / 3 = j / 3 - 1 := by omega
      have e2 : (j - 3) % 3 = j % 3 := by omega
      rw [e1, e2, h2.2]
    · right
      intro k hk
      have b3 : k / 3 < j / 3 ∨ (k / 3 = j / 3 ∧ k % 3 < j % 3) := by omega
      have ha : j / 3 < 3 := by omega
      have hb : j % 3 < 3 := by omega
      have hb1 : k % 3 < 3 := by omega
      unfold posLT
      simp only
      generalize j / 3 = a at *
      generalize j % 3 = b at *
      generalize k / 3 = a1 at *
      generalize k % 3 = b1 at *
      rcases b3 with h3 | ⟨h3, h4⟩
      · left
        interval_cases a <;> interval_cases a1 <;> simp only [Nat.reduceSub] at h2 <;> omega
      · right
        subst h3
        refine ⟨rfl, ?_⟩
        interval_cases b <;> interval_cases b1 <;> simp only [Nat.reduceSub] at h1 <;> omega

/-- Each examined position either repeats an earlier one or is greater than all earlier
ones. -/
theorem clampedPos_fresh {rows cols : Nat} (hrows : 0 < rows) (hcols : 0 < cols) (x y : Int)
    (j : Nat) (hj : j < 9) :
    (∃ k, k < j ∧ clampedPos rows cols x y k = clampedPos rows cols x y j) ∨
      ∀ k, k < j → posLT (clampedPos rows cols x y k) (clampedPos rows cols x y j) := by
  have h := grid_fresh (fun a => clampIndex (x - 1 + (a : Int)) rows)
    (fun b => clampIndex (y - 1 + (b : Int)) cols)
    (fun a => by
      have := clampIndex_mono (x - 1 + (a : Int)) hrows
      simp only [Nat.cast_add, Nat.cast_one]
      rw [← add_assoc]
      exact this)
    (fun b => by
      have := clampIndex_mono (y - 1 + (b : Int)) hcols
      simp only [Nat.cast_add, Nat.cast_one]
      rw [← add_assoc]
      exact this) j hj
  exact h

theorem surroundingLoop_sorted {board : Board} {rows cols : Nat} (hrect : Rect board rows cols)
    (hrows : 0 < rows) (hcols : 0 < cols) (x y : Int) (sl : List Char) :
    ∀ (len s : Nat) (result : List Pos), result.Pairwise posLT →
      (∀ j, s ≤ j → j < s + len →
        clampedPos rows cols x y j ∈ result ∨
        ¬ TileIn board sl (clampedPos rows cols x y j) ∨
        (∃ k, s ≤ k ∧ k < j ∧ clampedPos rows cols x y k = clampedPos rows cols x y j) ∨
        ((∀ q ∈ result, posLT q (clampedPos rows cols x y j)) ∧
          ∀ k, s ≤ k → k < j →
            posLT (clampedPos rows cols x y k) (clampedPos rows cols x y j))) →
      ∀ res, surroundingLoop board cols x y sl (List.range' s len) result = some res →
        res.Pairwise posLT := by
  intro len
  induction len with
  | zero =>
    intro s result hpw _ res hres
    simp only [List.range'_zero, surroundingLoop, Option.some.injEq] at hres
    rw [← hres]
    exact hpw
  | succ len ih =>
    intro s result hpw hcond res hres
    rw [List.range'_succ] at hres
    unfold surroundingLoop at hres
    obtain ⟨c, hc⟩ := rect_boardAt_of_inBounds hrect (clampedPos_inBounds hrows hcols x y s)
    have hc1 : boardAt board (clampIndex (x - 1 + ((s / 3 : Nat) : Int)) board.length)
        (clampIndex (y - 1 + ((s % 3 : Nat) : Int)) cols) = some c := by
      rw [hrect.1]
      exact hc
    have hpos : (clampIndex (x - 1 + ((s / 3 : Nat) : Int)) board.length,
        clampIndex (y - 1 + ((s % 3 : Nat) : Int)) cols) = clampedPos rows cols x y s := by
      rw [hrect.1]
      rfl
    simp only [hc1, hpos] at hres
    by_cases hin : c ∈ sl
    · rw [if_pos hin] at hres
      have htile : TileIn board sl (clampedPos rows cols x y s) := ⟨c, hc, hin⟩
      by_cases hmem : clampedPos rows cols x y s ∈ result
      · rw [if_pos hmem] at hres
        refine ih (s + 1) result hpw ?_ res hres
        intro j hj1 hj2
        rcases hcond j (by omega) (by omega) with h | h | ⟨k, hk1, hk2, hk3⟩ | ⟨h1, h2⟩
        · exact Or.inl h
        · exact Or.inr (Or.inl h)
        · by_cases hks : k = s
          · subst hks
            exact Or.inl (hk3 ▸ hmem)
          · exact Or.inr (Or.inr (Or.inl ⟨k, by omega, hk2, hk3⟩))
        · exact Or.inr (Or.inr (Or.inr ⟨h1, fun k hk1 hk2 => h2 k (by omega) hk2⟩))
      · rw [if_neg hmem] at hres
        have hlt : ∀ q ∈ result, posLT q (clampedPos rows cols x y s) := by
          rcases hcond s (le_refl s) (by omega) with h | h | ⟨k, hk1, hk2, -⟩ | ⟨h1, -⟩
          · exact absurd h hmem
          · exact absurd htile h
          · omega
          · exact h1
        refine ih (s + 1) (result ++ [clampedPos rows cols x y s]) ?_ ?_ res hres
        · rw [List.pairwise_append]
          refine ⟨hpw, List.pairwise_singleton _ _, ?_⟩
          intro a ha b hb
          rw [List.mem_singleton] at hb
          rw [hb]
          exact hlt a ha
        · intro j hj1 hj2
          rcases hcond j (by omega) (by omega) with h | h | ⟨k, hk1, hk2, hk3⟩ | ⟨h1, h2⟩
          · exact Or.inl (List.mem_append_left _ h)
          · exact Or.inr (Or.inl h)
          · by_cases hks : k = s
            · subst hks
              exact Or.inl (List.mem_append_right _ (by rw [hk3]; exact List.mem_singleton_self _))
            · exact Or.inr (Or.inr (Or.inl ⟨k, by omega, hk2, hk3⟩))
          · refine Or.inr (Or.inr (Or.inr ⟨?_, fun k hk1 hk2 => h2 k (by omega) hk2⟩))
            intro q hq
            rcases List.mem_append.mp hq with hq | hq
            · exact h1 q hq
            · rw [List.mem_singleton] at hq
              rw [hq]
              exact h2 s (le_refl s) (by omega)
    · rw [if_neg hin] at hres
      refine ih (s + 1) result hpw ?_ res hres
      intro j hj1 hj2
      rcases hcond j (by omega) (by omega) with h | h | ⟨k, hk1, hk2, hk3⟩ | ⟨h1, h2⟩
      · exact Or.inl h
      · exact Or.inr (Or.inl h)
      · by_cases hks : k = s
        · subst hks
          refine Or.inr (Or.inl ?_)
          rintro ⟨c1, hc1', hin1⟩
          rw [← hk3] at hc1'
          have hcc : some c = some c1 := hc.symm.trans hc1'
          cases hcc
          exact hin hin1
        · exact Or.inr (Or.inr (Or.inl ⟨k, by omega, hk2, hk3⟩))
      · exact Or.inr (Or.inr (Or.inr ⟨h1, fun k hk1 hk2 => h2 k (by omega) hk2⟩))

/-- On a non-empty rectangular board the result of `surroundingTiles` is strictly increasing
in the lexicographic order. -/
theorem surroundingTiles_sorted {board : Board} {rows cols : Nat} (hrect : Rect board rows cols)
    (hrows : 0 < rows) (hcols : 0 < cols) (x y : Int) (sl : List Char) {S : List Pos}
    (hS : surroundingTiles board x y sl = some S) : S.Pairwise posLT := by
  obtain ⟨row0, h0, hlen⟩ := rect_head hrect hrows
  unfold surroundingTiles at hS
  rw [h0] at hS
  simp only [hlen, List.range_eq_range'] at hS
  refine surroundingLoop_sorted hrect hrows hcols x y sl 9 0 [] List.Pairwise.nil ?_ S hS
  intro j _ hj
  rcases clampedPos_fresh hrows hcols x y j (by omega) with ⟨k, hk1, hk2⟩ | h
  · exact Or.inr (Or.inr (Or.inl ⟨k, Nat.zero_le k, hk1, hk2⟩))
  · refine Or.inr (Or.inr (Or.inr ⟨?_, fun k _ hk => h k hk⟩))
    intro q hq
    cases hq

/-! ## The PIVOT strategy: the lists that `pivotBoard` builds -/

theorem intersectLoop_eq (board : Board) (pivot_results : List Pos) :
    ∀ (l a b : List Pos), (∀ i ∈ l, ∃ c, boardAt board i.1 i.2 = some c) →
      intersectLoop board pivot_results l a b =
        some (a ++ l.filter (fun i => decide (i ∈ pivot_results)),
          b ++ l.filter (fun i => !decide (i ∈ pivot_results) && !holds board 'M' i)) := by
  intro l
  induction l with
  | nil =>
    intro a b _
    simp [intersectLoop]
  | cons i rest ih =>
    intro a b hall
    obtain ⟨c, hc⟩ := hall i (List.mem_cons_self _ _)
    have hrest : ∀ q ∈ rest, ∃ c, boardAt board q.1 q.2 = some c :=
      fun q hq => hall q (List.mem_cons_of_mem _ hq)
    unfold intersectLoop
    by_cases hmem : i ∈ pivot_results
    · rw [if_pos hmem, ih _ _ hrest]
      simp [List.filter_cons, hmem]
    · rw [if_neg hmem]
      simp only [hc]
      by_cases hM : c = 'M'
      · have hh : holds board 'M' i = true := holds_iff.mpr (hM ▸ hc)
        rw [if_neg (by simp [hM]), ih _ _ hrest]
        simp [List.filter_cons, hmem, hh]
      · have hh : holds board 'M' i = false := by
          unfold holds
          rw [hc]
          simp [hM]
        rw [if_pos hM, ih _ _ hrest]
        simp [List.filter_cons, hmem, hh]

theorem pivotLoop_eq (board : Board) (results_intersection : List Pos) :
    ∀ (l b c : List Pos), (∀ i ∈ l, ∃ ch, boardAt board i.1 i.2 = some ch) →
      pivotLoop board results_intersection l b c =
        some (b ++ l.filter (fun i => !decide (i ∈ results_intersection) && !holds board 'M' i),
          c ++ l.filter (fun i => !decide (i ∈ results_intersection) && !holds board 'M' i)) := by
  intro l
  induction l with
  | nil =>
    intro b c _
    simp [pivotLoop]
  | cons i rest ih =>
    intro b c hall
    obtain ⟨ch, hc⟩ := hall i (List.mem_cons_self _ _)
    have hrest : ∀ q ∈ rest, ∃ c, boardAt board q.1 q.2 = some c :=
      fun q hq => hall q (List.mem_cons_of_mem _ hq)
    unfold pivotLoop
    by_cases hmem : i ∈ results_intersection
    · rw [if_pos hmem, ih _ _ hrest]
      simp [List.filter_cons, hmem]
    · rw [if_neg hmem]
      simp only [hc]
      by_cases hM : ch = 'M'
      · have hh : holds board 'M' i = true := holds_iff.mpr (hM ▸ hc)
        rw [if_neg (by simp [hM]), ih _ _ hrest]
        simp [List.filter_cons, hmem, hh]
      · have hh : holds board 'M' i = false := by
          unfold holds
          rw [hc]
          simp [hM]
        rw [if_pos hM, ih _ _ hrest]
        simp [List.filter_cons, hmem, hh]

theorem mem_exclusive {board : Board} {rows cols : Nat} {p q t : Pos} :
    t ∈ exclusive board rows cols p q ↔
      t ∈ neighbours rows cols q ∧ boardAt board t.1 t.2 = some 'E' ∧
        t ∉ neighbours rows cols p := by
  unfold exclusive
  rw [List.mem_filter]
  simp only [Bool.and_eq_true, Bool.not_eq_true', decide_eq_false_iff_not, holds_iff]

theorem exclusive_nodup (board : Board) (rows cols : Nat) (p q : Pos) :
    (exclusive board rows cols p q).Nodup :=
  (neighbours_nodup rows cols q).filter _

/-- The lists of `pivotBoard` for a pivot that passes the guard, in terms of the neighbours
of the two tiles. -/
theorem pivotBoard_eq (screen : Nat → Mat) (w : World) {rows cols : Nat}
    (hrect : Rect w.board rows cols) (hrows : 0 < rows) (hcols : 0 < cols) {p q : Pos}
    (hq : InBounds rows cols q) {tc pc : Char} (htile : boardAt w.board p.1 p.2 = some tc)
    (hpc : boardAt w.board q.1 q.2 = some pc) (hvalid : pc ≠ 'E' ∧ pc ≠ '0' ∧ pc ≠ 'M')
    (surroundings results : List Pos) (bomb_counter : Int)
    (hRmem : ∀ t, t ∈ results ↔
      t ∈ neighbours rows cols p ∧ boardAt w.board t.1 t.2 = some 'E') (hRnd : results.Nodup) :
    ∃ SP RI TO PNI : List Pos,
      pivotBoard screen w p.1 p.2 q.1 q.2 surroundings results bomb_counter =
        pivotRules screen w results RI (TO ++ PNI) SP PNI
          ((tc.toNat : Int) - 48 - bomb_counter)
          ((pc.toNat : Int) - 48 - (flaggedCount w.board rows cols q : Int)) ∧
      SP.Nodup ∧ SP.Pairwise posLT ∧
      (∀ t, t ∈ SP ↔ t ∈ neighbours rows cols q ∧ hidden w.board t = true) ∧
      RI.Nodup ∧ (∀ t, t ∈ RI ↔ t ∈ results ∧ t ∈ neighbours rows cols q) ∧
      TO.Nodup ∧ (∀ t, t ∈ TO ↔ t ∈ exclusive w.board rows cols q p) ∧
      PNI.Nodup ∧ (∀ t, t ∈ PNI ↔ t ∈ exclusive w.board rows cols p q) := by
  have hselfq : hidden w.board q = false := by
    unfold hidden holds
    rw [hpc]
    simp only [Option.some.injEq, Bool.or_eq_false_iff, decide_eq_false_iff_not]
    exact ⟨hvalid.1, hvalid.2.2⟩
  obtain ⟨SP, hSP, hnd, hiff, hsep, -⟩ := markBombs_lists hrect hrows hcols hq hselfq
  have hsorted := surroundingTiles_sorted hrect hrows hcols q.1 q.2 ['E', 'M'] hSP
  have hPmem := results_mem hiff
  have hRall : ∀ i ∈ results, ∃ c, boardAt w.board i.1 i.2 = some c :=
    fun i hi => ⟨'E', ((hRmem i).mp hi).2⟩
  have hSPall : ∀ i ∈ SP, ∃ c, boardAt w.board i.1 i.2 = some c := by
    intro i hi
    obtain ⟨c, hc, -⟩ := hidden_iff.mp ((hiff i).mp hi).2
    exact ⟨c, hc⟩
  have hRI : ∀ t, t ∈ results.filter (fun i => decide (i ∈ SP.filter fun q => !holds w.board 'M' q))
      ↔ t ∈ results ∧ t ∈ neighbours rows cols q := by
    intro t
    rw [List.mem_filter, decide_eq_true_eq, hPmem t]
    constructor
    · exact fun h => ⟨h.1, h.2.1⟩
    · exact fun h => ⟨h.1, h.2, ((hRmem t).mp h.1).2⟩
  refine ⟨SP, results.filter (fun i => decide (i ∈ SP.filter fun q => !holds w.board 'M' q)),
    results.filter (fun i => !decide (i ∈ SP.filter fun q => !holds w.board 'M' q) &&
      !holds w.board 'M' i),
    SP.filter (fun i => !decide (i ∈ results.filter
      (fun i => decide (i ∈ SP.filter fun q => !holds w.board 'M' q))) && !holds w.board 'M' i),
    ?_, hnd, hsorted, hiff, hRnd.filter _, hRI, hRnd.filter _, ?_, hnd.filter _, ?_⟩
  · unfold pivotBoard
    simp only [htile, hpc, if_pos hvalid, hSP, hsep]
    rw [intersectLoop_eq _ _ _ _ _ hRall]
    simp only [List.nil_append]
    rw [pivotLoop_eq _ _ _ _ _ hSPall]
    simp only [List.nil_append]
  · intro t
    rw [mem_exclusive, List.mem_filter, hRmem t]
    simp only [Bool.and_eq_true, Bool.not_eq_true', decide_eq_false_iff_not, hPmem t]
    constructor
    · rintro ⟨⟨h1, h2⟩, h3, -⟩
      exact ⟨h1, h2, fun h => h3 ⟨h, h2⟩⟩
    · rintro ⟨h1, h2, h3⟩
      refine ⟨⟨h1, h2⟩, fun h => h3 h.1, ?_⟩
      cases hM : holds w.board 'M' t
      · rfl
      · have := holds_flag_not_unrevealed hM
        rw [holds_iff.mpr h2] at this
        cases this
  · intro t
    rw [mem_exclusive, List.mem_filter]
    simp only [Bool.and_eq_true, Bool.not_eq_true', decide_eq_false_iff_not, hRI t, hiff t,
      hRmem t]
    constructor
    · rintro ⟨⟨h1, h2⟩, h3, h4⟩
      have hE : boardAt w.board t.1 t.2 = some 'E' := by
        have := (hPmem t).mp (List.mem_filter.mpr ⟨(hiff t).mpr ⟨h1, h2⟩, by simp [h4]⟩)
        exact this.2
      exact ⟨h1, hE, fun h => h3 ⟨⟨h, hE⟩, h1⟩⟩
    · rintro ⟨h1, h2, h3⟩
      have hP := (hPmem t).mpr ⟨h1, h2⟩
      have hP2 := List.mem_filter.mp hP
      refine ⟨(hiff t).mp hP2.1, fun h => h3 h.1.1, ?_⟩
      simpa using hP2.2

/-- The call of `pivotBoard` for a number tile `p` and a pivot that passes the guard, as an
application of the deduction rules to lists described through the neighbours. -/
theorem pivotCall_eq (screen : Nat → Mat) (w : World) {rows cols : Nat}
    (hrect : Rect w.board rows cols) (hrows : 0 < rows) (hcols : 0 < cols) {p q : Pos}
    (hp : InBounds rows cols p) (hq : InBounds rows cols q) {n : Nat}
    (hT : IsNumber w.board p n) {pc : Char} (hpc : boardAt w.board q.1 q.2 = some pc)
    (hvalid : pc ≠ 'E' ∧ pc ≠ '0' ∧ pc ≠ 'M') :
    ∃ R SP RI TO PNI : List Pos,
      pivotCall screen w p q =
        pivotRules screen w R RI (TO ++ PNI) SP PNI (expectedBombs w.board rows cols p n)
          ((pc.toNat : Int) - 48 - (flaggedCount w.board rows cols q : Int)) ∧
      R.Nodup ∧
      (∀ t, t ∈ R ↔ t ∈ neighbours rows cols p ∧ boardAt w.board t.1 t.2 = some 'E') ∧
      SP.Nodup ∧ SP.Pairwise posLT ∧
      (∀ t, t ∈ SP ↔ t ∈ neighbours rows cols q ∧ hidden w.board t = true) ∧
      RI.Nodup ∧ (∀ t, t ∈ RI ↔ t ∈ R ∧ t ∈ neighbours rows cols q) ∧
      TO.Nodup ∧ (∀ t, t ∈ TO ↔ t ∈ exclusive w.board rows cols q p) ∧
      PNI.Nodup ∧ (∀ t, t ∈ PNI ↔ t ∈ exclusive w.board rows cols p q) := by
  obtain ⟨S, hS, hnd, hiff, hsep, -⟩ :=
    markBombs_lists hrect hrows hcols hp (isNumber_not_hidden hT)
  obtain ⟨hn, hat⟩ := hT
  obtain ⟨hval, -, -⟩ := number_char hn
  obtain ⟨SP, RI, TO, PNI, heq, h1, h2, h3, h4, h5, h6, h7, h8, h9⟩ :=
    pivotBoard_eq screen w hrect hrows hcols hq hat hpc hvalid S
      (S.filter fun q => !holds w.board 'M' q) (flaggedCount w.board rows cols p : Int)
      (results_mem hiff) (hnd.filter _)
  refine ⟨S.filter fun q => !holds w.board 'M' q, SP, RI, TO, PNI, ?_, hnd.filter _,
    results_mem hiff, h1, h2, h3, h4, h5, h6, h7, h8, h9⟩
  unfold pivotCall
  simp only [hS, hsep]
  rw [heq, hval]
  rfl

/-- A pivot that is `'E'`, `'0'` or `'M'` fails the guard of `pivotBoard`: nothing happens. -/
theorem pivotCall_guard (screen : Nat → Mat) (w : World) {rows cols : Nat}
    (hrect : Rect w.board rows cols) (hrows : 0 < rows) (hcols : 0 < cols) {p q : Pos}
    (hp : InBounds rows cols p) {n : Nat} (hT : IsNumber w.board p n) {pc : Char}
    (hpc : boardAt w.board q.1 q.2 = some pc) (hinvalid : ¬ (pc ≠ 'E' ∧ pc ≠ '0' ∧ pc ≠ 'M')) :
    pivotCall screen w p q = some (false, w) := by
  obtain ⟨S, hS, -, -, hsep, -⟩ :=
    markBombs_lists hrect hrows hcols hp (isNumber_not_hidden hT)
  unfold pivotCall
  simp only [hS, hsep]
  unfold pivotBoard
  simp only [hT.2, hpc, if_neg hinvalid]

theorem number_char_pos {m : Nat} (hm : m ≤ 8) (h1 : 1 ≤ m) : Char.ofNat (48 + m) ≠ '0' := by
  interval_cases m <;> decide

theorem length_eq_of_mem_iff {l1 l2 : List Pos} (h1 : l1.Nodup) (h2 : l2.Nodup)
    (h : ∀ t, t ∈ l1 ↔ t ∈ l2) : l1.length = l2.length :=
  ((List.perm_ext_iff_of_nodup h1 h2).mpr h).length_eq

/-! ## Claims about the PIVOT strategy: issued actions -/

theorem eq_singleton_of_mem_iff {l : List Pos} {a : Pos} (hnd : l.Nodup)
    (h : ∀ t, t ∈ l ↔ t ∈ [a]) : l = [a] :=
  List.perm_singleton.mp ((List.perm_ext_iff_of_nodup hnd (List.nodup_singleton a)).mpr h)

/-- The 'pivot expects more' rule for a pivot that passes the guard. -/
theorem pivot_flag_rule (screen : Nat → Mat) (w : World) {rows cols : Nat} {p q : Pos}
    {n m : Nat} (hrect : Rect w.board rows cols) (hrows : 0 < rows) (hcols : 0 < cols)
    (hp : InBounds rows cols p) (hq : InBounds rows cols q) (hT : IsNumber w.board p n)
    (hP : IsNumber w.board q m) (hm : 1 ≤ m)
    (hgt : expectedBombs w.board rows cols q m > expectedBombs w.board rows cols p n)
    (hdiff : expectedBombs w.board rows cols q m - expectedBombs w.board rows cols p n =
      ((exclusive w.board rows cols p q).length : Int)) :
    ∃ (w1 : World) (flaggedTiles : List Pos), pivotCall screen w p q = some (true, w1) ∧
      flaggedTiles.Nodup ∧ (∀ t, t ∈ flaggedTiles ↔ t ∈ exclusive w.board rows cols p q) ∧
      w1.clicks = w.clicks ++ flaggedTiles.map flagClick ∧
      (∀ t ∈ flaggedTiles, boardAt w1.board t.1 t.2 = some 'M') ∧
      ∀ x y, boardAt w1.board x y = some 'M' →
        boardAt w.board x y = some 'M' ∨ (x, y) ∈ flaggedTiles := by
  obtain ⟨hval, hE, hM⟩ := number_char hP.1
  obtain ⟨R, SP, RI, TO, PNI, heq, -, -, -, -, -, -, -, -, -, hPnd, hPmem⟩ :=
    pivotCall_eq screen w hrect hrows hcols hp hq hT hP.2
      ⟨hE, number_char_pos hP.1 hm, hM⟩
  have hlen : PNI.length = (exclusive w.board rows cols p q).length :=
    length_eq_of_mem_iff hPnd (exclusive_nodup _ _ _ _ _) hPmem
  have hpe : ((Char.ofNat (48 + m)).toNat : Int) - 48 - (flaggedCount w.board rows cols q : Int)
      = expectedBombs w.board rows cols q m := by
    unfold expectedBombs
    rw [hval]
  rw [heq, hpe]
  unfold pivotRules
  rw [if_neg (by rw [hlen]; omega), if_pos ⟨hgt, by rw [hlen]; exact hdiff⟩]
  have hallE : ∀ t ∈ PNI, boardAt w.board t.1 t.2 = some 'E' :=
    fun t ht => (mem_exclusive.mp ((hPmem t).mp ht)).2.1
  obtain ⟨w1, hw1, hcl, -, -, hMs, -, hnew⟩ := markAll_spec screen hrows hcols hrect PNI w
    (keeps_refl _) hallE
  refine ⟨w1, PNI, ?_, hPnd, hPmem, hcl, hMs, hnew⟩
  rw [hw1]
  rfl

/-- C9 as amended: for a Number tile `p` and an orthogonally adjacent pivot `q` holding a
number from 1 to 8, with `pivotExpected > expected` and
`pivotExpected - expected = |pivotNotIntersection| > 0`, the call of `pivotBoard` returns
`true`, issues one `MARK_BOMB` click per tile of `pivotNotIntersection` (the pivot's
unrevealed neighbours that are not neighbours of `p`) and leaves each of them `'M'`; on the
board `[[1,2,1],[E,E,E]]` with tile `(0,0)` and pivot `(0,1)` it flags exactly `(1,2)`. -/
theorem pivot_flags_pivot_side :
    (∀ (screen : Nat → Mat) (w : World) (rows cols : Nat) (p q : Pos) (n m : Nat),
      Rect w.board rows cols → 0 < rows → 0 < cols → InBounds rows cols p →
      InBounds rows cols q → Orthogonal p q → IsNumber w.board p n → IsNumber w.board q m →
      1 ≤ m →
      expectedBombs w.board rows cols q m > expectedBombs w.board rows cols p n →
      expectedBombs w.board rows cols q m - expectedBombs w.board rows cols p n =
        ((exclusive w.board rows cols p q).length : Int) →
      0 < (exclusive w.board rows cols p q).length →
      ∃ (w1 : World) (flaggedTiles : List Pos), pivotCall screen w p q = some (true, w1) ∧
        flaggedTiles.Nodup ∧ (∀ t, t ∈ flaggedTiles ↔ t ∈ exclusive w.board rows cols p q) ∧
        w1.clicks = w.clicks ++ flaggedTiles.map flagClick ∧
        ∀ t ∈ flaggedTiles, boardAt w1.board t.1 t.2 = some 'M') ∧
    ∀ screen : Nat → Mat, ∃ w1 : World,
      pivotCall screen ⟨[['1', '2', '1'], ['E', 'E', 'E']], [], 0⟩ (0, 0) (0, 1) =
        some (true, w1) ∧
      w1.clicks = [flagClick (1, 2)] ∧ boardAt w1.board 1 2 = some 'M' ∧
      ∀ x y, boardAt w1.board x y = some 'M' → (x, y) = ((1, 2) : Pos) := by
  constructor
  · intro screen w rows cols p q n m hrect hrows hcols hp hq _ hT hP hm hgt hdiff _
    obtain ⟨w1, fl, h1, h2, h3, h4, h5, -⟩ :=
      pivot_flag_rule screen w hrect hrows hcols hp hq hT hP hm hgt hdiff
    exact ⟨w1, fl, h1, h2, h3, h4, h5⟩
  · intro screen
    have hrect : Rect [['1', '2', '1'], ['E', 'E', 'E']] 2 3 := ⟨rfl, by simp⟩
    obtain ⟨w1, fl, h1, h2, h3, h4, h5, h6⟩ :=
      @pivot_flag_rule screen ⟨[['1', '2', '1'], ['E', 'E', 'E']], [], 0⟩ 2 3
        (0, 0) (0, 1) 1 2 hrect (by decide) (by decide)
        (by decide) (by decide) ⟨by decide, by decide⟩ ⟨by decide, by decide⟩ (by decide)
        (by decide) (by decide)
    have hfl : fl = [(1, 2)] := eq_singleton_of_mem_iff h2 (by
      intro t
      rw [h3 t]
      have : exclusive [['1', '2', '1'], ['E', 'E', 'E']] 2 3 (0, 0) (0, 1) = [(1, 2)] := by
        decide
      rw [this])
    subst hfl
    refine ⟨w1, h1, by simpa using h4, h5 (1, 2) (List.mem_singleton_self _), ?_⟩
    intro x y hxy
    rcases h6 x y hxy with h | h
    · exfalso
      have hin := rect_inBounds_of_boardAt hrect h
      unfold InBounds at hin
      simp only at hin
      have hx : x = 0 ∨ x = 1 := by omega
      have hy : y = 0 ∨ y = 1 ∨ y = 2 := by omega
      rcases hx with rfl | rfl <;> rcases hy with rfl | rfl | rfl <;>
        exact absurd h (by decide)
    · exact List.mem_singleton.mp h

theorem pivot_flags_pivot_side_witness :
    Rect [['1', '2', '1'], ['E', 'E', 'E']] 2 3 ∧ InBounds 2 3 (0, 0) ∧ InBounds 2 3 (0, 1) ∧
      Orthogonal (0, 0) (0, 1) ∧ IsNumber [['1', '2', '1'], ['E', 'E', 'E']] (0, 0) 1 ∧
      IsNumber [['1', '2', '1'], ['E', 'E', 'E']] (0, 1) 2 ∧
      expectedBombs [['1', '2', '1'], ['E', 'E', 'E']] 2 3 (0, 1) 2 >
        expectedBombs [['1', '2', '1'], ['E', 'E', 'E']] 2 3 (0, 0) 1 ∧
      ∃ (w1 : World) (flaggedTiles : List Pos),
        pivotCall blackScreen ⟨[['1', '2', '1'], ['E', 'E', 'E']], [], 0⟩ (0, 0) (0, 1) =
          some (true, w1) ∧
        flaggedTiles.Nodup ∧
        (∀ t, t ∈ flaggedTiles ↔
          t ∈ exclusive [['1', '2', '1'], ['E', 'E', 'E']] 2 3 (0, 0) (0, 1)) ∧
        w1.clicks = [] ++ flaggedTiles.map flagClick ∧
        ∀ t ∈ flaggedTiles, boardAt w1.board t.1 t.2 = some 'M' :=
  have hrect : Rect [['1', '2', '1'], ['E', 'E', 'E']] 2 3 := ⟨rfl, by simp⟩
  have hT : IsNumber [['1', '2', '1'], ['E', 'E', 'E']] (0, 0) 1 := ⟨by decide, by decide⟩
  have hP : IsNumber [['1', '2', '1'], ['E', 'E', 'E']] (0, 1) 2 := ⟨by decide, by decide⟩
  ⟨hrect, by decide, by decide, by decide, hT, hP, by decide,
    pivot_flags_pivot_side.1 blackScreen ⟨[['1', '2', '1'], ['E', 'E', 'E']], [], 0⟩ 2 3 (0, 0)
      (0, 1) 1 2 hrect (by decide) (by decide) (by decide) (by decide) (by decide) hT hP
      (by decide) (by decide) (by decide) (by decide)⟩

/-- C9, the claim as stated fails for a pivot holding `Number(0)`: on the board
`[['M', '0', '0', 'E']]` with tile `(0,1)` and pivot `(0,2)` the expected counts are `-1`
and `0`, their difference is the one pivot-only unrevealed tile `(0,3)`, and the call of
`pivotBoard` returns `false` with no click and the board untouched. -/
theorem pivot_flags_pivot_side_counterexample :
    IsNumber [['M', '0', '0', 'E']] (0, 1) 0 ∧ IsNumber [['M', '0', '0', 'E']] (0, 2) 0 ∧
      Orthogonal (0, 1) (0, 2) ∧
      expectedBombs [['M', '0', '0', 'E']] 1 4 (0, 2) 0 >
        expectedBombs [['M', '0', '0', 'E']] 1 4 (0, 1) 0 ∧
      expectedBombs [['M', '0', '0', 'E']] 1 4 (0, 2) 0 -
          expectedBombs [['M', '0', '0', 'E']] 1 4 (0, 1) 0 =
        ((exclusive [['M', '0', '0', 'E']] 1 4 (0, 1) (0, 2)).length : Int) ∧
      0 < (exclusive [['M', '0', '0', 'E']] 1 4 (0, 1) (0, 2)).length ∧
      (pivotCall blackScreen ⟨[['M', '0', '0', 'E']], [], 0⟩ (0, 1) (0, 2)).map
        (fun r => (r.1, r.2.clicks, r.2.board)) = some (false, [], [['M', '0', '0', 'E']]) := by
  refine ⟨⟨by decide, by decide⟩, ⟨by decide, by decide⟩, by decide, by decide, by decide,
    by decide, by decide⟩

/-! ## Sorting and sequence comparison in `pivotBoard` -/

theorem posLE_total (a b : Pos) : posLE a b ∨ posLE b a := by
  unfold posLE
  omega

theorem posLE_trans (a b c : Pos) (h1 : posLE a b) (h2 : posLE b c) : posLE a c := by
  unfold posLE at *
  omega

theorem posLE_antisymm (a b : Pos) (h1 : posLE a b) (h2 : posLE b a) : a = b := by
  unfold posLE at *
  apply Prod.ext <;> omega

theorem posLE_of_posLT {a b : Pos} (h : posLT a b) : posLE a b := by
  unfold posLT at h
  unfold posLE
  omega

/-- A strictly increasing duplicate-free list equals the sorted form of any duplicate-free
list with the same members: `std::equal` then compares them equal. -/
theorem eq_sortPos_of_mem_iff {l1 l2 : List Pos} (hs : l1.Pairwise posLT) (h1 : l1.Nodup)
    (h2 : l2.Nodup) (h : ∀ t, t ∈ l1 ↔ t ∈ l2) : l1 = sortPos l2 := by
  haveI : IsTotal Pos posLE := ⟨posLE_total⟩
  haveI : IsTrans Pos posLE := ⟨posLE_trans⟩
  haveI : IsAntisymm Pos posLE := ⟨posLE_antisymm⟩
  have hperm : l1.Perm (sortPos l2) :=
    ((List.perm_ext_iff_of_nodup h1 h2).mpr h).trans (List.perm_insertionSort posLE l2).symm
  exact List.eq_of_perm_of_sorted hperm (hs.imp posLE_of_posLT)
    (List.sorted_insertionSort posLE l2)

theorem mem_sortPos {l : List Pos} {t : Pos} : t ∈ sortPos l ↔ t ∈ l :=
  (List.perm_insertionSort posLE l).mem_iff

theorem flaggedCount_zero {board : Board} {rows cols : Nat} {q : Pos}
    (h : flaggedCount board rows cols q = 0) :
    ∀ t ∈ neighbours rows cols q, holds board 'M' t = false := by
  unfold flaggedCount at h
  rw [List.countP_eq_zero] at h
  intro t ht
  cases hM : holds board 'M' t
  · rfl
  · exact absurd hM (h t ht)

/-- C10 as amended: for a Number tile `p` and an orthogonally adjacent pivot `q` that holds
a number from 1 to 8 and has no flagged neighbour, such that `pivotExpected == expected`,
every unrevealed neighbour of the pivot is a neighbour of `p` (the pivot's unrevealed set
equals the intersection) and `notIntersection` is non-empty, the call of `pivotBoard`
returns `true` and issues one `REVEAL_TILE` click at every tile of `notIntersection`. -/
theorem pivot_reveals_tile_side (screen : Nat → Mat) (w : World) (rows cols : Nat) (p q : Pos)
    (n m : Nat) (hrect : Rect w.board rows cols) (hrows : 0 < rows) (hcols : 0 < cols)
    (hp : InBounds rows cols p) (hq : InBounds rows cols q) (_horth : Orthogonal p q)
    (hT : IsNumber w.board p n) (hP : IsNumber w.board q m) (hm : 1 ≤ m)
    (hflag : flaggedCount w.board rows cols q = 0)
    (heqe : expectedBombs w.board rows cols q m = expectedBombs w.board rows cols p n)
    (hsub : exclusive w.board rows cols p q = [])
    (hpos : 0 < (notIntersection w.board rows cols p q).length) :
    ∃ (w1 : World) (revealed : List Pos), pivotCall screen w p q = some (true, w1) ∧
      revealed.Nodup ∧ (∀ t, t ∈ revealed ↔ t ∈ notIntersection w.board rows cols p q) ∧
      w1.clicks = w.clicks ++ revealed.map revealClick := by
  unfold notIntersection at hpos ⊢
  obtain ⟨hval, hE, hM⟩ := number_char hP.1
  obtain ⟨R, SP, RI, TO, PNI, heq, hRnd, hRmem, hSnd, hSsort, hSmem, hInd, hImem, hTnd, hTmem,
      hPnd, hPmem⟩ :=
    pivotCall_eq screen w hrect hrows hcols hp hq hT hP.2 ⟨hE, number_char_pos hP.1 hm, hM⟩
  have hpe : ((Char.ofNat (48 + m)).toNat : Int) - 48 - (flaggedCount w.board rows cols q : Int)
      = expectedBombs w.board rows cols q m := by
    unfold expectedBombs
    rw [hval]
  have hPNI : PNI = [] := by
    apply List.eq_nil_iff_forall_not_mem.mpr
    intro t ht
    have := (hPmem t).mp ht
    rw [hsub] at this
    cases this
  have hnoflag := flaggedCount_zero hflag
  have hSPeq : SP = sortPos RI := by
    apply eq_sortPos_of_mem_iff hSsort hSnd hInd
    intro t
    rw [hSmem t, hImem t, hRmem t]
    constructor
    · rintro ⟨h1, h2⟩
      have hEt : boardAt w.board t.1 t.2 = some 'E' := by
        unfold hidden at h2
        rw [hnoflag t h1, Bool.or_false] at h2
        exact holds_iff.mp h2
      refine ⟨⟨?_, hEt⟩, h1⟩
      by_contra hnot
      have : t ∈ exclusive w.board rows cols p q := mem_exclusive.mpr ⟨h1, hEt, hnot⟩
      rw [hsub] at this
      cases this
    · rintro ⟨⟨-, h2⟩, h3⟩
      refine ⟨h3, ?_⟩
      unfold hidden
      rw [holds_iff.mpr h2]
      rfl
  have hlen : (TO ++ PNI).length ≠ 0 := by
    have h1 := length_eq_of_mem_iff hTnd (exclusive_nodup _ _ _ _ _) hTmem
    rw [hsub] at hpos
    rw [hPNI]
    simp only [List.append_nil] at hpos ⊢
    omega
  rw [heq, hpe]
  unfold pivotRules
  rw [if_neg (by rw [heqe]; simp), if_neg (by rw [heqe]; simp)]
  simp only
  rw [if_pos ⟨heqe, hSPeq⟩, if_neg hlen]
  obtain ⟨w1, hw1, hcl, -, -⟩ := revealAll_spec screen hrows hcols (TO ++ PNI) w hrect
  refine ⟨w1, TO ++ PNI, ?_, ?_, ?_, hcl⟩
  · rw [hw1]
    rfl
  · rw [hPNI, List.append_nil]
    exact hTnd
  · intro t
    rw [List.mem_append, List.mem_append, hTmem t, hPmem t]

/-! ## Claim C10: witness and counterexample -/

theorem pivot_reveals_tile_side_witness :
    Rect [['1', '1', '1', '1'], ['E', 'E', 'E', '1']] 2 4 ∧ InBounds 2 4 (0, 1) ∧
      InBounds 2 4 (0, 2) ∧ Orthogonal (0, 1) (0, 2) ∧
      IsNumber [['1', '1', '1', '1'], ['E', 'E', 'E', '1']] (0, 1) 1 ∧
      IsNumber [['1', '1', '1', '1'], ['E', 'E', 'E', '1']] (0, 2) 1 ∧
      flaggedCount [['1', '1', '1', '1'], ['E', 'E', 'E', '1']] 2 4 (0, 2) = 0 ∧
      exclusive [['1', '1', '1', '1'], ['E', 'E', 'E', '1']] 2 4 (0, 1) (0, 2) = [] ∧
      0 < (notIntersection [['1', '1', '1', '1'], ['E', 'E', 'E', '1']] 2 4 (0, 1) (0, 2)).length ∧
      ∃ (w1 : World) (revealed : List Pos),
        pivotCall blackScreen ⟨[['1', '1', '1', '1'], ['E', 'E', 'E', '1']], [], 0⟩ (0, 1)
          (0, 2) = some (true, w1) ∧
        revealed.Nodup ∧
        (∀ t, t ∈ revealed ↔
          t ∈ notIntersection [['1', '1', '1', '1'], ['E', 'E', 'E', '1']] 2 4 (0, 1) (0, 2)) ∧
        w1.clicks = [] ++ revealed.map revealClick :=
  have hrect : Rect [['1', '1', '1', '1'], ['E', 'E', 'E', '1']] 2 4 := ⟨rfl, by simp⟩
  have hT : IsNumber [['1', '1', '1', '1'], ['E', 'E', 'E', '1']] (0, 1) 1 :=
    ⟨by decide, by decide⟩
  have hP : IsNumber [['1', '1', '1', '1'], ['E', 'E', 'E', '1']] (0, 2) 1 :=
    ⟨by decide, by decide⟩
  ⟨hrect, by decide, by decide, by decide, hT, hP, by decide, by decide, by decide,
    pivot_reveals_tile_side blackScreen ⟨[['1', '1', '1', '1'], ['E', 'E', 'E', '1']], [], 0⟩
      2 4 (0, 1) (0, 2) 1 1 hrect (by decide) (by decide) (by decide) (by decide) (by decide)
      hT hP (by decide) (by decide) (by decide) (by decide) (by decide)⟩

/-- C10, the claim as stated fails for a pivot holding `Number(0)`: on the board
`[['M','1','0'],['E','1','1']]` with tile `(0,1)` and pivot `(0,2)` both expected counts
are 0, the pivot has no unrevealed neighbour outside the intersection and `notIntersection`
is the tile `(1,0)`, yet the call of `pivotBoard` returns `false` with no click. -/
theorem pivot_reveals_tile_side_counterexample :
    IsNumber [['M', '1', '0'], ['E', '1', '1']] (0, 1) 1 ∧
      IsNumber [['M', '1', '0'], ['E', '1', '1']] (0, 2) 0 ∧ Orthogonal (0, 1) (0, 2) ∧
      expectedBombs [['M', '1', '0'], ['E', '1', '1']] 2 3 (0, 2) 0 =
        expectedBombs [['M', '1', '0'], ['E', '1', '1']] 2 3 (0, 1) 1 ∧
      exclusive [['M', '1', '0'], ['E', '1', '1']] 2 3 (0, 1) (0, 2) = [] ∧
      notIntersection [['M', '1', '0'], ['E', '1', '1']] 2 3 (0, 1) (0, 2) = [(1, 0)] ∧
      (pivotCall blackScreen ⟨[['M', '1', '0'], ['E', '1', '1']], [], 0⟩ (0, 1) (0, 2)).map
        (fun r => (r.1, r.2.clicks, r.2.board)) =
          some (false, [], [['M', '1', '0'], ['E', '1', '1']]) := by
  refine ⟨⟨by decide, by decide⟩, ⟨by decide, by decide⟩, by decide, by decide, by decide,
    by decide, by decide⟩

/-! ## Soundness of the PIVOT deductions -/

theorem pivotRules_cases (screen : Nat → Mat) (w : World)
    (R RI RNI SP PNI : List Pos) (e pe : Int) (Q : Option (Bool × World) → Prop)
    (hfalse : Q (some (false, w)))
    (hflag1 : pe > e → pe - e = (PNI.length : Int) →
      Q ((markAll screen PNI w).map fun w1 => (true, w1)))
    (hrev2 : pe = e → SP = sortPos RI →
      Q ((revealAll screen RNI w).map fun w1 => (true, w1)))
    (hrev3 : pe = e → sortPos R = sortPos RI →
      Q ((revealAll screen PNI w).map fun w1 => (true, w1)))
    (hrev4 : pe = e → RNI.length = 0 →
      Q ((revealAll screen PNI w).map fun w1 => (true, w1)))
    (hflag5 : e - pe = (RNI.length : Int) →
      Q ((markAll screen RNI w).map fun w1 => (true, w1))) :
    Q (pivotRules screen w R RI RNI SP PNI e pe) := by
  unfold pivotRules
  simp only
  split_ifs with h1 h2 h3 h4 h5 h6 h7 h8 h9 h10
  all_goals first
    | exact hfalse
    | exact hflag1 h2.1 h2.2
    | exact hrev2 h3.1 h3.2
    | exact hrev3 h5.1 h5.2
    | exact hrev4 h7.1 h7.2
    | exact hflag5 h9

theorem soundOutcome_false (w : World) (mine : Pos → Bool) :
    SoundOutcome w mine (some (false, w)) :=
  ⟨false, w, [], rfl, by simp, by simp, by simp, fun _ h => Or.inl h⟩

theorem soundOutcome_flag (screen : Nat → Mat) (w : World) (mine : Pos → Bool)
    {rows cols : Nat} (hrect : Rect w.board rows cols) (hrows : 0 < rows) (hcols : 0 < cols)
    (L : List Pos) (hE : ∀ t ∈ L, boardAt w.board t.1 t.2 = some 'E')
    (hmine : ∀ t ∈ L, mine t = true) :
    SoundOutcome w mine ((markAll screen L w).map fun w1 => (true, w1)) := by
  obtain ⟨w1, hw1, hcl, -, -, -, -, hnew⟩ := markAll_spec screen hrows hcols hrect L w
    (keeps_refl _) hE
  refine ⟨true, w1, L.map flagClick, ?_, hcl, ?_, ?_, ?_⟩
  · rw [hw1]
    rfl
  · intro c hc _
    obtain ⟨t, ht, rfl⟩ := List.mem_map.mp hc
    exact ⟨t, rfl, hmine t ht⟩
  · intro c hc hact
    obtain ⟨t, -, rfl⟩ := List.mem_map.mp hc
    cases hact
  · intro t ht
    rcases hnew t.1 t.2 ht with h | h
    · exact Or.inl h
    · exact Or.inr (hmine t h)

theorem soundOutcome_reveal (screen : Nat → Mat) (w : World) (mine : Pos → Bool)
    {rows cols : Nat} (hrect : Rect w.board rows cols) (hrows : 0 < rows) (hcols : 0 < cols)
    (L : List Pos) (hsafe : ∀ t ∈ L, mine t = false) :
    SoundOutcome w mine ((revealAll screen L w).map fun w1 => (true, w1)) := by
  obtain ⟨w1, hw1, hcl, -, hrf⟩ := revealAll_spec screen hrows hcols L w hrect
  refine ⟨true, w1, L.map revealClick, ?_, hcl, ?_, ?_, ?_⟩
  · rw [hw1]
    rfl
  · intro c hc hact
    obtain ⟨t, -, rfl⟩ := List.mem_map.mp hc
    cases hact
  · intro c hc _
    obtain ⟨t, ht, rfl⟩ := List.mem_map.mp hc
    exact ⟨t, rfl, hsafe t ht⟩
  · intro t ht
    exact Or.inl (hrf.2 _ _ ht)

/-- The mines among a list of tiles are its flagged tiles plus the mines among its
unrevealed tiles. -/
theorem mine_split {board : Board} {mine : Pos → Bool} (hhid : MinesHidden board mine)
    (hfl : FlagsAreMines board mine) :
    ∀ l : List Pos, l.countP mine =
      l.countP (holds board 'M') + (l.filter (holds board 'E')).countP mine := by
  intro l
  induction l with
  | nil => rfl
  | cons a t ih =>
    rw [List.countP_cons, List.countP_cons, List.filter_cons, ih]
    cases hM : holds board 'M' a
    · cases hE : holds board 'E' a
      · have hm : mine a = false := by
          cases hmine : mine a
          · rfl
          · have := hhid a hmine
            unfold hidden at this
            rw [hM, hE] at this
            cases this
        simp [hm]
      · simp only [if_true, List.countP_cons]
        simp
        omega
    · rw [holds_flag_not_unrevealed hM, hfl a hM]
      simp
      omega

theorem countP_split {f : Pos → Bool} {l l1 l2 : List Pos} (h : l.Nodup) (h1 : l1.Nodup)
    (h2 : l2.Nodup) (hdisj : ∀ t, t ∈ l1 → t ∉ l2) (hmem : ∀ t, t ∈ l ↔ t ∈ l1 ∨ t ∈ l2) :
    l.countP f = l1.countP f + l2.countP f := by
  have hnd : (l1 ++ l2).Nodup := List.nodup_append.mpr ⟨h1, h2, fun a ha hb => hdisj a ha hb⟩
  have hperm : l.Perm (l1 ++ l2) := by
    rw [List.perm_ext_iff_of_nodup h hnd]
    intro t
    rw [hmem t, List.mem_append]
  rw [hperm.countP_eq, List.countP_append]

/-- The remaining mines expected around a number tile are the mines among its unrevealed
neighbours. -/
theorem expectedBombs_eq {board : Board} {rows cols : Nat} {p : Pos} {n : Nat}
    {mine : Pos → Bool} (hhid : MinesHidden board mine) (hfl : FlagsAreMines board mine)
    (hcount : mineCount mine rows cols p = n) :
    expectedBombs board rows cols p n =
      ((((neighbours rows cols p).filter (holds board 'E')).countP mine : Nat) : Int) := by
  unfold expectedBombs
  unfold mineCount at hcount
  have := mine_split hhid hfl (neighbours rows cols p)
  unfold flaggedCount
  omega

/-- Every deduction of `pivotBoard` is sound for every mine placement that is consistent
with the two numbers and the flags. -/
theorem pivotCall_sound (screen : Nat → Mat) (w : World) {rows cols : Nat} {p q : Pos}
    {n m : Nat} {mine : Pos → Bool} (hrect : Rect w.board rows cols) (hrows : 0 < rows)
    (hcols : 0 < cols) (hp : InBounds rows cols p) (hq : InBounds rows cols q)
    (hT : IsNumber w.board p n) (hP : IsNumber w.board q m)
    (hcp : mineCount mine rows cols p = n) (hcq : mineCount mine rows cols q = m)
    (hhid : MinesHidden w.board mine) (hfl : FlagsAreMines w.board mine) :
    SoundOutcome w mine (pivotCall screen w p q) := by
  by_cases hm : m = 0
  · subst hm
    rw [pivotCall_guard screen w hrect hrows hcols hp hT hP.2 (by decide)]
    exact soundOutcome_false w mine
  · obtain ⟨hval, hE, hM⟩ := number_char hP.1
    obtain ⟨R, SP, RI, TO, PNI, heq, hRnd, hRmem, hSnd, hSsort, hSmem, hInd, hImem, hTnd,
        hTmem, hPnd, hPmem⟩ :=
      pivotCall_eq screen w hrect hrows hcols hp hq hT hP.2
        ⟨hE, number_char_pos hP.1 (by omega), hM⟩
    have hpe : ((Char.ofNat (48 + m)).toNat : Int) - 48 -
        (flaggedCount w.board rows cols q : Int) = expectedBombs w.board rows cols q m := by
      unfold expectedBombs
      rw [hval]
    rw [heq, hpe]
    -- the mines among the three parts of the two unrevealed neighbourhoods
    have hEp : ∀ t, t ∈ (neighbours rows cols p).filter (holds w.board 'E') ↔ t ∈ R := by
      intro t
      rw [List.mem_filter, holds_iff, hRmem t]
    have hcR : ((neighbours rows cols p).filter (holds w.board 'E')).countP mine =
        RI.countP mine + TO.countP mine := by
      apply countP_split ((neighbours_nodup rows cols p).filter _) hInd hTnd
      · intro t h1 h2
        exact (mem_exclusive.mp ((hTmem t).mp h2)).2.2 ((hImem t).mp h1).2
      · intro t
        rw [hEp t, hImem t, hTmem t, mem_exclusive, hRmem t]
        constructor
        · rintro ⟨h1, h2⟩
          by_cases h3 : t ∈ neighbours rows cols q
          · exact Or.inl ⟨⟨h1, h2⟩, h3⟩
          · exact Or.inr ⟨h1, h2, h3⟩
        · rintro (⟨h1, -⟩ | ⟨h1, h2, -⟩)
          · exact h1
          · exact ⟨h1, h2⟩
    have hcP : ((neighbours rows cols q).filter (holds w.board 'E')).countP mine =
        RI.countP mine + PNI.countP mine := by
      apply countP_split ((neighbours_nodup rows cols q).filter _) hInd hPnd
      · intro t h1 h2
        exact (mem_exclusive.mp ((hPmem t).mp h2)).2.2 ((hRmem t).mp ((hImem t).mp h1).1).1
      · intro t
        rw [List.mem_filter, holds_iff, hImem t, hPmem t, mem_exclusive, hRmem t]
        constructor
        · rintro ⟨h1, h2⟩
          by_cases h3 : t ∈ neighbours rows cols p
          · exact Or.inl ⟨⟨h3, h2⟩, h1⟩
          · exact Or.inr ⟨h1, h2, h3⟩
        · rintro (⟨⟨-, h2⟩, h1⟩ | ⟨h1, h2, -⟩)
          · exact ⟨h1, h2⟩
          · exact ⟨h1, h2⟩
    have he := expectedBombs_eq hhid hfl hcp
    have hpe2 := expectedBombs_eq hhid hfl hcq
    rw [hcR] at he
    rw [hcP] at hpe2
    have hbT : TO.countP mine ≤ TO.length := List.countP_le_length _
    have hbP : PNI.countP mine ≤ PNI.length := List.countP_le_length _
    have hTE : ∀ t ∈ TO, boardAt w.board t.1 t.2 = some 'E' :=
      fun t ht => (mem_exclusive.mp ((hTmem t).mp ht)).2.1
    have hPE : ∀ t ∈ PNI, boardAt w.board t.1 t.2 = some 'E' :=
      fun t ht => (mem_exclusive.mp ((hPmem t).mp ht)).2.1
    have hall : ∀ {l : List Pos}, l.countP mine = l.length → ∀ t ∈ l, mine t = true :=
      fun h => List.countP_eq_length.mp h
    have hnone : ∀ {l : List Pos}, l.countP mine = 0 → ∀ t ∈ l, mine t = false := by
      intro l h t ht
      cases hmt : mine t
      · rfl
      · exact absurd hmt (List.countP_eq_zero.mp h t ht)
    apply pivotRules_cases
    · exact soundOutcome_false w mine
    · intro h1 h2
      exact soundOutcome_flag screen w mine hrect hrows hcols PNI hPE (hall (by omega))
    · intro h1 h2
      have hPnil : PNI = [] := by
        apply List.eq_nil_iff_forall_not_mem.mpr
        intro t ht
        have hex := mem_exclusive.mp ((hPmem t).mp ht)
        have hSP : t ∈ SP := (hSmem t).mpr ⟨hex.1, by
          unfold hidden
          rw [holds_iff.mpr hex.2.1]
          rfl⟩
        rw [h2, mem_sortPos, hImem t, hRmem t] at hSP
        exact hex.2.2 hSP.1.1
      have hc0 : PNI.countP mine = 0 := by rw [hPnil]; rfl
      apply soundOutcome_reveal screen w mine hrect hrows hcols
      intro t ht
      rcases List.mem_append.mp ht with ht | ht
      · exact hnone (by omega) t ht
      · exact hnone hc0 t ht
    · intro h1 h2
      have hTnil : TO = [] := by
        apply List.eq_nil_iff_forall_not_mem.mpr
        intro t ht
        have hex := mem_exclusive.mp ((hTmem t).mp ht)
        have hR : t ∈ sortPos R := mem_sortPos.mpr ((hRmem t).mpr ⟨hex.1, hex.2.1⟩)
        rw [h2, mem_sortPos, hImem t] at hR
        exact hex.2.2 hR.2
      have hc0 : TO.countP mine = 0 := by rw [hTnil]; rfl
      exact soundOutcome_reveal screen w mine hrect hrows hcols PNI (hnone (by omega))
    · intro h1 h2
      have hPnil : PNI = [] := by
        have : PNI.length = 0 := by
          rw [List.length_append] at h2
          omega
        exact List.length_eq_zero.mp this
      apply soundOutcome_reveal screen w mine hrect hrows hcols
      intro t ht
      rw [hPnil] at ht
      cases ht
    · intro h1
      rw [List.length_append] at h1
      have hPnil : PNI = [] := List.length_eq_zero.mp (by omega)
      apply soundOutcome_flag screen w mine hrect hrows hcols
      · intro t ht
        rcases List.mem_append.mp ht with ht | ht
        · exact hTE t ht
        · exact hPE t ht
      · intro t ht
        rcases List.mem_append.mp ht with ht | ht
        · exact hall (by omega) t ht
        · rw [hPnil] at ht
          cases ht

/-! ## Claims about the PIVOT strategy: soundness -/

/-- C2: PIVOT flagging is sound. For a Number tile `p`, an orthogonally adjacent Number
pivot `q` and every mine placement consistent with both numbers (each has exactly its
number of mines among its neighbours, every flagged tile is a mine, mines only on
unrevealed or flagged tiles), the call of `pivotBoard` returns, every `MARK_BOMB` click it
issues (by the 'pivot expects more' rule or the 'original expects more' rule) is the flag
click of a mine, and every tile it has turned into `'M'` is a mine. -/
theorem pivot_flagging_sound (screen : Nat → Mat) (w : World) (rows cols : Nat) (p q : Pos)
    (n m : Nat) (mine : Pos → Bool) (hrect : Rect w.board rows cols) (hrows : 0 < rows)
    (hcols : 0 < cols) (hp : InBounds rows cols p) (hq : InBounds rows cols q)
    (_horth : Orthogonal p q) (hT : IsNumber w.board p n) (hP : IsNumber w.board q m)
    (hcp : mineCount mine rows cols p = n) (hcq : mineCount mine rows cols q = m)
    (hhid : MinesHidden w.board mine) (hfl : FlagsAreMines w.board mine) :
    ∃ (changed : Bool) (w1 : World) (issued : List Click),
      pivotCall screen w p q = some (changed, w1) ∧ w1.clicks = w.clicks ++ issued ∧
      (∀ c ∈ issued, c.action = ACTION.MARK_BOMB → ∃ t, c = flagClick t ∧ mine t = true) ∧
      ∀ t : Pos, boardAt w1.board t.1 t.2 = some 'M' →
        boardAt w.board t.1 t.2 = some 'M' ∨ mine t = true := by
  obtain ⟨changed, w1, issued, h1, h2, h3, -, h5⟩ :=
    pivotCall_sound screen w hrect hrows hcols hp hq hT hP hcp hcq hhid hfl
  exact ⟨changed, w1, issued, h1, h2, h3, h5⟩

theorem pivot_flagging_sound_witness :
    Rect [['1', '2', '1'], ['E', 'E', 'E']] 2 3 ∧ InBounds 2 3 (0, 0) ∧ InBounds 2 3 (0, 1) ∧
      Orthogonal (0, 0) (0, 1) ∧ IsNumber [['1', '2', '1'], ['E', 'E', 'E']] (0, 0) 1 ∧
      IsNumber [['1', '2', '1'], ['E', 'E', 'E']] (0, 1) 2 ∧
      mineCount (fun t => decide (t = ((1, 0) : Pos) ∨ t = ((1, 2) : Pos))) 2 3 (0, 0) = 1 ∧
      mineCount (fun t => decide (t = ((1, 0) : Pos) ∨ t = ((1, 2) : Pos))) 2 3 (0, 1) = 2 ∧
      MinesHidden [['1', '2', '1'], ['E', 'E', 'E']]
        (fun t => decide (t = ((1, 0) : Pos) ∨ t = ((1, 2) : Pos))) ∧
      FlagsAreMines [['1', '2', '1'], ['E', 'E', 'E']]
        (fun t => decide (t = ((1, 0) : Pos) ∨ t = ((1, 2) : Pos))) ∧
      ∃ (changed : Bool) (w1 : World) (issued : List Click),
        pivotCall blackScreen ⟨[['1', '2', '1'], ['E', 'E', 'E']], [], 0⟩ (0, 0) (0, 1) =
          some (changed, w1) ∧
        w1.clicks = [] ++ issued ∧
        (∀ c ∈ issued, c.action = ACTION.MARK_BOMB →
          ∃ t, c = flagClick t ∧
            (fun t => decide (t = ((1, 0) : Pos) ∨ t = ((1, 2) : Pos))) t = true) ∧
        ∀ t : Pos, boardAt w1.board t.1 t.2 = some 'M' →
          boardAt [['1', '2', '1'], ['E', 'E', 'E']] t.1 t.2 = some 'M' ∨
            (fun t => decide (t = ((1, 0) : Pos) ∨ t = ((1, 2) : Pos))) t = true :=
  have hrect : Rect [['1', '2', '1'], ['E', 'E', 'E']] 2 3 := ⟨rfl, by simp⟩
  have hT : IsNumber [['1', '2', '1'], ['E', 'E', 'E']] (0, 0) 1 := ⟨by decide, by decide⟩
  have hP : IsNumber [['1', '2', '1'], ['E', 'E', 'E']] (0, 1) 2 := ⟨by decide, by decide⟩
  have hhid : MinesHidden [['1', '2', '1'], ['E', 'E', 'E']]
      (fun t => decide (t = ((1, 0) : Pos) ∨ t = ((1, 2) : Pos))) := by
    intro t ht
    have : t = (1, 0) ∨ t = (1, 2) := by simpa using ht
    rcases this with rfl | rfl <;> decide
  have hfl : FlagsAreMines [['1', '2', '1'], ['E', 'E', 'E']]
      (fun t => decide (t = ((1, 0) : Pos) ∨ t = ((1, 2) : Pos))) := by
    intro t ht
    exfalso
    have hat := holds_iff.mp ht
    have hin := rect_inBounds_of_boardAt hrect hat
    obtain ⟨x, y⟩ := t
    unfold InBounds at hin
    simp only at hin hat
    have hx : x = 0 ∨ x = 1 := by omega
    have hy : y = 0 ∨ y = 1 ∨ y = 2 := by omega
    rcases hx with rfl | rfl <;> rcases hy with rfl | rfl | rfl <;>
      exact absurd hat (by decide)
  ⟨hrect, by decide, by decide, by decide, hT, hP, by decide, by decide, hhid, hfl,
    pivot_flagging_sound blackScreen ⟨[['1', '2', '1'], ['E', 'E', 'E']], [], 0⟩ 2 3 (0, 0)
      (0, 1) 1 2 _ hrect (by decide) (by decide) (by decide) (by decide) (by decide) hT hP
      (by decide) (by decide) hhid hfl⟩

/-- C3: PIVOT revealing is sound. For a Number tile `p`, an orthogonally adjacent Number
pivot `q` and every mine placement consistent with both numbers (each has exactly its
number of mines among its neighbours, every flagged tile is a mine, mines only on
unrevealed or flagged tiles), the call of `pivotBoard` returns and every `REVEAL_TILE`
click it issues is the reveal click of a tile that is not a mine. -/
theorem pivot_revealing_sound (screen : Nat → Mat) (w : World) (rows cols : Nat) (p q : Pos)
    (n m : Nat) (mine : Pos → Bool) (hrect : Rect w.board rows cols) (hrows : 0 < rows)
    (hcols : 0 < cols) (hp : InBounds rows cols p) (hq : InBounds rows cols q)
    (_horth : Orthogonal p q) (hT : IsNumber w.board p n) (hP : IsNumber w.board q m)
    (hcp : mineCount mine rows cols p = n) (hcq : mineCount mine rows cols q = m)
    (hhid : MinesHidden w.board mine) (hfl : FlagsAreMines w.board mine) :
    ∃ (changed : Bool) (w1 : World) (issued : List Click),
      pivotCall screen w p q = some (changed, w1) ∧ w1.clicks = w.clicks ++ issued ∧
      ∀ c ∈ issued, c.action = ACTION.REVEAL_TILE →
        ∃ t, c = revealClick t ∧ mine t = false := by
  obtain ⟨changed, w1, issued, h1, h2, -, h4, -⟩ :=
    pivotCall_sound screen w hrect hrows hcols hp hq hT hP hcp hcq hhid hfl
  exact ⟨changed, w1, issued, h1, h2, h4⟩

theorem pivot_revealing_sound_witness :
    Rect [['1', '1', '1', '1'], ['E', 'E', 'E', '1']] 2 4 ∧ InBounds 2 4 (0, 1) ∧
      InBounds 2 4 (0, 2) ∧ Orthogonal (0, 1) (0, 2) ∧
      IsNumber [['1', '1', '1', '1'], ['E', 'E', 'E', '1']] (0, 1) 1 ∧
      IsNumber [['1', '1', '1', '1'], ['E', 'E', 'E', '1']] (0, 2) 1 ∧
      mineCount (fun t => decide (t = ((1, 1) : Pos))) 2 4 (0, 1) = 1 ∧
      mineCount (fun t => decide (t = ((1, 1) : Pos))) 2 4 (0, 2) = 1 ∧
      MinesHidden [['1', '1', '1', '1'], ['E', 'E', 'E', '1']]
        (fun t => decide (t = ((1, 1) : Pos))) ∧
      FlagsAreMines [['1', '1', '1', '1'], ['E', 'E', 'E', '1']]
        (fun t => decide (t = ((1, 1) : Pos))) ∧
      ∃ (changed : Bool) (w1 : World) (issued : List Click),
        pivotCall blackScreen ⟨[['1', '1', '1', '1'], ['E', 'E', 'E', '1']], [], 0⟩ (0, 1)
          (0, 2) = some (changed, w1) ∧
        w1.clicks = [] ++ issued ∧
        ∀ c ∈ issued, c.action = ACTION.REVEAL_TILE →
          ∃ t, c = revealClick t ∧ (fun t => decide (t = ((1, 1) : Pos))) t = false :=
  have hrect : Rect [['1', '1', '1', '1'], ['E', 'E', 'E', '1']] 2 4 := ⟨rfl, by simp⟩
  have hT : IsNumber [['1', '1', '1', '1'], ['E', 'E', 'E', '1']] (0, 1) 1 :=
    ⟨by decide, by decide⟩
  have hP : IsNumber [['1', '1', '1', '1'], ['E', 'E', 'E', '1']] (0, 2) 1 :=
    ⟨by decide, by decide⟩
  have hhid : MinesHidden [['1', '1', '1', '1'], ['E', 'E', 'E', '1']]
      (fun t => decide (t = ((1, 1) : Pos))) := by
    intro t ht
    have : t = (1, 1) := by simpa using ht
    subst this
    decide
  have hfl : FlagsAreMines [['1', '1', '1', '1'], ['E', 'E', 'E', '1']]
      (fun t => decide (t = ((1, 1) : Pos))) := by
    intro t ht
    exfalso
    have hat := holds_iff.mp ht
    have hin := rect_inBounds_of_boardAt hrect hat
    obtain ⟨x, y⟩ := t
    unfold InBounds at hin
    simp only at hin hat
    have hx : x = 0 ∨ x = 1 := by omega
    have hy : y = 0 ∨ y = 1 ∨ y = 2 ∨ y = 3 := by omega
    rcases hx with rfl | rfl <;> rcases hy with rfl | rfl | rfl | rfl <;>
      exact absurd hat (by decide)
  ⟨hrect, by decide, by decide, by decide, hT, hP, by decide, by decide, hhid, hfl,
    pivot_revealing_sound blackScreen ⟨[['1', '1', '1', '1'], ['E', 'E', 'E', '1']], [], 0⟩
      2 4 (0, 1) (0, 2) 1 1 _ hrect (by decide) (by decide) (by decide) (by decide)
      (by decide) hT hP (by decide) (by decide) hhid hfl⟩

/-! ## Claims about the colour classifier -/

/-- C17: `colorIdentifier` returns `WHITE` if and only if the red, green and blue channels
are all above 195 (for every sample, in particular for channels in 0..255); `RGB(255,255,255)`
yields `WHITE` and `RGB(200,30,30)`, which is not white, yields `RED`. -/
theorem colorIdentifier_white_iff :
    (∀ color : Vec4b, colorIdentifier color = COLOR.WHITE ↔
      color.v2 > 195 ∧ color.v1 > 195 ∧ color.v0 > 195) ∧
    colorIdentifier (ofRGB 255 255 255) = COLOR.WHITE ∧
    colorIdentifier (ofRGB 200 30 30) = COLOR.RED := by
  refine ⟨?_, by decide, by decide⟩
  intro color
  unfold colorIdentifier
  simp only
  constructor
  · intro h
    by_contra hnot
    rw [if_neg hnot] at h
    split_ifs at h
  · intro h
    rw [if_pos h]

/-- C18, evaluated on the code: for `RGB(0,0,0)`, and for every achromatic sample with
`R = G = B < 50`, `colorIdentifier` returns `LIGHT_GRAY`, not `BLACK`: the achromatic rule
for values below 150 is tested before the rule for values below 50. -/
theorem colorIdentifier_dark_achromatic :
    colorIdentifier (ofRGB 0 0 0) = COLOR.LIGHT_GRAY ∧
    colorIdentifier (ofRGB 0 0 0) ≠ COLOR.BLACK ∧
    ∀ v a : Nat, v < 50 → colorIdentifier ⟨v, v, v, a⟩ = COLOR.LIGHT_GRAY := by
  refine ⟨by decide, by decide, ?_⟩
  intro v a hv
  unfold colorIdentifier
  simp only
  rw [if_neg (by omega), if_neg (by omega), if_neg (by omega), if_neg (by omega),
    if_neg (by omega), if_neg (by omega), if_neg (by omega),
    if_pos ⟨by omega, by omega, by omega, trivial, trivial, trivial⟩]

/-! ## The values the tile sampler writes -/

theorem written_eq_tileValue (img : Mat) (board : Board) (i j y counter : Nat) (rc : Vec4b) :
    (if (if counter > 0 then colorIdentifier rc else COLOR.LIGHT_GRAY).val ≠ 0 then
        boardSet board i j
          (Char.ofNat (48 + (if counter > 0 then colorIdentifier rc else COLOR.LIGHT_GRAY).val))
      else
        match borderProbe img y (34 + 25 * (j + 1))
            (34 + 25 * (j + 1) + 1 - (34 + 25 * j + j / 2)) (34 + 25 * j + j / 2) with
        | none => some board
        | some ch => boardSet board i j ch) =
      match tileValue img y j (34 + 25 * j + j / 2) counter rc with
      | none => some board
      | some ch => boardSet board i j ch := by
  unfold tileValue
  simp only
  generalize (if counter > 0 then colorIdentifier rc else COLOR.LIGHT_GRAY) = v
  by_cases hv : v.val ≠ 0
  · rw [if_pos hv, if_pos hv]
  · rw [if_neg hv, if_neg hv]

theorem verdict_char_mem (v : COLOR) : Char.ofNat (48 + v.val) ∈ sampleChars := by
  cases v <;> decide

theorem tileValue_char {img : Mat} {y j start counter : Nat} {rc : Vec4b} {c : Char}
    (h : tileValue img y j start counter rc = some c) : c ∈ sampleChars := by
  unfold tileValue at h
  simp only at h
  generalize (if counter > 0 then colorIdentifier rc else COLOR.LIGHT_GRAY) = v at h
  by_cases hv : v.val ≠ 0
  · rw [if_pos hv] at h
    cases h
    exact verdict_char_mem v
  · rw [if_neg hv] at h
    rcases borderProbe_char img y _ _ _ c h with rfl | rfl <;> decide

theorem sampled_refl (b : Board) : Sampled b b :=
  fun _ _ _ h => Or.inl h

theorem sampled_trans {a b c : Board} (h1 : Sampled a b) (h2 : Sampled b c) : Sampled a c := by
  intro x y ch hc
  rcases h2 x y ch hc with h | ⟨hE, hmem⟩
  · exact h1 x y ch h
  · rcases h1 x y 'E' hE with h | ⟨h, -⟩
    · exact Or.inr ⟨h, hmem⟩
    · exact Or.inr ⟨h, hmem⟩

theorem boardSet_sampled {b b1 : Board} {x y : Int} {c : Char}
    (hE : boardAt b x y = some 'E') (hc : c ∈ sampleChars) (h : boardSet b x y c = some b1) :
    Sampled b b1 := by
  obtain ⟨-, hat, hother⟩ := boardSet_spec h
  intro x1 y1 c1 h1
  by_cases hp : (x1, y1) = (x, y)
  · cases hp
    rw [hat] at h1
    cases h1
    exact Or.inr ⟨hE, hc⟩
  · rw [hother x1 y1 hp] at h1
    exact Or.inl h1

theorem updateRow_sampled (img : Mat) (cols i offset_row : Nat) :
    ∀ (fuel : Nat) (board : Board) (j offset tc counter : Nat) (rc : Vec4b) (b1 : Board),
      updateRow img cols i offset_row fuel board j offset tc counter rc = some b1 →
      Sampled board b1 := by
  intro fuel
  induction fuel with
  | zero =>
    intro board j offset tc counter rc b1 h
    simp [updateRow] at h
  | succ fuel ih =>
    intro board j offset tc counter rc b1 h
    unfold updateRow at h
    split at h
    · split at h
      · cases h
      · next c hc =>
        split at h
        · exact ih _ _ _ _ _ _ _ h
        · next hkept =>
          have hE : boardAt board i j = some 'E' := by
            have : c = 'E' := by
              by_contra hne
              exact hkept (Or.inl hne)
            rw [hc, this]
          simp only at h
          split at h
          · rw [written_eq_tileValue] at h
            split at h
            · cases h
            · next board1 hw =>
              have hs : Sampled board board1 := by
                split at hw
                · cases hw
                  exact sampled_refl _
                · next ch htv => exact boardSet_sampled hE (tileValue_char htv) hw
              exact sampled_trans hs (ih _ _ _ _ _ _ _ h)
          · split at h
            · exact ih _ _ _ _ _ _ _ h
            · exact ih _ _ _ _ _ _ _ h
    · cases h
      exact sampled_refl _

theorem updateRows_sampled (img : Mat) (rows cols : Nat) :
    ∀ (fuel : Nat) (board : Board) (i offset_row : Nat) (b1 : Board),
      updateRows img rows cols fuel board i offset_row = some b1 → Sampled board b1 := by
  intro fuel
  induction fuel with
  | zero =>
    intro board i offset_row b1 h
    simp [updateRows] at h
  | succ fuel ih =>
    intro board i offset_row b1 h
    unfold updateRows at h
    split at h
    · split at h
      · cases h
      · next board1 hrow =>
        exact sampled_trans (updateRow_sampled img cols i offset_row _ _ _ _ _ _ _ _ hrow)
          (ih _ _ _ _ h)
    · cases h
      exact sampled_refl _

theorem updateBoard_sampled {screen : Nat → Mat} {w w1 : World}
    (h : updateBoard screen w = some w1) : Sampled w.board w1.board := by
  unfold updateBoard at h
  split at h
  · cases h
    exact sampled_refl _
  · split at h
    · cases h
    · next board1 hrows =>
      cases h
      exact updateRows_sampled _ _ _ _ _ _ _ _ hrows

/-! ## Claims about the board snapshot builder -/

/-- C12: on a non-empty rectangular board and for every captured image, `updateBoard`
returns and every tile that is not `'E'` before the call (every Number and every
FlaggedMine tile) has the same value after the call. -/
theorem updateBoard_keeps_decided (screen : Nat → Mat) (w : World) (rows cols : Nat)
    (hrect : Rect w.board rows cols) (hrows : 0 < rows) (hcols : 0 < cols) :
    ∃ w1, updateBoard screen w = some w1 ∧
      ∀ x y c, boardAt w.board x y = some c → c ≠ 'E' → boardAt w1.board x y = some c := by
  obtain ⟨w1, h1, -, -, hrf⟩ := updateBoard_spec screen w hrect hrows hcols
  exact ⟨w1, h1, hrf.1.2⟩

theorem updateBoard_keeps_decided_witness :
    Rect [['E', '1'], ['M', 'E']] 2 2 ∧
      ∃ w1, updateBoard dullScreen ⟨[['E', '1'], ['M', 'E']], [], 0⟩ = some w1 ∧
        ∀ x y c, boardAt [['E', '1'], ['M', 'E']] x y = some c → c ≠ 'E' →
          boardAt w1.board x y = some c :=
  have hrect : Rect [['E', '1'], ['M', 'E']] 2 2 := ⟨rfl, by simp⟩
  ⟨hrect, updateBoard_keeps_decided dullScreen ⟨[['E', '1'], ['M', 'E']], [], 0⟩ 2 2 hrect
    (by decide) (by decide)⟩

/-- C15, the claim as stated fails: with every pixel `RGB(100,100,101)` the accumulated
average is classified `UNKNOWN` and the refresh of the board `[['E']]` writes `'9'`, which
is neither `'E'` nor a Number from 0 to 8. -/
theorem sampler_values_counterexample :
    colorIdentifier (ofRGB 100 100 101) = COLOR.UNKNOWN ∧
      (updateBoard dullScreen ⟨[['E']], [], 0⟩).map (fun w1 => w1.board) = some [['9']] ∧
      boardAt [['9']] 0 0 ≠ some 'E' ∧ ¬ ∃ n, IsNumber [['9']] (0, 0) n := by
  refine ⟨by decide, by set_option maxRecDepth 100000 in decide, by decide, ?_⟩
  rintro ⟨n, hn, hat⟩
  interval_cases n <;> exact absurd hat (by decide)

/-- C15 as amended: every value the tile sampler writes is `'E'`, `'0'` or the character
with code `48 + v` for the non-zero value `v` of the category of the accumulated average:
`'1'` to `'6'` for Blue, Green, Red, DarkBlue, Brown and LightGreen, `'7'` for Black and
`'8'` for Gray, and also `'9'` for Unknown and `':'` for White; a refresh changes a tile
only from `'E'` to one of these values. -/
theorem sampler_values :
    (∀ (img : Mat) (y j start counter : Nat) (rc : Vec4b) (c : Char),
      tileValue img y j start counter rc = some c → c ∈ sampleChars) ∧
    (∀ (img : Mat) (y j start counter : Nat) (rc : Vec4b),
      0 < counter → colorIdentifier rc ≠ COLOR.LIGHT_GRAY →
      tileValue img y j start counter rc =
        some (Char.ofNat (48 + (colorIdentifier rc).val))) ∧
    (Char.ofNat (48 + COLOR.BLUE.val) = '1' ∧ Char.ofNat (48 + COLOR.GREEN.val) = '2' ∧
      Char.ofNat (48 + COLOR.RED.val) = '3' ∧ Char.ofNat (48 + COLOR.DARK_BLUE.val) = '4' ∧
      Char.ofNat (48 + COLOR.BROWN.val) = '5' ∧
      Char.ofNat (48 + COLOR.LIGHT_GREEN.val) = '6' ∧
      Char.ofNat (48 + COLOR.BLACK.val) = '7' ∧ Char.ofNat (48 + COLOR.GRAY.val) = '8' ∧
      Char.ofNat (48 + COLOR.UNKNOWN.val) = '9' ∧ Char.ofNat (48 + COLOR.WHITE.val) = ':') ∧
    ∀ (screen : Nat → Mat) (w : World) (rows cols : Nat), Rect w.board rows cols →
      0 < rows → 0 < cols →
      ∃ w1, updateBoard screen w = some w1 ∧ Sampled w.board w1.board := by
  refine ⟨?_, ?_, by decide, ?_⟩
  · intro img y j start counter rc c h
    exact tileValue_char h
  · intro img y j start counter rc hc hv
    unfold tileValue
    simp only
    rw [if_pos hc, if_pos]
    intro h0
    apply hv
    cases hcol : colorIdentifier rc <;> rw [hcol] at h0 <;> first | rfl | exact absurd h0 (by decide)
  · intro screen w rows cols hrect hrows hcols
    obtain ⟨w1, h1, -⟩ := updateBoard_spec screen w hrect hrows hcols
    exact ⟨w1, h1, updateBoard_sampled h1⟩

theorem sampler_values_witness :
    Rect [['E', '1'], ['M', 'E']] 2 2 ∧
      ∃ w1, updateBoard dullScreen ⟨[['E', '1'], ['M', 'E']], [], 0⟩ = some w1 ∧
        Sampled [['E', '1'], ['M', 'E']] w1.board :=
  have hrect : Rect [['E', '1'], ['M', 'E']] 2 2 := ⟨rfl, by simp⟩
  ⟨hrect, sampler_values.2.2.2 dullScreen ⟨[['E', '1'], ['M', 'E']], [], 0⟩ 2 2 hrect
    (by decide) (by decide)⟩

/-- C16, the claim as stated fails: with every pixel `RGB(10,20,30)` the accumulated
average is classified `BLACK`, the sampler makes no border probe and the refresh of the
board `[['E']]` writes `'7'`, which is neither `'E'` nor `'0'`. -/
theorem blank_probe_counterexample :
    colorIdentifier (ofRGB 10 20 30) = COLOR.BLACK ∧
      tileValue (darkScreen 0) 318 0 34 25 (ofRGB 10 20 30) = some '7' ∧
      (updateBoard darkScreen ⟨[['E']], [], 0⟩).map (fun w1 => w1.board) = some [['7']] := by
  refine ⟨by decide, by decide, by set_option maxRecDepth 100000 in decide⟩

/-- C16 as amended: whenever the category of a tile's accumulated average is LightGray,
the only category of value 0 (also forced when no foreground pixel was accumulated), the
tile sampler performs the border probe, so the tile is written `'E'` or `'0'` (or is left
as it is) and never any other value; for Gray, Black and Unknown no probe is made and the
tile is written `'8'`, `'7'` and `'9'`. -/
theorem blank_probe :
    (∀ (img : Mat) (y j start counter : Nat) (rc : Vec4b),
      counter = 0 ∨ colorIdentifier rc = COLOR.LIGHT_GRAY →
      tileValue img y j start counter rc =
          borderProbe img y (34 + 25 * (j + 1)) (34 + 25 * (j + 1) + 1 - start) start ∧
        ∀ c, tileValue img y j start counter rc = some c → c = 'E' ∨ c = '0') ∧
    ∀ (img : Mat) (y j start counter : Nat) (rc : Vec4b), 0 < counter →
      (colorIdentifier rc = COLOR.GRAY → tileValue img y j start counter rc = some '8') ∧
      (colorIdentifier rc = COLOR.BLACK → tileValue img y j start counter rc = some '7') ∧
      (colorIdentifier rc = COLOR.UNKNOWN → tileValue img y j start counter rc = some '9') := by
  constructor
  · intro img y j start counter rc h
    have heq : tileValue img y j start counter rc =
        borderProbe img y (34 + 25 * (j + 1)) (34 + 25 * (j + 1) + 1 - start) start := by
      unfold tileValue
      simp only
      rcases h with h | h
      · subst h
        rfl
      · rw [h]
        split <;> rfl
    refine ⟨heq, ?_⟩
    intro c hc
    rw [heq] at hc
    exact borderProbe_char img y _ _ _ c hc
  · intro img y j start counter rc hc
    refine ⟨?_, ?_, ?_⟩ <;>
    · intro h
      unfold tileValue
      simp only
      rw [if_pos hc, h]
      rfl

theorem blank_probe_witness :
    colorIdentifier (ofRGB 100 100 100) = COLOR.LIGHT_GRAY ∧
      tileValue (whiteScreen 0) 318 0 34 3 (ofRGB 100 100 100) =
          borderProbe (whiteScreen 0) 318 (34 + 25 * (0 + 1)) (34 + 25 * (0 + 1) + 1 - 34) 34 ∧
        ∀ c, tileValue (whiteScreen 0) 318 0 34 3 (ofRGB 100 100 100) = some c →
          c = 'E' ∨ c = '0' :=
  ⟨by decide, blank_probe.1 (whiteScreen 0) 318 0 34 3 (ofRGB 100 100 100) (Or.inr (by decide))⟩

/-! ## A deduction that returns `false` has done nothing -/

theorem map_true_ne_false {o : Option World} {w1 : World}
    (h : o.map (fun w2 => (true, w2)) = some (false, w1)) : False := by
  cases o with
  | none => cases h
  | some w2 =>
    simp only [Option.map_some', Option.some.injEq, Prod.mk.injEq] at h
    exact absurd h.1 (by decide)

theorem pivotRules_false {screen : Nat → Mat} {w w1 : World}
    {R RI RNI SP PNI : List Pos} {e pe : Int}
    (h : pivotRules screen w R RI RNI SP PNI e pe = some (false, w1)) : w1 = w := by
  revert h
  revert w1
  apply pivotRules_cases screen w R RI RNI SP PNI e pe
    (fun r => ∀ w1, r = some (false, w1) → w1 = w)
  · intro w1 h
    cases h
    rfl
  · intro _ _ w1 h
    exact (map_true_ne_false h).elim
  · intro _ _ w1 h
    exact (map_true_ne_false h).elim
  · intro _ _ w1 h
    exact (map_true_ne_false h).elim
  · intro _ _ w1 h
    exact (map_true_ne_false h).elim
  · intro _ w1 h
    exact (map_true_ne_false h).elim

theorem pivotBoard_false {screen : Nat → Mat} {w w1 : World} {x y px py : Int}
    {surroundings results : List Pos} {bc : Int}
    (h : pivotBoard screen w x y px py surroundings results bc = some (false, w1)) :
    w1 = w := by
  unfold pivotBoard at h
  split at h
  · cases h
  · split at h
    · cases h
    · simp only at h
      split at h
      · split at h
        · cases h
        · split at h
          · cases h
          · split at h
            · cases h
            · split at h
              · cases h
              · exact pivotRules_false h
      · cases h
        rfl

theorem pivotDirections_false {screen : Nat → Mat} {w w1 : World} {x y : Int}
    {rows cols : Nat} {surroundings results : List Pos} {bc : Int}
    (h : pivotDirections screen w x y rows cols surroundings results bc = some (false, w1)) :
    w1 = w := by
  unfold pivotDirections at h
  simp only at h
  have step : ∀ {c : Prop} [Decidable c] {wa wb : World} {px py : Int},
      (if c then pivotBoard screen wa x y px py surroundings results bc
        else some (false, wa)) = some (false, wb) → wb = wa := by
    intro c _ wa wb px py hc
    split at hc
    · exact pivotBoard_false hc
    · cases hc
      rfl
  split at h
  · cases h
  · cases h
  · next wl hl =>
    have e1 := step hl
    subst e1
    split at h
    · cases h
    · cases h
    · next wr hr =>
      have e2 := step hr
      subst e2
      split at h
      · cases h
      · cases h
      · next wu hu =>
        have e3 := step hu
        subst e3
        exact step h

theorem markBombs_false {screen : Nat → Mat} {w w1 : World} {x y : Int}
    {strategy : STRATEGY} (h : markBombs screen w x y strategy = some (false, w1)) :
    w1 = w := by
  unfold markBombs at h
  split at h
  · cases h
  · split at h
    · cases h
    · split at h
      · cases h
      · simp only at h
        split at h
        · split at h
          · exact (map_true_ne_false h).elim
          · split at h
            · exact (map_true_ne_false h).elim
            · cases h
              rfl
        · split at h
          · cases h
          · exact pivotDirections_false h

/-- C11: for every board, position and strategy, if `markBombs` returns `false` then the
world after the call is the world before it: no Reveal or Flag click was issued (and no
screenshot taken) and the board is exactly the board it was called with; the same holds
for every call of `pivotBoard` that returns `false`. -/
theorem false_result_frame :
    (∀ (screen : Nat → Mat) (w w1 : World) (x y : Int) (strategy : STRATEGY),
      markBombs screen w x y strategy = some (false, w1) →
      w1.board = w.board ∧ w1.clicks = w.clicks ∧ w1.frames = w.frames) ∧
    ∀ (screen : Nat → Mat) (w w1 : World) (x y pivot_x pivot_y : Int)
      (surroundings results : List Pos) (bomb_counter : Int),
      pivotBoard screen w x y pivot_x pivot_y surroundings results bomb_counter =
        some (false, w1) →
      w1.board = w.board ∧ w1.clicks = w.clicks ∧ w1.frames = w.frames := by
  constructor
  · intro screen w w1 x y strategy h
    have := markBombs_false h
    subst this
    exact ⟨rfl, rfl, rfl⟩
  · intro screen w w1 x y px py surroundings results bc h
    have := pivotBoard_false h
    subst this
    exact ⟨rfl, rfl, rfl⟩

theorem false_result_frame_witness :
    markBombs blackScreen ⟨[['1', 'E'], ['E', 'E']], [], 0⟩ 0 0 STRATEGY.PIVOT =
        some (false, ⟨[['1', 'E'], ['E', 'E']], [], 0⟩) ∧
      (⟨[['1', 'E'], ['E', 'E']], [], 0⟩ : World).board = [['1', 'E'], ['E', 'E']] ∧
      (⟨[['1', 'E'], ['E', 'E']], [], 0⟩ : World).clicks = [] ∧
      (⟨[['1', 'E'], ['E', 'E']], [], 0⟩ : World).frames = 0 :=
  have h : markBombs blackScreen ⟨[['1', 'E'], ['E', 'E']], [], 0⟩ 0 0 STRATEGY.PIVOT =
      some (false, ⟨[['1', 'E'], ['E', 'E']], [], 0⟩) := by rfl
  ⟨h, false_result_frame.1 blackScreen ⟨[['1', 'E'], ['E', 'E']], [], 0⟩
    ⟨[['1', 'E'], ['E', 'E']], [], 0⟩ 0 0 STRATEGY.PIVOT h⟩

/-! ## Every call keeps the tiles that were decided when it started -/

theorem unrevealed_of_filter {board : Board} {S : List Pos}
    (hS : ∀ t ∈ S, TileIn board ['E', 'M'] t) {f : Pos → Bool} :
    ∀ t ∈ S.filter (fun i => f i && !holds board 'M' i),
      boardAt board t.1 t.2 = some 'E' := by
  intro t ht
  obtain ⟨h1, h2⟩ := List.mem_filter.mp ht
  simp only [Bool.and_eq_true, Bool.not_eq_true'] at h2
  obtain ⟨c, hc, hmem⟩ := hS t h1
  simp only [List.mem_cons, List.not_mem_nil, or_false] at hmem
  rcases hmem with rfl | rfl
  · exact hc
  · rw [holds_iff.mpr hc] at h2
    cases h2.2

theorem pivotRules_keeps (screen : Nat → Mat) (w : World) {rows cols : Nat}
    (hrect : Rect w.board rows cols) (hrows : 0 < rows) (hcols : 0 < cols)
    (R RI RNI SP PNI : List Pos) (e pe : Int)
    (hRNI : ∀ t ∈ RNI, boardAt w.board t.1 t.2 = some 'E')
    (hPNI : ∀ t ∈ PNI, boardAt w.board t.1 t.2 = some 'E') :
    ∀ b w1, pivotRules screen w R RI RNI SP PNI e pe = some (b, w1) →
      Keeps w.board w1.board := by
  have hflag : ∀ L : List Pos, (∀ t ∈ L, boardAt w.board t.1 t.2 = some 'E') →
      ∀ b w1, (markAll screen L w).map (fun w1 => (true, w1)) = some (b, w1) →
        Keeps w.board w1.board := by
    intro L hL b w1 h
    obtain ⟨w2, hw2, -, -, hk, -⟩ := markAll_spec screen hrows hcols hrect L w (keeps_refl _) hL
    rw [hw2] at h
    cases h
    exact hk
  have hrev : ∀ L : List Pos,
      ∀ b w1, (revealAll screen L w).map (fun w1 => (true, w1)) = some (b, w1) →
        Keeps w.board w1.board := by
    intro L b w1 h
    obtain ⟨w2, hw2, -, -, hrf⟩ := revealAll_spec screen hrows hcols L w hrect
    rw [hw2] at h
    cases h
    exact hrf.1
  apply pivotRules_cases screen w R RI RNI SP PNI e pe
    (fun r => ∀ b w1, r = some (b, w1) → Keeps w.board w1.board)
  · intro b w1 h
    cases h
    exact keeps_refl _
  · exact fun _ _ => hflag PNI hPNI
  · exact fun _ _ => hrev RNI
  · exact fun _ _ => hrev PNI
  · exact fun _ _ => hrev PNI
  · exact fun _ => hflag RNI hRNI

theorem pivotBoard_keeps (screen : Nat → Mat) (w : World) {rows cols : Nat}
    (hrect : Rect w.board rows cols) (hrows : 0 < rows) (hcols : 0 < cols)
    (x y px py : Int) (surroundings results : List Pos) (bc : Int)
    (hres : ∀ t ∈ results, boardAt w.board t.1 t.2 = some 'E') :
    ∀ b w1, pivotBoard screen w x y px py surroundings results bc = some (b, w1) →
      Keeps w.board w1.board := by
  intro b w1 h
  unfold pivotBoard at h
  split at h
  · cases h
  · split at h
    · cases h
    · simp only at h
      split at h
      · split at h
        · cases h
        · next SP hSP =>
          obtain ⟨S2, hS2, -, hmem⟩ := surroundingTiles_spec hrect hrows hcols px py ['E', 'M']
          rw [hSP] at hS2
          cases hS2
          have hSPtile : ∀ t ∈ SP, TileIn w.board ['E', 'M'] t := fun t ht => ((hmem t).mp ht).2
          have hSPall : ∀ t ∈ SP, ∃ c, boardAt w.board t.1 t.2 = some c := by
            intro t ht
            obtain ⟨c, hc, -⟩ := hSPtile t ht
            exact ⟨c, hc⟩
          have hRall : ∀ t ∈ results, ∃ c, boardAt w.board t.1 t.2 = some c :=
            fun t ht => ⟨'E', hres t ht⟩
          split at h
          · cases h
          · next P cnt hsep =>
            split at h
            · cases h
            · next RI NI hint =>
              rw [intersectLoop_eq _ _ _ _ _ hRall] at hint
              simp only [List.nil_append, Option.some.injEq, Prod.mk.injEq] at hint
              obtain ⟨hRI, hNI⟩ := hint
              split at h
              · cases h
              · next RNI PNI hpl =>
                rw [pivotLoop_eq _ _ _ _ _ hSPall] at hpl
                simp only [List.nil_append, Option.some.injEq, Prod.mk.injEq] at hpl
                obtain ⟨hRNI, hPNI⟩ := hpl
                have hPE : ∀ t ∈ PNI, boardAt w.board t.1 t.2 = some 'E' := by
                  rw [← hPNI]
                  exact unrevealed_of_filter hSPtile
                have hNE : ∀ t ∈ NI, boardAt w.board t.1 t.2 = some 'E' := by
                  intro t ht
                  rw [← hNI] at ht
                  exact hres t (List.mem_filter.mp ht).1
                have hRE : ∀ t ∈ RNI, boardAt w.board t.1 t.2 = some 'E' := by
                  intro t ht
                  rw [← hRNI] at ht
                  rcases List.mem_append.mp ht with ht | ht
                  · exact hNE t ht
                  · exact unrevealed_of_filter hSPtile t ht
                exact pivotRules_keeps screen w hrect hrows hcols _ _ _ _ _ _ _ hRE hPE b w1 h
      · cases h
        exact keeps_refl _

theorem pivotDirections_keeps (screen : Nat → Mat) (w : World) {rows cols : Nat}
    (hrect : Rect w.board rows cols) (hrows : 0 < rows) (hcols : 0 < cols)
    (x y : Int) (r c : Nat) (surroundings results : List Pos) (bc : Int)
    (hres : ∀ t ∈ results, boardAt w.board t.1 t.2 = some 'E') :
    ∀ b w1, pivotDirections screen w x y r c surroundings results bc = some (b, w1) →
      Keeps w.board w1.board := by
  intro b w1 h
  unfold pivotDirections at h
  simp only at h
  have stepF : ∀ {c : Prop} [Decidable c] {wa wb : World} {px py : Int},
      (if c then pivotBoard screen wa x y px py surroundings results bc
        else some (false, wa)) = some (false, wb) → wb = wa := by
    intro c _ wa wb px py hc
    split at hc
    · exact pivotBoard_false hc
    · cases hc
      rfl
  have stepK : ∀ {c : Prop} [Decidable c] {b : Bool} {wb : World} {px py : Int},
      (if c then pivotBoard screen w x y px py surroundings results bc
        else some (false, w)) = some (b, wb) → Keeps w.board wb.board := by
    intro c _ b wb px py hc
    split at hc
    · exact pivotBoard_keeps screen w hrect hrows hcols x y px py surroundings results bc
        hres b wb hc
    · cases hc
      exact keeps_refl _
  split at h
  · cases h
  · next wl hl =>
    cases h
    exact stepK hl
  · next wl hl =>
    have e1 := stepF hl
    subst e1
    split at h
    · cases h
    · next wr hr =>
      cases h
      exact stepK hr
    · next wr hr =>
      have e2 := stepF hr
      subst e2
      split at h
      · cases h
      · next wu hu =>
        cases h
        exact stepK hu
      · next wu hu =>
        have e3 := stepF hu
        subst e3
        exact stepK h

/-- The candidates that `markBombs` computes are unrevealed tiles. -/
theorem results_unrevealed {board : Board} {rows cols : Nat} (hrect : Rect board rows cols)
    (hrows : 0 < rows) (hcols : 0 < cols) {x y : Int} {S results : List Pos} {bc : Int}
    (hS : surroundingTiles board x y ['E', 'M'] = some S)
    (hsep : separateSurroundings board x y S = some (results, bc)) :
    ∀ t ∈ results, boardAt board t.1 t.2 = some 'E' := by
  obtain ⟨S2, hS2, -, hmem⟩ := surroundingTiles_spec hrect hrows hcols x y ['E', 'M']
  rw [hS] at hS2
  cases hS2
  have htile : ∀ t ∈ S, TileIn board ['E', 'M'] t := fun t ht => ((hmem t).mp ht).2
  have hall : ∀ t ∈ S, ∃ c, boardAt board t.1 t.2 = some c := by
    intro t ht
    obtain ⟨c, hc, -⟩ := htile t ht
    exact ⟨c, hc⟩
  rw [separateSurroundings_eq hS hall] at hsep
  simp only [Option.some.injEq, Prod.mk.injEq] at hsep
  intro t ht
  rw [← hsep.1] at ht
  have := @unrevealed_of_filter board S htile (fun _ => true) t (by simpa using ht)
  exact this

theorem markBombs_keeps (screen : Nat → Mat) (w : World) {rows cols : Nat}
    (hrect : Rect w.board rows cols) (hrows : 0 < rows) (hcols : 0 < cols)
    (x y : Int) (strategy : STRATEGY) :
    ∀ b w1, markBombs screen w x y strategy = some (b, w1) → Keeps w.board w1.board := by
  intro b w1 h
  unfold markBombs at h
  split at h
  · cases h
  · split at h
    · cases h
    · next S hS =>
      split at h
      · cases h
      · next results bc hsep =>
        have hres := results_unrevealed hrect hrows hcols hS hsep
        simp only at h
        split at h
        · split at h
          · obtain ⟨w2, hw2, -, -, hrf⟩ := warpAndClick_spec screen w (46 + 25 * y)
              (318 + 25 * x) ACTION.REVEAL_TILE hrect hrows hcols
            rw [hw2] at h
            cases h
            exact hrf.1
          · split at h
            · obtain ⟨w2, hw2, -, -, hk, -⟩ :=
                markAll_spec screen hrows hcols hrect results w (keeps_refl _) hres
              rw [hw2] at h
              cases h
              exact hk
            · cases h
              exact keeps_refl _
        · split at h
          · cases h
          · exact pivotDirections_keeps screen w hrect hrows hcols x y _ _ S results bc
              hres b w1 h

theorem pivotCall_keeps (screen : Nat → Mat) (w : World) {rows cols : Nat}
    (hrect : Rect w.board rows cols) (hrows : 0 < rows) (hcols : 0 < cols) (p q : Pos) :
    ∀ b w1, pivotCall screen w p q = some (b, w1) → Keeps w.board w1.board := by
  intro b w1 h
  unfold pivotCall at h
  split at h
  · cases h
  · next S hS =>
    split at h
    · cases h
    · next results bc hsep =>
      exact pivotBoard_keeps screen w hrect hrows hcols p.1 p.2 q.1 q.2 S results bc
        (results_unrevealed hrect hrows hcols hS hsep) b w1 h

theorem runOp_keeps (screen : Nat → Mat) (w : World) {rows cols : Nat}
    (hrect : Rect w.board rows cols) (hrows : 0 < rows) (hcols : 0 < cols) (op : Op)
    {w1 : World} (h : runOp screen w op = some w1) : Keeps w.board w1.board := by
  cases op with
  | refresh =>
    obtain ⟨w2, hw2, -, -, hrf⟩ := updateBoard_spec screen w hrect hrows hcols
    simp only [runOp] at h
    rw [hw2] at h
    cases h
    exact hrf.1
  | deduce x y strategy =>
    simp only [runOp] at h
    cases hm : markBombs screen w x y strategy with
    | none =>
      rw [hm] at h
      cases h
    | some r =>
      obtain ⟨b, w2⟩ := r
      rw [hm] at h
      cases h
      exact markBombs_keeps screen w hrect hrows hcols x y strategy b _ hm
  | pivot p q =>
    simp only [runOp] at h
    cases hm : pivotCall screen w p q with
    | none =>
      rw [hm] at h
      cases h
    | some r =>
      obtain ⟨b, w2⟩ := r
      rw [hm] at h
      cases h
      exact pivotCall_keeps screen w hrect hrows hcols p q b _ hm

theorem runOps_keeps (screen : Nat → Mat) {rows cols : Nat} (hrows : 0 < rows)
    (hcols : 0 < cols) :
    ∀ (ops : List Op) (w w1 : World), Rect w.board rows cols →
      runOps screen ops w = some w1 → Keeps w.board w1.board := by
  intro ops
  induction ops with
  | nil =>
    intro w w1 _ h
    cases h
    exact keeps_refl _
  | cons op rest ih =>
    intro w w1 hrect h
    simp only [runOps] at h
    split at h
    · cases h
    · next w2 hw2 =>
      have hk := runOp_keeps screen w hrect hrows hcols op hw2
      exact keeps_trans hk (ih w2 w1 (sameShape_rect hk.1 hrect) h)

/-! ## Claims about tiles that stay as they are -/

/-- C13: a flag is set only by the solver and is terminal. The refresh `updateBoard`
never writes `'M'`: every `'M'` of the board it returns was `'M'` before. And on a
non-empty rectangular board, a tile that holds `'M'` still holds `'M'` after every later
sequence of refreshes, `markBombs` calls of either strategy and `pivotBoard` calls. -/
theorem flag_terminal :
    (∀ (screen : Nat → Mat) (w w1 : World), updateBoard screen w = some w1 →
      ∀ x y, boardAt w1.board x y = some 'M' → boardAt w.board x y = some 'M') ∧
    ∀ (screen : Nat → Mat) (rows cols : Nat) (ops : List Op) (w w1 : World),
      0 < rows → 0 < cols → Rect w.board rows cols → runOps screen ops w = some w1 →
      ∀ x y, boardAt w.board x y = some 'M' → boardAt w1.board x y = some 'M' := by
  constructor
  · intro screen w w1 h x y hM
    rcases updateBoard_sampled h x y 'M' hM with h1 | ⟨-, h2⟩
    · exact h1
    · exact absurd h2 (by decide)
  · intro screen rows cols ops w w1 hrows hcols hrect h x y hM
    exact (runOps_keeps screen hrows hcols ops w w1 hrect h).2 x y 'M' hM (by decide)

set_option maxRecDepth 100000 in
theorem flag_terminal_witness :
    runOps blueScreen [Op.deduce 0 1 STRATEGY.SIMPLE, Op.refresh,
        Op.deduce 0 1 STRATEGY.PIVOT] ⟨[['M', '2', 'E']], [], 0⟩ =
        some ⟨[['M', '2', 'M']], [flagClick (0, 2)], 2⟩ ∧
      boardAt [['M', '2', 'E']] 0 0 = some 'M' ∧
      boardAt [['M', '2', 'M']] 0 0 = some 'M' :=
  have hrun : runOps blueScreen [Op.deduce 0 1 STRATEGY.SIMPLE, Op.refresh,
      Op.deduce 0 1 STRATEGY.PIVOT] ⟨[['M', '2', 'E']], [], 0⟩ =
      some ⟨[['M', '2', 'M']], [flagClick (0, 2)], 2⟩ := by rfl
  ⟨hrun, by decide,
    flag_terminal.2 blueScreen 1 3 _ ⟨[['M', '2', 'E']], [], 0⟩ _ (by decide) (by decide)
      ⟨rfl, by simp⟩ hrun 0 0 (by decide)⟩

set_option maxRecDepth 100000 in
/-- C14, as stated, fails inside one deduction. On the board `E 2 E` under a screen that
samples as the digit 1, the SIMPLE deduction on the `2` flags both neighbours: the refresh
after the first flag turns the second neighbour into `Number(1)`, and the same flagging loop
then overwrites that tile with `'M'`. -/
theorem number_tiles_kept_counterexample :
    markAll blueScreen [(0, 0)] ⟨[['E', '2', 'E']], [], 0⟩ =
        some ⟨[['M', '2', '1']], [flagClick (0, 0)], 1⟩ ∧
      IsNumber [['M', '2', '1']] (0, 2) 1 ∧
      markAll blueScreen [(0, 2)] ⟨[['M', '2', '1']], [flagClick (0, 0)], 1⟩ =
        some ⟨[['M', '2', 'M']], [flagClick (0, 0), flagClick (0, 2)], 2⟩ ∧
      markBombs blueScreen ⟨[['E', '2', 'E']], [], 0⟩ 0 1 STRATEGY.SIMPLE =
        some (true, ⟨[['M', '2', 'M']], [flagClick (0, 0), flagClick (0, 2)], 2⟩) ∧
      boardAt [['M', '2', 'M']] 0 2 = some 'M' ∧
      ¬ IsNumber [['M', '2', 'M']] (0, 2) 1 :=
  ⟨by rfl, ⟨by decide, by decide⟩, by rfl, by rfl, by decide, fun h => absurd h.2 (by decide)⟩

/-- C14, amended to the boundaries of calls: on a non-empty rectangular board, a tile that
holds `Number(n)` when a refresh or a deduction starts holds `Number(n)` when that call
and every later sequence of refreshes, `markBombs` calls and `pivotBoard` calls has
returned; and a tile that holds `Number(n)` after such a sequence either held `Number(n)`
before it or was unrevealed before it. -/
theorem number_tiles_kept (screen : Nat → Mat) (rows cols : Nat) (ops : List Op)
    (w w1 : World) (hrows : 0 < rows) (hcols : 0 < cols) (hrect : Rect w.board rows cols)
    (hrun : runOps screen ops w = some w1) (p : Pos) (n : Nat) :
    (IsNumber w.board p n → IsNumber w1.board p n) ∧
    (IsNumber w1.board p n →
      IsNumber w.board p n ∨ boardAt w.board p.1 p.2 = some 'E') := by
  have hk := runOps_keeps screen hrows hcols ops w w1 hrect hrun
  constructor
  · intro hn
    exact ⟨hn.1, hk.2 p.1 p.2 _ hn.2 (number_char hn.1).2.1⟩
  · intro hn
    have hin := rect_inBounds_of_boardAt (sameShape_rect hk.1 hrect) hn.2
    obtain ⟨c0, hc0⟩ := rect_boardAt_of_inBounds hrect hin
    by_cases hE : c0 = 'E'
    · right
      rw [hc0, hE]
    · left
      have h1 := hk.2 p.1 p.2 c0 hc0 hE
      rw [hn.2] at h1
      cases h1
      exact ⟨hn.1, hc0⟩

set_option maxRecDepth 100000 in
theorem number_tiles_kept_witness :
    runOps blueScreen [Op.deduce 0 1 STRATEGY.SIMPLE, Op.refresh,
        Op.pivot (0, 1) (0, 2)] ⟨[['E', '2', 'E', '1']], [], 0⟩ =
        some ⟨[['M', '2', 'M', '1']], [flagClick (0, 0), flagClick (0, 2)], 3⟩ ∧
      (IsNumber [['E', '2', 'E', '1']] (0, 1) 2 → IsNumber [['M', '2', 'M', '1']] (0, 1) 2) ∧
      (IsNumber [['M', '2', 'M', '1']] (0, 1) 2 →
        IsNumber [['E', '2', 'E', '1']] (0, 1) 2 ∨
          boardAt [['E', '2', 'E', '1']] 0 1 = some 'E') :=
  have hrun : runOps blueScreen [Op.deduce 0 1 STRATEGY.SIMPLE, Op.refresh,
      Op.pivot (0, 1) (0, 2)] ⟨[['E', '2', 'E', '1']], [], 0⟩ =
      some ⟨[['M', '2', 'M', '1']], [flagClick (0, 0), flagClick (0, 2)], 3⟩ := by rfl
  ⟨hrun, number_tiles_kept blueScreen 1 4 _ ⟨[['E', '2', 'E', '1']], [], 0⟩ _ (by decide)
    (by decide) ⟨rfl, by simp⟩ hrun (0, 1) 2⟩

/-! ## Claims about the solver loop -/

theorem solverTile_idle (screen : Nat → Mat) (s : Solver) {rows cols : Nat}
    (hrect : Rect s.world.board rows cols)
    (hall : ∀ x y c, boardAt s.world.board x y = some c → c = 'E' ∨ c = '0' ∨ c = 'M')
    {i j : Nat} (hi : i < rows) (hj : j < cols) : solverTile screen s i j = some s := by
  have hin : InBounds rows cols ((i : Int), (j : Int)) := by
    unfold InBounds
    simp only
    omega
  obtain ⟨c, hc⟩ := rect_boardAt_of_inBounds hrect hin
  unfold solverTile
  rw [hc]
  simp only
  have hn : ¬ (c ≠ 'E' ∧ c ≠ '0' ∧ c ≠ 'M') := by
    rcases hall _ _ _ hc with h | h | h <;> simp [h]
  rw [if_neg hn]

theorem solverRow_idle (screen : Nat → Mat) (s : Solver) {rows cols : Nat}
    (hrect : Rect s.world.board rows cols)
    (hall : ∀ x y c, boardAt s.world.board x y = some c → c = 'E' ∨ c = '0' ∨ c = 'M')
    {i : Nat} (hi : i < rows) :
    ∀ js : List Nat, (∀ j ∈ js, j < cols) → solverRow screen i js s = some s := by
  intro js
  induction js with
  | nil => intro _; rfl
  | cons j rest ih =>
    intro hjs
    simp only [solverRow]
    rw [solverTile_idle screen s hrect hall hi (hjs j (List.mem_cons_self _ _))]
    exact ih (fun j1 h1 => hjs j1 (List.mem_cons_of_mem _ h1))

theorem solverRows_idle (screen : Nat → Mat) (s : Solver) {rows cols : Nat}
    (hrect : Rect s.world.board rows cols)
    (hall : ∀ x y c, boardAt s.world.board x y = some c → c = 'E' ∨ c = '0' ∨ c = 'M') :
    ∀ is : List Nat, (∀ i ∈ is, i < rows) → solverRows screen cols is s = some s := by
  intro is
  induction is with
  | nil => intro _; rfl
  | cons i rest ih =>
    intro his
    simp only [solverRows]
    rw [solverRow_idle screen s hrect hall (his i (List.mem_cons_self _ _)) (List.range cols)
      (fun j hj => List.mem_range.mp hj)]
    exact ih (fun i1 h1 => his i1 (List.mem_cons_of_mem _ h1))

theorem solverPass_idle (screen : Nat → Mat) (s : Solver) {rows cols : Nat}
    (hrect : Rect s.world.board rows cols)
    (hall : ∀ x y c, boardAt s.world.board x y = some c → c = 'E' ∨ c = '0' ∨ c = 'M') :
    solverPass screen rows cols s =
      some { s with board_stalled := true, board_changes := 0, passes := s.passes ++ [0] } := by
  unfold solverPass
  rw [solverRows_idle screen { s with board_changes := 0 } hrect hall (List.range rows)
    (fun i hi => List.mem_range.mp hi)]
  rfl

theorem solverLoop_idle (screen : Nat → Mat) {rows cols : Nat} :
    ∀ (k : Nat) (s : Solver), Rect s.world.board rows cols →
      (∀ x y c, boardAt s.world.board x y = some c → c = 'E' ∨ c = '0' ∨ c = 'M') →
      solverLoop screen rows cols (k + 1) s =
        some { s with board_stalled := true, board_changes := 0,
                      passes := s.passes ++ List.replicate (k + 1) 0 } := by
  intro k
  induction k with
  | zero =>
    intro s hrect hall
    simp only [solverLoop]
    rw [solverPass_idle screen s hrect hall]
    rfl
  | succ k ih =>
    intro s hrect hall
    rw [solverLoop, solverPass_idle screen s hrect hall]
    simp only
    rw [ih ⟨s.world, s.visited, s.pivots_visited, true, 0, s.calls, s.passes ++ [0]⟩ hrect hall]
    simp only [List.append_assoc, List.singleton_append, ← List.replicate_succ]

/-- C19: on every rectangular board that holds no tile other than `'E'`, `'0'` or `'M'`,
the solver loop of `main` returns after its full budget of exactly 50 passes, each with
`board_changes` equal to zero; it has called `markBombs` for no tile and no strategy, has
issued no click and taken no screenshot, and the board and the vector `visited` are
unchanged. -/
theorem solver_idle (screen : Nat → Mat) (rows cols : Nat) (w : World)
    (hrect : Rect w.board rows cols)
    (hall : ∀ x y c, boardAt w.board x y = some c → c = 'E' ∨ c = '0' ∨ c = 'M') :
    ∃ s, solver screen rows cols w = some s ∧
      s.passes = List.replicate 50 0 ∧ s.passes.length = 50 ∧ s.calls = [] ∧
      s.world = w ∧ s.visited = [] ∧ s.pivots_visited = [] := by
  refine ⟨_, solverLoop_idle screen 49 ⟨w, [], [], false, 0, [], []⟩ hrect hall, ?_⟩
  simp

set_option maxRecDepth 100000 in
theorem solver_idle_witness :
    Rect [['E', '0'], ['M', 'E']] 2 2 ∧
      ∃ s, solver blueScreen 2 2 ⟨[['E', '0'], ['M', 'E']], [], 0⟩ = some s ∧
        s.passes = List.replicate 50 0 ∧ s.passes.length = 50 ∧ s.calls = [] ∧
        s.world = ⟨[['E', '0'], ['M', 'E']], [], 0⟩ ∧ s.visited = [] ∧
        s.pivots_visited = [] :=
  have hrect : Rect [['E', '0'], ['M', 'E']] 2 2 := ⟨rfl, by simp⟩
  ⟨hrect, solver_idle blueScreen 2 2 ⟨[['E', '0'], ['M', 'E']], [], 0⟩ hrect (by
    intro x y c h
    have hin := rect_inBounds_of_boardAt hrect h
    obtain ⟨h1, h2, h3, h4⟩ := hin
    simp only at h1 h2 h3 h4
    have hx : x = 0 ∨ x = 1 := by omega
    have hy : y = 0 ∨ y = 1 := by omega
    rcases hx with rfl | rfl <;> rcases hy with rfl | rfl
    · have e : boardAt [['E', '0'], ['M', 'E']] 0 0 = some 'E' := by decide
      rw [e] at h
      cases h
      simp
    · have e : boardAt [['E', '0'], ['M', 'E']] 0 1 = some '0' := by decide
      rw [e] at h
      cases h
      simp
    · have e : boardAt [['E', '0'], ['M', 'E']] 1 0 = some 'M' := by decide
      rw [e] at h
      cases h
      simp
    · have e : boardAt [['E', '0'], ['M', 'E']] 1 1 = some 'E' := by decide
      rw [e] at h
      cases h
      simp)⟩

/-! ## Re-invoking a pivot deduction -/

/-- With nothing left outside the intersection, no rule of `pivotBoard` acts. -/
theorem pivotRules_nil (screen : Nat → Mat) (w : World) (R RI SP : List Pos) (e pe : Int) :
    pivotRules screen w R RI [] SP [] e pe = some (false, w) := by
  unfold pivotRules
  simp only [List.length_nil, Nat.cast_zero, and_true, if_true]
  split_ifs <;> first | rfl | (exfalso; omega)

/-- With equal expectations, nothing exclusive to the pivot and a pivot neighbourhood
that is not the intersection, no rule of `pivotBoard` acts. -/
theorem pivotRules_balanced (screen : Nat → Mat) (w : World) (R RI RNI SP : List Pos)
    (e : Int) (hSP : SP ≠ sortPos RI) :
    pivotRules screen w R RI RNI SP [] e e = some (false, w) := by
  unfold pivotRules
  simp only [List.length_nil, Nat.cast_zero, and_true, if_true]
  split_ifs with h1 h2 h3 h4 h5 h6 h7 h8 <;>
    first
    | rfl
    | (exfalso; omega)
    | exact absurd h3.2 hSP

/-- Clicks determine their tiles: two lists of tiles with the same clicks are equal. -/
theorem map_click_inj (f g : Pos → Click)
    (hf : ∀ a, (f a).x = 46 + 25 * a.2 ∧ (f a).y = 318 + 25 * a.1)
    (hg : ∀ a, (g a).x = 46 + 25 * a.2 ∧ (g a).y = 318 + 25 * a.1) :
    ∀ L D : List Pos, L.map f = D.map g → L = D := by
  intro L
  induction L with
  | nil =>
    intro D h
    cases D with
    | nil => rfl
    | cons b D => simp at h
  | cons a L ih =>
    intro D h
    cases D with
    | nil => simp at h
    | cons b D =>
      simp only [List.map_cons, List.cons.injEq] at h
      obtain ⟨h1, h2⟩ := h
      have hx : (f a).x = (g b).x := by rw [h1]
      have hy : (f a).y = (g b).y := by rw [h1]
      rw [(hf a).1, (hg b).1] at hx
      rw [(hf a).2, (hg b).2] at hy
      have hab : a = b := Prod.ext (by omega) (by omega)
      rw [hab, ih D h2]

/-- Counting after new tiles have been flagged. -/
theorem countP_add_new {l D : List Pos} {f g : Pos → Bool} (hl : l.Nodup) (hD : D.Nodup)
    (hsub : ∀ t ∈ D, t ∈ l) (hdisj : ∀ t ∈ D, f t = false)
    (hg : ∀ t ∈ l, (g t = true ↔ f t = true ∨ t ∈ D)) :
    l.countP g = l.countP f + D.length := by
  rw [List.countP_eq_length_filter, List.countP_eq_length_filter, ← List.length_append]
  apply List.Perm.length_eq
  rw [List.perm_ext_iff_of_nodup (hl.filter _)]
  · intro t
    simp only [List.mem_filter, List.mem_append]
    constructor
    · rintro ⟨h1, h2⟩
      rcases (hg t h1).mp h2 with h3 | h3
      · exact Or.inl ⟨h1, h3⟩
      · exact Or.inr h3
    · rintro (⟨h1, h2⟩ | h3)
      · exact ⟨h1, (hg t h1).mpr (Or.inl h2)⟩
      · exact ⟨hsub t h3, (hg t (hsub t h3)).mpr (Or.inr h3)⟩
  · rw [List.nodup_append]
    refine ⟨hl.filter _, hD, ?_⟩
    intro t h1 h2
    have := (List.mem_filter.mp h1).2
    rw [hdisj t h2] at this
    cases this

/-- C20: PIVOT idempotence. On a non-empty rectangular board, let the call of `pivotBoard`
for the `Number(n)` tile `p` and the pivot `q` return `true` after applying its deduction
to the tiles `D` (its clicks are the flag clicks of `D`, or the reveal clicks of `D`). If
afterwards every tile of `D` is no longer unrevealed (`'M'` for a flag deduction, a
`Number` for a reveal deduction) and every other tile is unchanged, then the same call on
the new board, with the neighbour lists recomputed from it and under any screen, returns
`false` and changes nothing. -/
theorem pivot_idempotent (screen screen2 : Nat → Mat) (w w1 : World) (rows cols : Nat)
    (p q : Pos) (n : Nat) (D : List Pos) (hrect : Rect w.board rows cols) (hrows : 0 < rows)
    (hcols : 0 < cols) (hp : InBounds rows cols p) (hq : InBounds rows cols q)
    (hT : IsNumber w.board p n) (hcall : pivotCall screen w p q = some (true, w1))
    (hD : (w1.clicks = w.clicks ++ D.map flagClick ∧
            ∀ t ∈ D, boardAt w1.board t.1 t.2 = some 'M') ∨
          (w1.clicks = w.clicks ++ D.map revealClick ∧
            ∀ t ∈ D, ∃ k, IsNumber w1.board t k))
    (hother : ∀ t : Pos, t ∉ D → boardAt w1.board t.1 t.2 = boardAt w.board t.1 t.2) :
    pivotCall screen2 w1 p q = some (false, w1) := by
  obtain ⟨pc, hpc⟩ := rect_boardAt_of_inBounds hrect hq
  by_cases hvalid : pc ≠ 'E' ∧ pc ≠ '0' ∧ pc ≠ 'M'
  swap
  · rw [pivotCall_guard screen w hrect hrows hcols hp hT hpc hvalid] at hcall
    cases hcall
  obtain ⟨R, SP, RI, TO, PNI, heq, -, hR, -, -, -, -, hRI, -, hTO, hPNInd, hPNI⟩ :=
    pivotCall_eq screen w hrect hrows hcols hp hq hT hpc hvalid
  have hk := pivotCall_keeps screen w hrect hrows hcols p q true w1 hcall
  have hrect1 := sameShape_rect hk.1 hrect
  have hT1 : IsNumber w1.board p n := ⟨hT.1, hk.2 _ _ _ hT.2 (number_char hT.1).2.1⟩
  have hpc1 : boardAt w1.board q.1 q.2 = some pc := hk.2 _ _ _ hpc hvalid.1
  obtain ⟨R1, SP1, RI1, TO1, PNI1, heq1, -, hR1, -, -, hSP1, -, hRI1, -, hTO1, -, hPNI1⟩ :=
    pivotCall_eq screen2 w1 hrect1 hrows hcols hp hq hT1 hpc1 hvalid
  rw [heq1]
  rw [heq] at hcall
  -- the tiles of `D` are no longer unrevealed
  have hDne : ∀ t ∈ D, boardAt w1.board t.1 t.2 ≠ some 'E' := by
    intro t ht h
    rcases hD with ⟨-, hM⟩ | ⟨-, hN⟩
    · rw [hM t ht] at h
      cases h
    · obtain ⟨k, hk1, hk2⟩ := hN t ht
      rw [hk2] at h
      exact (number_char hk1).2.1 (Option.some.inj h)
  -- the clicks of the call name the tiles of `D`
  have hDeq : ∀ L : List Pos, (w1.clicks = w.clicks ++ L.map flagClick ∨
      w1.clicks = w.clicks ++ L.map revealClick) → L = D := by
    intro L hL
    have hfl : ∀ a, (flagClick a).x = 46 + 25 * a.2 ∧ (flagClick a).y = 318 + 25 * a.1 :=
      fun _ => ⟨rfl, rfl⟩
    have hrv : ∀ a, (revealClick a).x = 46 + 25 * a.2 ∧ (revealClick a).y = 318 + 25 * a.1 :=
      fun _ => ⟨rfl, rfl⟩
    rcases hL with hL | hL <;> rcases hD with ⟨hc, -⟩ | ⟨hc, -⟩ <;> rw [hc] at hL
    · exact map_click_inj _ _ hfl hfl L D (List.append_cancel_left hL).symm
    · exact map_click_inj _ _ hfl hrv L D (List.append_cancel_left hL).symm
    · exact map_click_inj _ _ hrv hfl L D (List.append_cancel_left hL).symm
    · exact map_click_inj _ _ hrv hrv L D (List.append_cancel_left hL).symm
  -- an exclusive tile of the new board was exclusive before and is outside `D`
  have hexcl : ∀ a b t, t ∈ exclusive w1.board rows cols a b →
      t ∈ exclusive w.board rows cols a b ∧ t ∉ D := by
    intro a b t ht
    obtain ⟨h1, h2, h3⟩ := mem_exclusive.mp ht
    have hnD : t ∉ D := fun hd => hDne t hd h2
    refine ⟨mem_exclusive.mpr ⟨h1, ?_, h3⟩, hnD⟩
    rw [← hother t hnD]
    exact h2
  have hPNI1nil : (∀ t, t ∈ PNI → t ∈ D) → PNI1 = [] := by
    intro hsub
    apply List.eq_nil_iff_forall_not_mem.mpr
    intro t ht
    obtain ⟨h1, h2⟩ := hexcl _ _ t ((hPNI1 t).mp ht)
    exact h2 (hsub t ((hPNI t).mpr h1))
  have hTO1nil : (∀ t, t ∈ TO → t ∈ D) → TO1 = [] := by
    intro hsub
    apply List.eq_nil_iff_forall_not_mem.mpr
    intro t ht
    obtain ⟨h1, h2⟩ := hexcl _ _ t ((hTO1 t).mp ht)
    exact h2 (hsub t ((hTO t).mpr h1))
  have finish : (∀ t, t ∈ TO → t ∈ D) → (∀ t, t ∈ PNI → t ∈ D) →
      pivotRules screen2 w1 R1 RI1 (TO1 ++ PNI1) SP1 PNI1
        (expectedBombs w1.board rows cols p n)
        ((pc.toNat : Int) - 48 - (flaggedCount w1.board rows cols q : Int)) =
        some (false, w1) := by
    intro h1 h2
    rw [hPNI1nil h2, hTO1nil h1]
    exact pivotRules_nil screen2 w1 R1 RI1 SP1 _ _
  have hPE : ∀ t ∈ PNI, boardAt w.board t.1 t.2 = some 'E' :=
    fun t ht => (mem_exclusive.mp ((hPNI t).mp ht)).2.1
  have hRE : ∀ t ∈ TO ++ PNI, boardAt w.board t.1 t.2 = some 'E' := by
    intro t ht
    rcases List.mem_append.mp ht with ht | ht
    · exact (mem_exclusive.mp ((hTO t).mp ht)).2.1
    · exact hPE t ht
  have hflag : ∀ L : List Pos, (∀ t ∈ L, boardAt w.board t.1 t.2 = some 'E') →
      (markAll screen L w).map (fun w1 => (true, w1)) = some (true, w1) →
      L = D ∧ ∀ t ∈ L, boardAt w1.board t.1 t.2 = some 'M' := by
    intro L hL h
    obtain ⟨w2, hw2, hcl, -, -, hM, -⟩ :=
      markAll_spec screen hrows hcols hrect L w (keeps_refl _) hL
    rw [hw2] at h
    cases h
    exact ⟨hDeq L (Or.inl hcl), hM⟩
  have hrev : ∀ L : List Pos,
      (revealAll screen L w).map (fun w1 => (true, w1)) = some (true, w1) → L = D := by
    intro L h
    obtain ⟨w2, hw2, hcl, -⟩ := revealAll_spec screen hrows hcols L w hrect
    rw [hw2] at h
    cases h
    exact hDeq L (Or.inr hcl)
  refine pivotRules_cases screen w R RI (TO ++ PNI) SP PNI
    (expectedBombs w.board rows cols p n)
    ((pc.toNat : Int) - 48 - (flaggedCount w.board rows cols q : Int))
    (fun r => r = some (true, w1) →
      pivotRules screen2 w1 R1 RI1 (TO1 ++ PNI1) SP1 PNI1
        (expectedBombs w1.board rows cols p n)
        ((pc.toNat : Int) - 48 - (flaggedCount w1.board rows cols q : Int)) =
        some (false, w1)) ?_ ?_ ?_ ?_ ?_ ?_ hcall
  · intro h
    cases h
  · -- rule 1 has flagged the tiles exclusive to the pivot
    intro hgt hlen h
    obtain ⟨hLD, hM⟩ := hflag PNI hPE h
    subst hLD
    have hp0 : PNI1 = [] := hPNI1nil (fun _ ht => ht)
    have hsame : ∀ t ∈ neighbours rows cols p,
        holds w1.board 'M' t = holds w.board 'M' t := by
      intro t ht
      have hnD : t ∉ PNI := fun hd => (mem_exclusive.mp ((hPNI t).mp hd)).2.2 ht
      unfold holds
      rw [hother t hnD]
    have hcp : flaggedCount w1.board rows cols p = flaggedCount w.board rows cols p := by
      unfold flaggedCount
      exact List.countP_congr (fun t ht => by rw [hsame t ht])
    have hcq : flaggedCount w1.board rows cols q =
        flaggedCount w.board rows cols q + PNI.length := by
      unfold flaggedCount
      apply countP_add_new (neighbours_nodup rows cols q) hPNInd
      · exact fun t ht => (mem_exclusive.mp ((hPNI t).mp ht)).1
      · intro t ht
        unfold holds
        rw [hPE t ht]
        decide
      · intro t _
        by_cases hd : t ∈ PNI
        · simp only [holds_iff, hM t hd, hd, or_true]
        · simp only [holds_iff, hother t hd, hd, or_false]
    have hbal : (pc.toNat : Int) - 48 - (flaggedCount w1.board rows cols q : Int) =
        expectedBombs w1.board rows cols p n := by
      unfold expectedBombs at hlen ⊢
      rw [hcp, hcq]
      push_cast
      omega
    have hne : PNI ≠ [] := by
      intro h0
      rw [h0] at hlen
      simp only [List.length_nil, Nat.cast_zero] at hlen
      omega
    obtain ⟨t0, ht0⟩ := List.exists_mem_of_ne_nil PNI hne
    have hSPne : SP1 ≠ sortPos RI1 := by
      intro hs
      have h1 : t0 ∈ SP1 := by
        rw [hSP1]
        refine ⟨(mem_exclusive.mp ((hPNI t0).mp ht0)).1, ?_⟩
        unfold hidden
        rw [holds_iff.mpr (hM t0 ht0)]
        simp
      rw [hs, mem_sortPos, hRI1, hR1] at h1
      have := h1.1.2
      rw [hM t0 ht0] at this
      cases this
    rw [hbal, hp0]
    exact pivotRules_balanced screen2 w1 R1 RI1 _ SP1 _ hSPne
  · -- rule 2 has revealed every tile outside the intersection
    intro _ _ h
    have hLD := hrev _ h
    subst hLD
    exact finish (fun t ht => List.mem_append_left _ ht) (fun t ht => List.mem_append_right _ ht)
  · -- rule 3 has revealed the tiles exclusive to the pivot
    intro _ hs h
    have hLD := hrev _ h
    subst hLD
    refine finish ?_ (fun _ ht => ht)
    intro t ht
    obtain ⟨h1, h2, h3⟩ := mem_exclusive.mp ((hTO t).mp ht)
    have h4 : t ∈ sortPos R := mem_sortPos.mpr ((hR t).mpr ⟨h1, h2⟩)
    rw [hs, mem_sortPos, hRI] at h4
    exact absurd h4.2 h3
  · -- rule 4 acts only when there is nothing to reveal
    intro _ hlen h
    have hLD := hrev _ h
    subst hLD
    have hnil : TO ++ PNI = [] := List.length_eq_zero.mp hlen
    obtain ⟨h1, h2⟩ := List.append_eq_nil.mp hnil
    refine finish ?_ (fun _ ht => ht)
    intro t ht
    rw [h1] at ht
    cases ht
  · -- rule 5 has flagged every tile outside the intersection
    intro _ h
    obtain ⟨hLD, -⟩ := hflag _ hRE h
    subst hLD
    exact finish (fun t ht => List.mem_append_left _ ht) (fun t ht => List.mem_append_right _ ht)

set_option maxRecDepth 100000 in
theorem pivot_idempotent_witness :
    pivotCall whiteScreen ⟨[['1', '2', '1'], ['E', 'E', 'E']], [], 0⟩ (0, 0) (0, 1) =
        some (true, ⟨[['1', '2', '1'], ['E', 'E', 'M']], [flagClick (1, 2)], 1⟩) ∧
      pivotCall blueScreen ⟨[['1', '2', '1'], ['E', 'E', 'M']], [flagClick (1, 2)], 1⟩
          (0, 0) (0, 1) =
        some (false, ⟨[['1', '2', '1'], ['E', 'E', 'M']], [flagClick (1, 2)], 1⟩) :=
  have hcall : pivotCall whiteScreen ⟨[['1', '2', '1'], ['E', 'E', 'E']], [], 0⟩ (0, 0)
      (0, 1) = some (true, ⟨[['1', '2', '1'], ['E', 'E', 'M']], [flagClick (1, 2)], 1⟩) := by
    rfl
  have hset : boardSet [['1', '2', '1'], ['E', 'E', 'E']] 1 2 'M' =
      some [['1', '2', '1'], ['E', 'E', 'M']] := by rfl
  ⟨hcall, pivot_idempotent whiteScreen blueScreen
    ⟨[['1', '2', '1'], ['E', 'E', 'E']], [], 0⟩
    ⟨[['1', '2', '1'], ['E', 'E', 'M']], [flagClick (1, 2)], 1⟩ 2 3 (0, 0) (0, 1) 1 [(1, 2)]
    ⟨rfl, by simp⟩ (by decide) (by decide) (by decide) (by decide) ⟨by decide, by decide⟩
    hcall (Or.inl ⟨rfl, by simp [boardAt, vecAt]⟩) (by
      intro t ht
      obtain ⟨x, y⟩ := t
      exact (boardSet_spec hset).2.2 x y (fun h => ht (by rw [h]; simp)))⟩

/-! ## Claims about the colour classifier: achromatic samples -/

/-- The classifier on an achromatic sample `R = G = B = v`, for every `v` and every fourth
channel. -/
theorem colorIdentifier_achromatic_eq (v a : Nat) :
    colorIdentifier ⟨v, v, v, a⟩ =
      if v > 195 then COLOR.WHITE
      else if v < 150 then COLOR.LIGHT_GRAY
      else if v > 150 then COLOR.GRAY
      else COLOR.UNKNOWN := by
  unfold colorIdentifier
  simp only [and_self, and_true]
  by_cases h1 : v > 195
  · rw [if_pos h1, if_pos h1]
  · rw [if_neg h1, if_neg h1, if_neg (by omega), if_neg (by omega), if_neg (by omega),
      if_neg (by omega), if_neg (by omega), if_neg (by omega)]
    by_cases h2 : v < 150
    · rw [if_pos h2, if_pos h2]
    · rw [if_neg h2, if_neg h2]
      by_cases h3 : v > 150
      · rw [if_pos h3, if_pos h3]
      · rw [if_neg h3, if_neg h3, if_neg (by omega)]

/-- C28: for every achromatic sample `R = G = B = v` (any fourth channel),
`colorIdentifier` returns `LIGHT_GRAY` when `v < 150`, `GRAY` when `150 < v ≤ 195`, `WHITE`
when `v > 195` and `UNKNOWN` when `v = 150`; it never returns one of the six number colours
`BLUE`, `GREEN`, `RED`, `DARK_BLUE`, `BROWN`, `LIGHT_GREEN`. No bound on `v` is needed. -/
theorem colorIdentifier_achromatic (v a : Nat) :
    (v < 150 → colorIdentifier ⟨v, v, v, a⟩ = COLOR.LIGHT_GRAY) ∧
    (150 < v ∧ v ≤ 195 → colorIdentifier ⟨v, v, v, a⟩ = COLOR.GRAY) ∧
    (v > 195 → colorIdentifier ⟨v, v, v, a⟩ = COLOR.WHITE) ∧
    (v = 150 → colorIdentifier ⟨v, v, v, a⟩ = COLOR.UNKNOWN) ∧
    colorIdentifier ⟨v, v, v, a⟩ ∉
      [COLOR.BLUE, COLOR.GREEN, COLOR.RED, COLOR.DARK_BLUE, COLOR.BROWN,
        COLOR.LIGHT_GREEN] := by
  rw [colorIdentifier_achromatic_eq]
  refine ⟨?_, ?_, ?_, ?_, ?_⟩
  · intro h
    rw [if_neg (by omega), if_pos h]
  · intro h
    rw [if_neg (by omega), if_neg (by omega), if_pos h.1]
  · intro h
    rw [if_pos h]
  · intro h
    rw [if_neg (by omega), if_neg (by omega), if_neg (by omega)]
  · split_ifs <;> decide

theorem colorIdentifier_achromatic_witness :
    colorIdentifier ⟨120, 120, 120, 255⟩ = COLOR.LIGHT_GRAY ∧
      colorIdentifier ⟨180, 180, 180, 255⟩ = COLOR.GRAY ∧
      colorIdentifier ⟨230, 230, 230, 255⟩ = COLOR.WHITE ∧
      colorIdentifier ⟨150, 150, 150, 255⟩ = COLOR.UNKNOWN :=
  ⟨(colorIdentifier_achromatic 120 255).1 (by decide),
    (colorIdentifier_achromatic 180 255).2.1 ⟨by decide, by decide⟩,
    (colorIdentifier_achromatic 230 255).2.2.1 (by decide),
    (colorIdentifier_achromatic 150 255).2.2.2.1 rfl⟩

/-! ## Claims about the SIMPLE strategy: the three outcomes -/

/-- C26, as stated, fails: the reveal condition and the flag condition are not mutually
exclusive. On the board `1 M` the tile `1` has one flagged neighbour and no unrevealed
one, so `flagged = n` and `flagged + candidates = n` both hold; the code tests the reveal
condition first and clicks. -/
theorem simple_outcomes_counterexample :
    IsNumber [['1', 'M']] (0, 0) 1 ∧
      flaggedCount [['1', 'M']] 1 2 (0, 0) = 1 ∧
      flaggedCount [['1', 'M']] 1 2 (0, 0) + unrevealedCount [['1', 'M']] 1 2 (0, 0) = 1 ∧
      markBombs blackScreen ⟨[['1', 'M']], [], 0⟩ 0 0 STRATEGY.SIMPLE =
        some (true, ⟨[['1', 'M']], [revealClick (0, 0)], 1⟩) :=
  ⟨⟨by decide, by decide⟩, by decide, by decide, by rfl⟩

/-- C26 as amended: on a non-empty rectangular board, for every in-bounds `Number(n)` tile,
`markBombs` with strategy SIMPLE returns and exactly one outcome applies, chosen in the
order of the code: the reveal when `flagged = n`; otherwise the flagging of all candidates
when `flagged + candidates = n`; otherwise no change. The two conditions hold together
exactly when `flagged = n` and there is no candidate, and then the reveal is taken. -/
theorem simple_outcomes (screen : Nat → Mat) (w : World) (rows cols : Nat) (p : Pos)
    (n : Nat) (hrect : Rect w.board rows cols) (hrows : 0 < rows) (hcols : 0 < cols)
    (hp : InBounds rows cols p) (hnum : IsNumber w.board p n) :
    (∃ b w1, markBombs screen w p.1 p.2 STRATEGY.SIMPLE = some (b, w1) ∧
      (flaggedCount w.board rows cols p = n →
        b = true ∧ w1.clicks = w.clicks ++ [revealClick p]) ∧
      (flaggedCount w.board rows cols p ≠ n →
        flaggedCount w.board rows cols p + unrevealedCount w.board rows cols p = n →
        b = true ∧ ∃ L : List Pos, L ≠ [] ∧ w1.clicks = w.clicks ++ L.map flagClick ∧
          ∀ q, q ∈ L ↔ q ∈ neighbours rows cols p ∧ boardAt w.board q.1 q.2 = some 'E') ∧
      (flaggedCount w.board rows cols p ≠ n →
        flaggedCount w.board rows cols p + unrevealedCount w.board rows cols p ≠ n →
        b = false ∧ w1 = w)) ∧
    ((flaggedCount w.board rows cols p = n ∧
        flaggedCount w.board rows cols p + unrevealedCount w.board rows cols p = n) ↔
      (flaggedCount w.board rows cols p = n ∧ unrevealedCount w.board rows cols p = 0)) := by
  refine ⟨?_, by omega⟩
  obtain ⟨S, hnd, hiff, hlen, heq⟩ := markBombs_simple_eq screen w hrect hrows hcols hp hnum
  rw [heq]
  by_cases h1 : flaggedCount w.board rows cols p = n
  · rw [if_pos h1]
    obtain ⟨w1, hw1, hcl, -, -⟩ := warpAndClick_spec screen w (46 + 25 * p.2)
      (318 + 25 * p.1) ACTION.REVEAL_TILE hrect hrows hcols
    refine ⟨true, w1, by rw [hw1]; rfl, fun _ => ⟨rfl, hcl⟩, fun h => absurd h1 h,
      fun h => absurd h1 h⟩
  · rw [if_neg h1]
    by_cases h2 : flaggedCount w.board rows cols p + unrevealedCount w.board rows cols p = n
    · rw [if_pos h2]
      have hE : ∀ q ∈ S.filter (fun q => !holds w.board 'M' q),
          boardAt w.board q.1 q.2 = some 'E' := fun q hq => ((results_mem hiff q).mp hq).2
      obtain ⟨w1, hw1, hcl, -⟩ := markAll_spec screen hrows hcols hrect
        (S.filter (fun q => !holds w.board 'M' q)) w (keeps_refl _) hE
      refine ⟨true, w1, by rw [hw1]; rfl, fun h => absurd h h1, ?_, fun _ h => absurd h2 h⟩
      intro _ _
      refine ⟨rfl, S.filter (fun q => !holds w.board 'M' q), ?_, hcl, results_mem hiff⟩
      intro h0
      rw [h0] at hlen
      simp only [List.length_nil] at hlen
      omega
    · rw [if_neg h2]
      exact ⟨false, w, rfl, fun h => absurd h h1, fun _ h => absurd h h2, fun _ _ => ⟨rfl, rfl⟩⟩

set_option maxRecDepth 100000 in
theorem simple_outcomes_witness :
    (∃ b w1, markBombs blackScreen ⟨[['1', 'M']], [], 0⟩ 0 0 STRATEGY.SIMPLE = some (b, w1) ∧
      (flaggedCount [['1', 'M']] 1 2 (0, 0) = 1 →
        b = true ∧ w1.clicks = [] ++ [revealClick (0, 0)]) ∧
      (flaggedCount [['1', 'M']] 1 2 (0, 0) ≠ 1 →
        flaggedCount [['1', 'M']] 1 2 (0, 0) + unrevealedCount [['1', 'M']] 1 2 (0, 0) = 1 →
        b = true ∧ ∃ L : List Pos, L ≠ [] ∧ w1.clicks = [] ++ L.map flagClick ∧
          ∀ q, q ∈ L ↔ q ∈ neighbours 1 2 (0, 0) ∧
            boardAt [['1', 'M']] q.1 q.2 = some 'E') ∧
      (flaggedCount [['1', 'M']] 1 2 (0, 0) ≠ 1 →
        flaggedCount [['1', 'M']] 1 2 (0, 0) + unrevealedCount [['1', 'M']] 1 2 (0, 0) ≠ 1 →
        b = false ∧ w1 = ⟨[['1', 'M']], [], 0⟩)) ∧
    ((flaggedCount [['1', 'M']] 1 2 (0, 0) = 1 ∧
        flaggedCount [['1', 'M']] 1 2 (0, 0) + unrevealedCount [['1', 'M']] 1 2 (0, 0) = 1) ↔
      (flaggedCount [['1', 'M']] 1 2 (0, 0) = 1 ∧
        unrevealedCount [['1', 'M']] 1 2 (0, 0) = 0)) :=
  simple_outcomes blackScreen ⟨[['1', 'M']], [], 0⟩ 1 2 (0, 0) 1 ⟨rfl, by simp⟩ (by decide)
    (by decide) (by decide) ⟨by decide, by decide⟩

/-! ## Claims about the lists of `pivotBoard` -/

/-- The second intersection loop appends the same tiles to both of its lists. -/
theorem pivotLoop_append (board : Board) (results_intersection : List Pos) :
    ∀ (l b c RNI PNI : List Pos),
      pivotLoop board results_intersection l b c = some (RNI, PNI) →
      ∃ added : List Pos, RNI = b ++ added ∧ PNI = c ++ added := by
  intro l
  induction l with
  | nil =>
    intro b c RNI PNI h
    simp only [pivotLoop, Option.some.injEq, Prod.mk.injEq] at h
    exact ⟨[], by simp [h.1], by simp [h.2]⟩
  | cons i rest ih =>
    intro b c RNI PNI h
    unfold pivotLoop at h
    split at h
    · exact ih b c RNI PNI h
    · split at h
      · cases h
      · split at h
        · obtain ⟨added, h1, h2⟩ := ih _ _ RNI PNI h
          exact ⟨i :: added, by simp [h1], by simp [h2]⟩
        · exact ih b c RNI PNI h

/-- C30: in `pivotBoard`, for every board and every pair of lists that enter the second
intersection loop, `pivot_not_intersection` is a sub-list of `results_not_intersection`
(the loop appends each tile to both, after the tiles the first loop has put into
`results_not_intersection`); so whenever `results_not_intersection` is empty, so is
`pivot_not_intersection`, and the rules of `pivotBoard` (the fourth among them) reveal no
tile, send no click and return `false`. -/
theorem pivot_not_intersection_sublist (board : Board)
    (results_intersection pivot_surroundings not_intersection RNI PNI : List Pos)
    (h : pivotLoop board results_intersection pivot_surroundings not_intersection [] =
      some (RNI, PNI)) :
    RNI = not_intersection ++ PNI ∧ PNI.Sublist RNI ∧
      (RNI.length = 0 → PNI.length = 0 ∧
        ∀ (screen : Nat → Mat) (w : World) (results : List Pos)
          (expected_bombs pivot_expected_bombs : Int),
          pivotRules screen w results results_intersection RNI pivot_surroundings PNI
            expected_bombs pivot_expected_bombs = some (false, w)) := by
  obtain ⟨added, h1, h2⟩ := pivotLoop_append board results_intersection pivot_surroundings
    not_intersection [] RNI PNI h
  simp only [List.nil_append] at h2
  subst h2
  refine ⟨h1, ?_, ?_⟩
  · rw [h1]
    exact List.sublist_append_right _ _
  · intro h0
    have hR : RNI = [] := List.length_eq_zero.mp h0
    rw [hR] at h1
    have hP : PNI = [] := (List.append_eq_nil.mp h1.symm).2
    subst hP
    subst hR
    exact ⟨rfl, fun screen w results e pe => pivotRules_nil screen w results _ _ e pe⟩

theorem pivot_not_intersection_sublist_witness :
    ([] : List Pos) = [] ++ [] ∧ ([] : List Pos).Sublist [] ∧
      (([] : List Pos).length = 0 → ([] : List Pos).length = 0 ∧
        ∀ (screen : Nat → Mat) (w : World) (results : List Pos)
          (expected_bombs pivot_expected_bombs : Int),
          pivotRules screen w results [(1, 0), (1, 1)] [] [(1, 0), (1, 1)] []
            expected_bombs pivot_expected_bombs = some (false, w)) :=
  pivot_not_intersection_sublist [['1', '1'], ['E', 'E']] [(1, 0), (1, 1)]
    [(1, 0), (1, 1)] [] [] [] (by rfl)

/-! ## Claims about the order of the neighbour lookup -/

/-- Two duplicate-free lists with the same members have the same sorted form. -/
theorem sortPos_eq_iff {l1 l2 : List Pos} (h1 : l1.Nodup) (h2 : l2.Nodup) :
    sortPos l1 = sortPos l2 ↔ ∀ t, t ∈ l1 ↔ t ∈ l2 := by
  haveI : IsTotal Pos posLE := ⟨posLE_total⟩
  haveI : IsTrans Pos posLE := ⟨posLE_trans⟩
  haveI : IsAntisymm Pos posLE := ⟨posLE_antisymm⟩
  constructor
  · intro h t
    rw [← @mem_sortPos l1, ← @mem_sortPos l2, h]
  · intro h
    have hperm : (sortPos l1).Perm (sortPos l2) :=
      (List.perm_insertionSort posLE l1).trans
        (((List.perm_ext_iff_of_nodup h1 h2).mpr h).trans
          (List.perm_insertionSort posLE l2).symm)
    exact List.eq_of_perm_of_sorted hperm (List.sorted_insertionSort posLE l1)
      (List.sorted_insertionSort posLE l2)

/-- C29: on every non-empty rectangular board, for every in-bounds position and every
search list, `surroundingTiles` returns its positions in strictly increasing lexicographic
order (row, then column), hence without duplicates. Consequently, in the call of
`pivotBoard` that `markBombs` makes, the comparison of `pivot_surroundings` with the sorted
`results_intersection` holds exactly when the two have the same members, and so does the
comparison of the sorted `results` with the sorted `results_intersection`. -/
theorem lookup_order_and_comparisons :
    (∀ (board : Board) (rows cols : Nat) (p : Pos) (searchList : List Char),
      Rect board rows cols → 0 < rows → 0 < cols → InBounds rows cols p →
      ∃ res, surroundingTiles board p.1 p.2 searchList = some res ∧
        res.Pairwise posLT ∧ res.Nodup) ∧
    ∀ (screen : Nat → Mat) (w : World) (rows cols : Nat) (p q : Pos) (n : Nat) (pc : Char),
      Rect w.board rows cols → 0 < rows → 0 < cols → InBounds rows cols p →
      InBounds rows cols q → IsNumber w.board p n → boardAt w.board q.1 q.2 = some pc →
      pc ≠ 'E' ∧ pc ≠ '0' ∧ pc ≠ 'M' →
      ∃ results pivot_surroundings results_intersection RNI PNI : List Pos,
        pivotCall screen w p q =
          pivotRules screen w results results_intersection RNI pivot_surroundings PNI
            (expectedBombs w.board rows cols p n)
            ((pc.toNat : Int) - 48 - (flaggedCount w.board rows cols q : Int)) ∧
        (∀ t, t ∈ results ↔
          t ∈ neighbours rows cols p ∧ boardAt w.board t.1 t.2 = some 'E') ∧
        (∀ t, t ∈ pivot_surroundings ↔
          t ∈ neighbours rows cols q ∧ hidden w.board t = true) ∧
        (∀ t, t ∈ results_intersection ↔ t ∈ results ∧ t ∈ neighbours rows cols q) ∧
        (pivot_surroundings = sortPos results_intersection ↔
          ∀ t, t ∈ pivot_surroundings ↔ t ∈ results_intersection) ∧
        (sortPos results = sortPos results_intersection ↔
          ∀ t, t ∈ results ↔ t ∈ results_intersection) := by
  constructor
  · intro board rows cols p sl hrect hrows hcols _
    obtain ⟨res, hres, hnd, -⟩ := surroundingTiles_spec hrect hrows hcols p.1 p.2 sl
    exact ⟨res, hres, surroundingTiles_sorted hrect hrows hcols p.1 p.2 sl hres, hnd⟩
  · intro screen w rows cols p q n pc hrect hrows hcols hp hq hT hpc hvalid
    obtain ⟨R, SP, RI, TO, PNI, heq, hRnd, hR, hSPnd, hSPs, hSP, hRInd, hRI, -⟩ :=
      pivotCall_eq screen w hrect hrows hcols hp hq hT hpc hvalid
    refine ⟨R, SP, RI, TO ++ PNI, PNI, heq, hR, hSP, hRI, ?_, sortPos_eq_iff hRnd hRInd⟩
    constructor
    · intro h t
      rw [h, mem_sortPos]
    · exact eq_sortPos_of_mem_iff hSPs hSPnd hRInd

theorem lookup_order_and_comparisons_witness :
    ∃ res, surroundingTiles [['1', 'E'], ['E', 'M']] (0 : Int) (0 : Int) ['E', 'M'] =
        some res ∧ res.Pairwise posLT ∧ res.Nodup :=
  lookup_order_and_comparisons.1 [['1', 'E'], ['E', 'M']] 2 2 (0, 0) ['E', 'M']
    ⟨rfl, by simp⟩ (by decide) (by decide) (by decide)

/-! ## Claims about the border probe -/

/-- The border probe over a non-empty range `[x, last]` ends by writing: `'E'` when some
pixel of the range classifies as white, `'0'` otherwise. -/
theorem borderProbe_spec (img : Mat) (y last : Nat) :
    ∀ (n x : Nat), n = last + 1 - x → x ≤ last →
      (borderProbe img y last n x = some 'E' ∧
          ∃ k, x ≤ k ∧ k ≤ last ∧ colorIdentifier (pixelAverage img k y) = COLOR.WHITE) ∨
      (borderProbe img y last n x = some '0' ∧
          ∀ k, x ≤ k → k ≤ last → colorIdentifier (pixelAverage img k y) ≠ COLOR.WHITE) := by
  intro n
  induction n with
  | zero =>
    intro x hn hx
    omega
  | succ n ih =>
    intro x hn hx
    unfold borderProbe
    rw [if_pos hx]
    by_cases hw : colorIdentifier (pixelAverage img x y) = COLOR.WHITE
    · rw [if_pos hw]
      exact Or.inl ⟨rfl, x, Nat.le_refl x, hx, hw⟩
    · rw [if_neg hw]
      by_cases hlast : (last : Int) - (x : Int) < 1
      · rw [if_pos hlast]
        refine Or.inr ⟨rfl, ?_⟩
        intro k hk1 hk2
        have : k = x := by omega
        rw [this]
        exact hw
      · rw [if_neg hlast]
        rcases ih (x + 1) (by omega) (by omega) with ⟨h1, k, hk1, hk2, hk3⟩ | ⟨h1, h2⟩
        · exact Or.inl ⟨h1, k, by omega, hk2, hk3⟩
        · refine Or.inr ⟨h1, ?_⟩
          intro k hk1 hk2
          by_cases hkx : k = x
          · rw [hkx]
            exact hw
          · exact h2 k (by omega) hk2

/-- Over an empty range, which `updateBoard` reaches only from column 52 on
(`j/2 > 25`), the probe loop does not run and nothing is written. -/
theorem borderProbe_empty (img : Mat) (y last start : Nat) (h : last < start) :
    borderProbe img y last (last + 1 - start) start = none := by
  have h0 : last + 1 - start = 0 := by omega
  rw [h0]
  rfl

/-- C27: when no foreground pixel was accumulated for a tile (`counter = 0`), the category
is forced to LightGray whatever the accumulator holds, and the tile is decided by the
border probe alone. Over a non-empty probed range `[start, 34+25*(j+1)]` the probe
terminates with a value: `'E'` if and only if some pixel of the range classifies as
`WHITE`, and `'0'` otherwise. The range starts at `34+25*j+j/2` in `updateBoard`, where it
is non-empty for every column `j ≤ 51`, and at `34+25*j` in `main`. -/
theorem forced_light_gray_probe (img : Mat) (y j start : Nat) (rc : Vec4b)
    (hrange : start ≤ 34 + 25 * (j + 1)) :
    tileValue img y j start 0 rc =
        borderProbe img y (34 + 25 * (j + 1)) (34 + 25 * (j + 1) + 1 - start) start ∧
      (tileValue img y j start 0 rc = some 'E' ∨ tileValue img y j start 0 rc = some '0') ∧
      (tileValue img y j start 0 rc = some 'E' ↔
        ∃ k, start ≤ k ∧ k ≤ 34 + 25 * (j + 1) ∧
          colorIdentifier (pixelAverage img k y) = COLOR.WHITE) ∧
      (tileValue img y j start 0 rc = some '0' ↔
        ∀ k, start ≤ k → k ≤ 34 + 25 * (j + 1) →
          colorIdentifier (pixelAverage img k y) ≠ COLOR.WHITE) := by
  have heq : tileValue img y j start 0 rc =
      borderProbe img y (34 + 25 * (j + 1)) (34 + 25 * (j + 1) + 1 - start) start := rfl
  refine ⟨heq, ?_⟩
  rw [heq]
  rcases borderProbe_spec img y (34 + 25 * (j + 1)) _ start rfl hrange with
    ⟨h1, k, hk1, hk2, hk3⟩ | ⟨h1, h2⟩
  · rw [h1]
    refine ⟨Or.inl rfl, ⟨fun _ => ⟨k, hk1, hk2, hk3⟩, fun _ => rfl⟩, ?_⟩
    constructor
    · intro h
      cases h
    · intro h
      exact absurd hk3 (h k hk1 hk2)
  · rw [h1]
    refine ⟨Or.inr rfl, ?_, ⟨fun _ => h2, fun _ => rfl⟩⟩
    constructor
    · intro h
      cases h
    · rintro ⟨k, hk1, hk2, hk3⟩
      exact absurd hk3 (h2 k hk1 hk2)

theorem forced_light_gray_probe_witness :
    tileValue (blackScreen 0) 318 3 (34 + 25 * 3 + 3 / 2) 0 zeroColor =
        borderProbe (blackScreen 0) 318 (34 + 25 * (3 + 1))
          (34 + 25 * (3 + 1) + 1 - (34 + 25 * 3 + 3 / 2)) (34 + 25 * 3 + 3 / 2) ∧
      (tileValue (blackScreen 0) 318 3 (34 + 25 * 3 + 3 / 2) 0 zeroColor = some 'E' ∨
        tileValue (blackScreen 0) 318 3 (34 + 25 * 3 + 3 / 2) 0 zeroColor = some '0') ∧
      (tileValue (blackScreen 0) 318 3 (34 + 25 * 3 + 3 / 2) 0 zeroColor = some 'E' ↔
        ∃ k, 34 + 25 * 3 + 3 / 2 ≤ k ∧ k ≤ 34 + 25 * (3 + 1) ∧
          colorIdentifier (pixelAverage (blackScreen 0) k 318) = COLOR.WHITE) ∧
      (tileValue (blackScreen 0) 318 3 (34 + 25 * 3 + 3 / 2) 0 zeroColor = some '0' ↔
        ∀ k, 34 + 25 * 3 + 3 / 2 ≤ k → k ≤ 34 + 25 * (3 + 1) →
          colorIdentifier (pixelAverage (blackScreen 0) k 318) ≠ COLOR.WHITE) :=
  forced_light_gray_probe (blackScreen 0) 318 3 (34 + 25 * 3 + 3 / 2) zeroColor (by decide)

/-! ## The PIVOT strategy: the order of the directions -/

theorem pivotDirections_eq (screen : Nat → Mat) (w : World) (x y : Int) (rows cols : Nat)
    (surroundings results : List Pos) (bc : Int) :
    pivotDirections screen w x y rows cols surroundings results bc =
      thenPivot (if y > 0 then pivotBoard screen w x y x (y - 1) surroundings results bc
          else some (false, w)) fun w1 =>
        thenPivot (if y < (cols : Int) - 1 then
            pivotBoard screen w1 x y x (y + 1) surroundings results bc
          else some (false, w1)) fun w2 =>
          thenPivot (if x > 0 then pivotBoard screen w2 x y (x - 1) y surroundings results bc
            else some (false, w2)) fun w3 =>
            if x < (rows : Int) - 1 then
              pivotBoard screen w3 x y (x + 1) y surroundings results bc
            else some (false, w3) := by
  rfl

/-- The deduction rules return whenever the tiles outside the intersection are
unrevealed. -/
theorem pivotRules_returns (screen : Nat → Mat) (w : World) {rows cols : Nat}
    (hrect : Rect w.board rows cols) (hrows : 0 < rows) (hcols : 0 < cols)
    (R RI RNI SP PNI : List Pos) (e pe : Int)
    (hRNI : ∀ t ∈ RNI, boardAt w.board t.1 t.2 = some 'E')
    (hPNI : ∀ t ∈ PNI, boardAt w.board t.1 t.2 = some 'E') :
    ∃ b w1, pivotRules screen w R RI RNI SP PNI e pe = some (b, w1) := by
  have hflag : ∀ L : List Pos, (∀ t ∈ L, boardAt w.board t.1 t.2 = some 'E') →
      ∃ b w1, (markAll screen L w).map (fun w1 => (true, w1)) = some (b, w1) := by
    intro L hL
    obtain ⟨w2, hw2, -⟩ := markAll_spec screen hrows hcols hrect L w (keeps_refl _) hL
    exact ⟨true, w2, by rw [hw2]; rfl⟩
  have hrev : ∀ L : List Pos,
      ∃ b w1, (revealAll screen L w).map (fun w1 => (true, w1)) = some (b, w1) := by
    intro L
    obtain ⟨w2, hw2, -⟩ := revealAll_spec screen hrows hcols L w hrect
    exact ⟨true, w2, by rw [hw2]; rfl⟩
  exact pivotRules_cases screen w R RI RNI SP PNI e pe
    (fun r => ∃ b w1, r = some (b, w1)) ⟨false, w, rfl⟩ (fun _ _ => hflag PNI hPNI)
    (fun _ _ => hrev RNI) (fun _ _ => hrev PNI) (fun _ _ => hrev PNI) (fun _ => hflag RNI hRNI)

/-- The call of `pivotBoard` for a number tile and an in-bounds pivot returns. -/
theorem pivotCall_returns (screen : Nat → Mat) (w : World) {rows cols : Nat}
    (hrect : Rect w.board rows cols) (hrows : 0 < rows) (hcols : 0 < cols) {p q : Pos}
    (hp : InBounds rows cols p) (hq : InBounds rows cols q) {n : Nat}
    (hT : IsNumber w.board p n) : ∃ b w1, pivotCall screen w p q = some (b, w1) := by
  obtain ⟨pc, hpc⟩ := rect_boardAt_of_inBounds hrect hq
  by_cases hvalid : pc ≠ 'E' ∧ pc ≠ '0' ∧ pc ≠ 'M'
  · obtain ⟨R, SP, RI, TO, PNI, heq, -, -, -, -, -, -, -, -, hTO, -, hPNI⟩ :=
      pivotCall_eq screen w hrect hrows hcols hp hq hT hpc hvalid
    rw [heq]
    have hPE : ∀ t ∈ PNI, boardAt w.board t.1 t.2 = some 'E' :=
      fun t ht => (mem_exclusive.mp ((hPNI t).mp ht)).2.1
    apply pivotRules_returns screen w hrect hrows hcols _ _ _ _ _ _ _ _ hPE
    intro t ht
    rcases List.mem_append.mp ht with ht | ht
    · exact (mem_exclusive.mp ((hTO t).mp ht)).2.1
    · exact hPE t ht
  · exact ⟨false, w, pivotCall_guard screen w hrect hrows hcols hp hT hpc hvalid⟩

/-- For a number tile, `markBombs` with strategy PIVOT is the sequence of the direction
tests, and each `pivotBoard` call in it is the call `pivotCall` for that pivot. -/
theorem markBombs_pivot_eq (screen : Nat → Mat) (w : World) {rows cols : Nat}
    (hrect : Rect w.board rows cols) (hrows : 0 < rows) (hcols : 0 < cols) {p : Pos}
    (hp : InBounds rows cols p) {n : Nat} (hT : IsNumber w.board p n) :
    ∃ (S R : List Pos) (bc : Int),
      (∀ q : Pos, pivotCall screen w p q = pivotBoard screen w p.1 p.2 q.1 q.2 S R bc) ∧
      markBombs screen w p.1 p.2 STRATEGY.PIVOT =
        pivotDirections screen w p.1 p.2 rows cols S R bc := by
  obtain ⟨S, hS, -, -, hsep, -⟩ :=
    markBombs_lists hrect hrows hcols hp (isNumber_not_hidden hT)
  obtain ⟨row0, h0, hlen⟩ := rect_head hrect hrows
  refine ⟨S, S.filter (fun q => !holds w.board 'M' q),
    ((flaggedCount w.board rows cols p : Nat) : Int), ?_, ?_⟩
  · intro q
    unfold pivotCall
    simp only [hS, hsep]
  · unfold markBombs
    simp only [hT.2, hS, hsep, h0, hlen, hrect.1]

/-- One direction test: an attempt that returns `false` leaves the world as it was. -/
theorem thenPivot_direction (screen : Nat → Mat) (w : World) (p q : Pos) (S R : List Pos)
    (bc : Int) (hcall : pivotCall screen w p q = pivotBoard screen w p.1 p.2 q.1 q.2 S R bc)
    (c : Prop) [Decidable c] (next : World → Option (Bool × World)) :
    thenPivot (if c then pivotBoard screen w p.1 p.2 q.1 q.2 S R bc else some (false, w))
        next =
      if c then thenPivot (pivotCall screen w p q) (fun _ => next w) else next w := by
  by_cases hc : c
  · rw [if_pos hc, if_pos hc, hcall]
    cases h : pivotBoard screen w p.1 p.2 q.1 q.2 S R bc with
    | none => rfl
    | some r =>
      obtain ⟨b, w1⟩ := r
      cases b
      · have := pivotBoard_false h
        subst this
        rfl
      · rfl
  · rw [if_neg hc, if_neg hc]
    rfl

theorem pivotChain_filter_cons (screen : Nat → Mat) (w : World) (p q : Pos) (L : List Pos)
    (f : Pos → Bool) :
    pivotChain screen w p ((q :: L).filter f) =
      if f q = true then
        thenPivot (pivotCall screen w p q) (fun _ => pivotChain screen w p (L.filter f))
      else pivotChain screen w p (L.filter f) := by
  by_cases h : f q = true
  · rw [if_pos h, List.filter_cons_of_pos h]
    rfl
  · rw [if_neg h, List.filter_cons_of_neg h]

theorem pivotChain_returns (screen : Nat → Mat) (w : World) (p : Pos) :
    ∀ L : List Pos, (∀ q ∈ L, ∃ b w1, pivotCall screen w p q = some (b, w1)) →
      ∃ b w1, pivotChain screen w p L = some (b, w1) := by
  intro L
  induction L with
  | nil => intro _; exact ⟨false, w, rfl⟩
  | cons q rest ih =>
    intro h
    obtain ⟨b, w1, hq⟩ := h q (List.mem_cons_self _ _)
    obtain ⟨b2, w2, hrest⟩ := ih (fun t ht => h t (List.mem_cons_of_mem _ ht))
    unfold pivotChain
    rw [hq]
    cases b
    · exact ⟨b2, w2, hrest⟩
    · exact ⟨true, w1, rfl⟩

/-! ## Claims about the PIVOT strategy: the last row -/

set_option maxRecDepth 100000 in
/-- C25, as stated, fails: `markBombs` with strategy PIVOT does not return failure for
every tile of the last row. On the two-row board `E E E / 1 2 1` the tile `(1, 0)` of the
last row has no left pivot; its right pivot `2` expects one mine more and has exactly one
unrevealed tile of its own, `(0, 2)`, which is flagged: the call returns `true`. -/
theorem pivot_last_row_counterexample :
    Rect [['E', 'E', 'E'], ['1', '2', '1']] 2 3 ∧
      ((1, 0) : Pos).1 = ((2 : Nat) : Int) - 1 ∧
      markBombs whiteScreen ⟨[['E', 'E', 'E'], ['1', '2', '1']], [], 0⟩ 1 0 STRATEGY.PIVOT =
        some (true, ⟨[['E', 'E', 'M'], ['1', '2', '1']], [flagClick (0, 2)], 1⟩) :=
  ⟨⟨rfl, by simp⟩, by decide, by rfl⟩

/-- C25 as amended: on a non-empty rectangular board, for every `Number(n)` tile `p` of
the last row, `markBombs` with strategy PIVOT returns, and its result is that of trying the
left, the right and the upper pivot in this order, those that are on the board: it returns
`true` with the first attempt that returns `true` and `false` only when every one of them
has returned `false`. The `else` branch that returns `false` is reached only then, and there
is no lower pivot to skip. -/
theorem pivot_last_row (screen : Nat → Mat) (w : World) (rows cols : Nat) (p : Pos) (n : Nat)
    (hrect : Rect w.board rows cols) (hrows : 0 < rows) (hcols : 0 < cols)
    (hp : InBounds rows cols p) (hT : IsNumber w.board p n)
    (hlast : p.1 = (rows : Int) - 1) :
    markBombs screen w p.1 p.2 STRATEGY.PIVOT =
        pivotChain screen w p
          ([(p.1, p.2 - 1), (p.1, p.2 + 1), (p.1 - 1, p.2)].filter
            fun q => decide (InBounds rows cols q)) ∧
      ∃ b w1, markBombs screen w p.1 p.2 STRATEGY.PIVOT = some (b, w1) := by
  obtain ⟨S, R, bc, hcall, heq⟩ := markBombs_pivot_eq screen w hrect hrows hcols hp hT
  have hmain : markBombs screen w p.1 p.2 STRATEGY.PIVOT =
      pivotChain screen w p
        ([(p.1, p.2 - 1), (p.1, p.2 + 1), (p.1 - 1, p.2)].filter
          fun q => decide (InBounds rows cols q)) := by
    rw [heq, pivotDirections_eq]
    rw [thenPivot_direction screen w p (p.1, p.2 - 1) S R bc (hcall _)]
    rw [thenPivot_direction screen w p (p.1, p.2 + 1) S R bc (hcall _)]
    rw [thenPivot_direction screen w p (p.1 - 1, p.2) S R bc (hcall _)]
    rw [if_neg (by omega : ¬ p.1 < (rows : Int) - 1)]
    rw [pivotChain_filter_cons, pivotChain_filter_cons, pivotChain_filter_cons]
    simp only [List.filter_nil, pivotChain, decide_eq_true_eq]
    obtain ⟨h1, h2, h3, h4⟩ := hp
    have e1 : InBounds rows cols (p.1, p.2 - 1) ↔ p.2 > 0 := by
      unfold InBounds
      simp only
      omega
    have e2 : InBounds rows cols (p.1, p.2 + 1) ↔ p.2 < (cols : Int) - 1 := by
      unfold InBounds
      simp only
      omega
    have e3 : InBounds rows cols (p.1 - 1, p.2) ↔ p.1 > 0 := by
      unfold InBounds
      simp only
      omega
    simp only [e1, e2, e3]
  refine ⟨hmain, ?_⟩
  rw [hmain]
  apply pivotChain_returns
  intro q hq
  exact pivotCall_returns screen w hrect hrows hcols hp
    (of_decide_eq_true (List.mem_filter.mp hq).2) hT

set_option maxRecDepth 100000 in
theorem pivot_last_row_witness :
    markBombs whiteScreen ⟨[['E', 'E', 'E'], ['1', '2', '1']], [], 0⟩ 1 0 STRATEGY.PIVOT =
        pivotChain whiteScreen ⟨[['E', 'E', 'E'], ['1', '2', '1']], [], 0⟩ (1, 0)
          ([((1 : Int), (0 : Int) - 1), (1, 0 + 1), (1 - 1, 0)].filter
            fun q => decide (InBounds 2 3 q)) ∧
      ∃ b w1, markBombs whiteScreen ⟨[['E', 'E', 'E'], ['1', '2', '1']], [], 0⟩ 1 0
        STRATEGY.PIVOT = some (b, w1) :=
  pivot_last_row whiteScreen ⟨[['E', 'E', 'E'], ['1', '2', '1']], [], 0⟩ 2 3 (1, 0) 1
    ⟨rfl, by simp⟩ (by decide) (by decide) (by decide) ⟨by decide, by decide⟩ (by decide)

/-! ## The solver loop: one tile -/

/-- What one execution of the body of the inner loops does: either the tile is skipped and
the state is unchanged, or `markBombs` is called with the strategy of the current mode and
the state is updated from its result. -/
theorem solverTile_inv {screen : Nat → Mat} {s s1 : Solver} {i j : Nat}
    (h : solverTile screen s i j = some s1) :
    ∃ c, boardAt s.world.board i j = some c ∧
      ((¬ ((c ≠ 'E' ∧ c ≠ '0' ∧ c ≠ 'M') ∧
            ((((i : Int), (j : Int)) : Pos) ∉ s.visited ∨
              (s.board_stalled = true ∧ (((i : Int), (j : Int)) : Pos) ∉ s.pivots_visited))) ∧
          s1 = s) ∨
        ((c ≠ 'E' ∧ c ≠ '0' ∧ c ≠ 'M') ∧
          ((((i : Int), (j : Int)) : Pos) ∉ s.visited ∨
            (s.board_stalled = true ∧ (((i : Int), (j : Int)) : Pos) ∉ s.pivots_visited)) ∧
          ∃ b w1,
            markBombs screen s.world i j
                (if s.board_stalled then STRATEGY.PIVOT else STRATEGY.SIMPLE) =
              some (b, w1) ∧
            s1.world = w1 ∧
            s1.calls = s.calls ++
              [(((i : Int), (j : Int)),
                if s.board_stalled then STRATEGY.PIVOT else STRATEGY.SIMPLE)] ∧
            s1.passes = s.passes ∧
            s1.board_changes = (if b then s.board_changes + 1 else s.board_changes) ∧
            s1.board_stalled = (s.board_stalled && !b) ∧
            s1.pivots_visited =
              (if s.board_stalled then
                if b then [] else s.pivots_visited ++ [((i : Int), (j : Int))]
              else s.pivots_visited) ∧
            (s1.visited = s.visited ∨
              (s1.visited = s.visited ++ [((i : Int), (j : Int))] ∧
                s.board_stalled = false ∧ b = true ∧
                surroundingTiles w1.board i j ['E'] = some [])))) := by
  unfold solverTile at h
  split at h
  · cases h
  · next c hc =>
    refine ⟨c, hc, ?_⟩
    by_cases hg : c ≠ 'E' ∧ c ≠ '0' ∧ c ≠ 'M'
    swap
    · rw [if_neg hg] at h
      cases h
      exact Or.inl ⟨fun hh => hg hh.1, rfl⟩
    rw [if_pos hg] at h
    simp only at h
    by_cases hv : (((i : Int), (j : Int)) : Pos) ∉ s.visited ∨
        (s.board_stalled = true ∧ (((i : Int), (j : Int)) : Pos) ∉ s.pivots_visited)
    swap
    · rw [if_neg hv] at h
      cases h
      exact Or.inl ⟨fun hh => hv hh.2, rfl⟩
    rw [if_pos hv] at h
    refine Or.inr ⟨hg, hv, ?_⟩
    cases hst : s.board_stalled
    · -- Simple mode
      rw [hst] at h
      simp only [Bool.false_eq_true, if_false] at h ⊢
      split at h
      · cases h
      · next w1 hm =>
        split at h
        · cases h
        · next after hafter =>
          cases h
          refine ⟨true, w1, hm, rfl, rfl, rfl, rfl, by simp [hst], rfl, ?_⟩
          by_cases hlen : after.length = 0
          · right
            have ha : after = [] := List.length_eq_zero.mp hlen
            subst ha
            exact ⟨by simp, trivial, rfl, hafter⟩
          · left
            simp [hlen]
      · next w1 hm =>
        cases h
        exact ⟨false, w1, hm, rfl, rfl, rfl, rfl, by simp [hst], rfl, Or.inl rfl⟩
    · -- Pivot mode
      rw [hst] at h
      simp only [if_true] at h ⊢
      split at h
      · cases h
      · next w1 hm =>
        cases h
        exact ⟨true, w1, hm, rfl, rfl, rfl, rfl, rfl, rfl, Or.inl rfl⟩
      · next w1 hm =>
        cases h
        exact ⟨false, w1, hm, rfl, rfl, rfl, rfl, by simp [hst], rfl, Or.inl rfl⟩

theorem solverRow_induct (screen : Nat → Mat) (P : Solver → Prop) (i : Nat) :
    ∀ (js : List Nat),
      (∀ s j s1, j ∈ js → P s → solverTile screen s i j = some s1 → P s1) →
      ∀ s s1, P s → solverRow screen i js s = some s1 → P s1 := by
  intro js
  induction js with
  | nil =>
    intro _ s s1 hP h
    cases h
    exact hP
  | cons j rest ih =>
    intro hstep s s1 hP h
    simp only [solverRow] at h
    split at h
    · cases h
    · next s2 h2 =>
      exact ih (fun s j1 s1 hj => hstep s j1 s1 (List.mem_cons_of_mem _ hj)) s2 s1
        (hstep s j s2 (List.mem_cons_self _ _) hP h2) h

theorem solverRows_induct (screen : Nat → Mat) (P : Solver → Prop) (cols : Nat) :
    ∀ (is : List Nat),
      (∀ s i j s1, i ∈ is → j < cols → P s → solverTile screen s i j = some s1 → P s1) →
      ∀ s s1, P s → solverRows screen cols is s = some s1 → P s1 := by
  intro is
  induction is with
  | nil =>
    intro _ s s1 hP h
    cases h
    exact hP
  | cons i rest ih =>
    intro hstep s s1 hP h
    simp only [solverRows] at h
    split at h
    · cases h
    · next s2 h2 =>
      have hP2 : P s2 := solverRow_induct screen P i (List.range cols)
        (fun s j s1 hj => hstep s i j s1 (List.mem_cons_self _ _) (List.mem_range.mp hj))
        s s2 hP h2
      exact ih (fun s i1 j s1 hi => hstep s i1 j s1 (List.mem_cons_of_mem _ hi)) s2 s1 hP2 h

/-! ## Claims about the solver loop: which tiles are passed to a strategy -/

set_option maxRecDepth 100000 in
/-- C22: the code does not skip, in Pivot mode, a tile whose PIVOT attempt has failed. On
the board `1 E / E E` nothing can be deduced: the first pass calls SIMPLE on the `1` and
fails, the second pass calls PIVOT on it, fails and puts it into `pivots_visited`, and the
third pass calls PIVOT on it again although it is in `pivots_visited` and the list has
not been cleared, and appends it a second time. The tile is not in `visited`, and in the
test `notVisited || board_stalled && notPivotVisited` the list `pivots_visited` is
consulted only for tiles that are in `visited`. -/
theorem pivot_retry_of_failed_tile :
    solverLoop blackScreen 2 2 3 ⟨⟨[['1', 'E'], ['E', 'E']], [], 0⟩, [], [], false, 0, [], []⟩ =
      some ⟨⟨[['1', 'E'], ['E', 'E']], [], 0⟩, [], [(0, 0), (0, 0)], true, 0,
        [((0, 0), STRATEGY.SIMPLE), ((0, 0), STRATEGY.PIVOT), ((0, 0), STRATEGY.PIVOT)],
        [0, 0, 0]⟩ := by
  rfl

/-- The test of the loop body as the code evaluates it: `markBombs` is called for the tile
`(i, j)`, with the strategy of the current mode, exactly when the tile is none of `'E'`,
`'0'`, `'M'` and it is not in `visited`, or the mode is Pivot and it is not in
`pivots_visited`; otherwise the state is unchanged. In Simple mode this is "not in
`visited`"; in Pivot mode it is "not in `visited` or not in `pivots_visited`", so the
list of failed pivots does not stop a tile that is not in `visited`. -/
theorem strategy_dispatch (screen : Nat → Mat) (s s1 : Solver) (i j : Nat) (c : Char)
    (h : solverTile screen s i j = some s1) (hc : boardAt s.world.board i j = some c) :
    (s1.calls = s.calls ++
          [(((i : Int), (j : Int)),
            if s.board_stalled then STRATEGY.PIVOT else STRATEGY.SIMPLE)] ↔
        (c ≠ 'E' ∧ c ≠ '0' ∧ c ≠ 'M') ∧
          ((((i : Int), (j : Int)) : Pos) ∉ s.visited ∨
            (s.board_stalled = true ∧ (((i : Int), (j : Int)) : Pos) ∉ s.pivots_visited))) ∧
      (s1.calls ≠ s.calls ++
          [(((i : Int), (j : Int)),
            if s.board_stalled then STRATEGY.PIVOT else STRATEGY.SIMPLE)] → s1 = s) ∧
      (s.board_stalled = false →
        (s1.calls = s.calls ++ [(((i : Int), (j : Int)), STRATEGY.SIMPLE)] ↔
          (c ≠ 'E' ∧ c ≠ '0' ∧ c ≠ 'M') ∧ (((i : Int), (j : Int)) : Pos) ∉ s.visited)) ∧
      (s.board_stalled = true →
        (s1.calls = s.calls ++ [(((i : Int), (j : Int)), STRATEGY.PIVOT)] ↔
          (c ≠ 'E' ∧ c ≠ '0' ∧ c ≠ 'M') ∧
            ((((i : Int), (j : Int)) : Pos) ∉ s.visited ∨
              (((i : Int), (j : Int)) : Pos) ∉ s.pivots_visited))) := by
  obtain ⟨c1, hc1, hcase⟩ := solverTile_inv h
  rw [hc] at hc1
  cases hc1
  have hmain : (s1.calls = s.calls ++
        [(((i : Int), (j : Int)),
          if s.board_stalled then STRATEGY.PIVOT else STRATEGY.SIMPLE)] ↔
      (c ≠ 'E' ∧ c ≠ '0' ∧ c ≠ 'M') ∧
        ((((i : Int), (j : Int)) : Pos) ∉ s.visited ∨
          (s.board_stalled = true ∧ (((i : Int), (j : Int)) : Pos) ∉ s.pivots_visited))) ∧
    (s1.calls ≠ s.calls ++
        [(((i : Int), (j : Int)),
          if s.board_stalled then STRATEGY.PIVOT else STRATEGY.SIMPLE)] → s1 = s) := by
    rcases hcase with ⟨hn, rfl⟩ | ⟨hg, hv, b, w1, -, -, hcalls, -⟩
    · refine ⟨⟨?_, fun hh => absurd hh hn⟩, fun _ => rfl⟩
      intro hh
      have := congrArg List.length hh
      simp at this
    · exact ⟨⟨fun _ => ⟨hg, hv⟩, fun _ => hcalls⟩, fun hh => absurd hcalls hh⟩
  refine ⟨hmain.1, hmain.2, ?_, ?_⟩
  · intro hst
    have := hmain.1
    rw [hst] at this
    simpa using this
  · intro hst
    have := hmain.1
    rw [hst] at this
    simpa using this

set_option maxRecDepth 100000 in
theorem strategy_dispatch_witness :
    solverTile blackScreen
        ⟨⟨[['1', 'E'], ['E', 'E']], [], 0⟩, [], [(0, 0)], true, 0, [], []⟩ 0 0 =
        some ⟨⟨[['1', 'E'], ['E', 'E']], [], 0⟩, [], [(0, 0), (0, 0)], true, 0,
          [((0, 0), STRATEGY.PIVOT)], []⟩ ∧
      (([((0, 0), STRATEGY.PIVOT)] : List (Pos × STRATEGY)) =
          [] ++ [((((0 : Nat) : Int), ((0 : Nat) : Int)), STRATEGY.PIVOT)] ↔
        ('1' ≠ 'E' ∧ '1' ≠ '0' ∧ '1' ≠ 'M') ∧
          (((((0 : Nat) : Int), ((0 : Nat) : Int)) : Pos) ∉ ([] : List Pos) ∨
            ((((0 : Nat) : Int), ((0 : Nat) : Int)) : Pos) ∉ ([(0, 0)] : List Pos))) :=
  have h : solverTile blackScreen
      ⟨⟨[['1', 'E'], ['E', 'E']], [], 0⟩, [], [(0, 0)], true, 0, [], []⟩ 0 0 =
      some ⟨⟨[['1', 'E'], ['E', 'E']], [], 0⟩, [], [(0, 0), (0, 0)], true, 0,
        [((0, 0), STRATEGY.PIVOT)], []⟩ := by rfl
  ⟨h, (strategy_dispatch blackScreen _ _ 0 0 '1' h (by decide)).2.2.2 rfl⟩

/-! ## Claims about the solver loop: the mode -/

/-- Within a pass the counter `board_changes` never decreases, the mode never goes from
Simple to Pivot, and while the mode is Pivot no change has been counted. -/
theorem solverTile_mode {screen : Nat → Mat} {s s1 : Solver} {i j : Nat}
    (h : solverTile screen s i j = some s1) :
    s.board_changes ≤ s1.board_changes ∧
      (s.board_stalled = false → s1.board_stalled = false) ∧
      ((s.board_stalled = true → s.board_changes = 0) →
        (s1.board_stalled = true → s1.board_changes = 0)) ∧
      ((s.board_stalled = false → s.pivots_visited = []) →
        (s1.board_stalled = false → s1.pivots_visited = [])) := by
  obtain ⟨c, -, hcase⟩ := solverTile_inv h
  rcases hcase with ⟨-, rfl⟩ | ⟨-, -, b, w1, -, -, -, -, hch, hst, hpv, -⟩
  · exact ⟨Nat.le_refl _, fun hh => hh, fun hh => hh, fun hh => hh⟩
  · cases b <;> cases hs : s.board_stalled <;>
      simp only [hs, Bool.false_eq_true, if_false, if_true, Bool.not_false, Bool.not_true,
        Bool.and_true, Bool.and_false, Bool.true_and, Bool.false_and] at hch hst hpv <;>
      simp [hch, hst, hpv]

/-- C21: at the end of every pass the mode is Pivot (`board_stalled` is true) if and only
if that pass made zero board changes, whatever the mode at its start; the value logged for
the pass is that number of changes. Inside a pass every successful call of `markBombs`
(SIMPLE or PIVOT) adds one to `board_changes` and leaves the mode Simple, the counter never
decreases and the mode never turns from Simple to Pivot, over any part of the board: so a
pass in which a PIVOT application succeeded ends in Simple mode, and a pass with no change
ends in Pivot mode. -/
theorem pass_mode_rule :
    (∀ (screen : Nat → Mat) (rows cols : Nat) (s s1 : Solver),
      solverPass screen rows cols s = some s1 →
      (s1.board_stalled = true ↔ s1.board_changes = 0) ∧
        s1.passes.getLast? = some s1.board_changes) ∧
    (∀ (screen : Nat → Mat) (s s1 : Solver) (i j : Nat) (strategy : STRATEGY) (w1 : World),
      solverTile screen s i j = some s1 →
      s1.calls = s.calls ++ [(((i : Int), (j : Int)), strategy)] →
      (if s.board_stalled then STRATEGY.PIVOT else STRATEGY.SIMPLE) = strategy →
      markBombs screen s.world i j strategy = some (true, w1) →
      s1.board_stalled = false ∧ s1.board_changes = s.board_changes + 1) ∧
    (∀ (screen : Nat → Mat) (cols : Nat) (is : List Nat) (s s1 : Solver),
      solverRows screen cols is s = some s1 →
      s.board_changes ≤ s1.board_changes ∧
        (s.board_stalled = false → s1.board_stalled = false)) ∧
    (∀ (screen : Nat → Mat) (i : Nat) (js : List Nat) (s s1 : Solver),
      solverRow screen i js s = some s1 →
      s.board_changes ≤ s1.board_changes ∧
        (s.board_stalled = false → s1.board_stalled = false)) := by
  refine ⟨?_, ?_, ?_, ?_⟩
  · intro screen rows cols s s1 h
    unfold solverPass at h
    split at h
    · cases h
    · next s2 h2 =>
      have hinv : s2.board_stalled = true → s2.board_changes = 0 :=
        solverRows_induct screen (fun t => t.board_stalled = true → t.board_changes = 0) cols
          (List.range rows) (fun t i j t1 _ _ hP ht => (solverTile_mode ht).2.2.1 hP)
          { s with board_changes := 0 } s2 (fun _ => rfl) h2
      cases h
      refine ⟨?_, by simp⟩
      by_cases h0 : s2.board_changes = 0
      · simp [h0]
      · simp only [if_neg h0, h0, iff_false]
        intro hst
        exact h0 (hinv hst)
  · intro screen s s1 i j strategy w1 h hcalls hstrat hm
    obtain ⟨c, -, hcase⟩ := solverTile_inv h
    rcases hcase with ⟨-, rfl⟩ | ⟨-, -, b, w2, hm2, -, -, -, hch, hst, -⟩
    · have := congrArg List.length hcalls
      simp at this
    · rw [hstrat, hm] at hm2
      cases hm2
      simp [hch, hst]
  · intro screen cols is s s1 h
    exact solverRows_induct screen
      (fun t => s.board_changes ≤ t.board_changes ∧
        (s.board_stalled = false → t.board_stalled = false)) cols is
      (fun t i j t1 _ _ hP ht =>
        ⟨Nat.le_trans hP.1 (solverTile_mode ht).1,
          fun hs => (solverTile_mode ht).2.1 (hP.2 hs)⟩)
      s s1 ⟨Nat.le_refl _, fun hs => hs⟩ h
  · intro screen i js s s1 h
    exact solverRow_induct screen
      (fun t => s.board_changes ≤ t.board_changes ∧
        (s.board_stalled = false → t.board_stalled = false)) i js
      (fun t j t1 _ hP ht =>
        ⟨Nat.le_trans hP.1 (solverTile_mode ht).1,
          fun hs => (solverTile_mode ht).2.1 (hP.2 hs)⟩)
      s s1 ⟨Nat.le_refl _, fun hs => hs⟩ h

set_option maxRecDepth 100000 in
theorem pass_mode_rule_witness :
    solverPass blackScreen 2 2
        ⟨⟨[['1', 'E'], ['E', 'E']], [], 0⟩, [], [], false, 0, [], []⟩ =
        some ⟨⟨[['1', 'E'], ['E', 'E']], [], 0⟩, [], [], true, 0,
          [((0, 0), STRATEGY.SIMPLE)], [0]⟩ ∧
      ((true = true ↔ (0 : Nat) = 0) ∧ ([0] : List Nat).getLast? = some 0) :=
  have h : solverPass blackScreen 2 2
      ⟨⟨[['1', 'E'], ['E', 'E']], [], 0⟩, [], [], false, 0, [], []⟩ =
      some ⟨⟨[['1', 'E'], ['E', 'E']], [], 0⟩, [], [], true, 0,
        [((0, 0), STRATEGY.SIMPLE)], [0]⟩ := by rfl
  ⟨h, pass_mode_rule.1 blackScreen 2 2 _ _ h⟩

/-- C24: at every point of the solver loop, whenever the mode is Simple (`board_stalled`
is false) `pivots_visited` is empty. The property holds at the start of `main`'s loop, is
kept by every execution of the loop body for one tile, by every part of a pass, by the
end of a pass and so by any number of passes. The vector is emptied by every successful
PIVOT call and grows only by the tile of a failed PIVOT call, made in Pivot mode. -/
theorem pivots_visited_simple_mode :
    (∀ (screen : Nat → Mat) (rows cols k : Nat) (w : World) (s : Solver),
      solverLoop screen rows cols k ⟨w, [], [], false, 0, [], []⟩ = some s →
      s.board_stalled = false → s.pivots_visited = []) ∧
    (∀ (screen : Nat → Mat) (s s1 : Solver) (i j : Nat),
      solverTile screen s i j = some s1 →
      (s.board_stalled = false → s.pivots_visited = []) →
      (s1.board_stalled = false → s1.pivots_visited = []) ∧
        (s1.pivots_visited = s.pivots_visited ∨
          (s1.pivots_visited = [] ∧ s.board_stalled = true ∧ s1.board_stalled = false ∧
            ∃ w1, markBombs screen s.world i j STRATEGY.PIVOT = some (true, w1)) ∨
          (s1.pivots_visited = s.pivots_visited ++ [((i : Int), (j : Int))] ∧
            s.board_stalled = true ∧
            ∃ w1, markBombs screen s.world i j STRATEGY.PIVOT = some (false, w1)))) ∧
    (∀ (screen : Nat → Mat) (cols : Nat) (is : List Nat) (s s1 : Solver),
      solverRows screen cols is s = some s1 →
      (s.board_stalled = false → s.pivots_visited = []) →
      (s1.board_stalled = false → s1.pivots_visited = [])) ∧
    (∀ (screen : Nat → Mat) (i : Nat) (js : List Nat) (s s1 : Solver),
      solverRow screen i js s = some s1 →
      (s.board_stalled = false → s.pivots_visited = []) →
      (s1.board_stalled = false → s1.pivots_visited = [])) ∧
    (∀ (screen : Nat → Mat) (rows cols : Nat) (s s1 : Solver),
      solverPass screen rows cols s = some s1 →
      (s.board_stalled = false → s.pivots_visited = []) →
      (s1.board_stalled = false → s1.pivots_visited = [])) := by
  have hrows : ∀ (screen : Nat → Mat) (cols : Nat) (is : List Nat) (s s1 : Solver),
      solverRows screen cols is s = some s1 →
      (s.board_stalled = false → s.pivots_visited = []) →
      (s1.board_stalled = false → s1.pivots_visited = []) := by
    intro screen cols is s s1 h hP
    exact solverRows_induct screen
      (fun t => t.board_stalled = false → t.pivots_visited = []) cols is
      (fun t i j t1 _ _ hP ht => (solverTile_mode ht).2.2.2 hP) s s1 hP h
  have hpass : ∀ (screen : Nat → Mat) (rows cols : Nat) (s s1 : Solver),
      solverPass screen rows cols s = some s1 →
      (s.board_stalled = false → s.pivots_visited = []) →
      (s1.board_stalled = false → s1.pivots_visited = []) := by
    intro screen rows cols s s1 h hP
    unfold solverPass at h
    split at h
    · cases h
    · next s2 h2 =>
      have h3 := hrows screen cols (List.range rows) _ s2 h2 hP
      cases h
      simp only
      by_cases h0 : s2.board_changes = 0
      · simp [h0]
      · simpa [h0] using h3
  have hloop : ∀ (screen : Nat → Mat) (rows cols k : Nat) (s s1 : Solver),
      solverLoop screen rows cols k s = some s1 →
      (s.board_stalled = false → s.pivots_visited = []) →
      (s1.board_stalled = false → s1.pivots_visited = []) := by
    intro screen rows cols k
    induction k with
    | zero =>
      intro s s1 h hP
      cases h
      exact hP
    | succ k ih =>
      intro s s1 h hP
      simp only [solverLoop] at h
      split at h
      · cases h
      · next s2 h2 => exact ih s2 s1 h (hpass screen rows cols s s2 h2 hP)
  refine ⟨?_, ?_, hrows, ?_, hpass⟩
  · intro screen rows cols k w s h
    exact hloop screen rows cols k _ s h (fun _ => rfl)
  · intro screen s s1 i j h hP
    refine ⟨(solverTile_mode h).2.2.2 hP, ?_⟩
    obtain ⟨c, -, hcase⟩ := solverTile_inv h
    rcases hcase with ⟨-, rfl⟩ | ⟨-, -, b, w1, hm, -, -, -, -, hst, hpv, -⟩
    · exact Or.inl rfl
    · cases hs : s.board_stalled
      · left
        rw [hpv, hs]
        rfl
      · rw [hs] at hm hpv hst
        simp only [if_true] at hm hpv
        cases b
        · right
          right
          exact ⟨by simpa using hpv, rfl, w1, hm⟩
        · right
          left
          exact ⟨by simpa using hpv, rfl, by simpa using hst, w1, hm⟩
  · intro screen i js s s1 h hP
    exact solverRow_induct screen
      (fun t => t.board_stalled = false → t.pivots_visited = []) i js
      (fun t j t1 _ hP ht => (solverTile_mode ht).2.2.2 hP) s s1 hP h

set_option maxRecDepth 100000 in
theorem pivots_visited_simple_mode_witness :
    solverLoop whiteScreen 1 2 1 ⟨⟨[['1', 'E']], [], 0⟩, [], [], false, 0, [], []⟩ =
        some ⟨⟨[['1', 'M']], [flagClick (0, 1)], 1⟩, [(0, 0)], [], false, 1,
          [((0, 0), STRATEGY.SIMPLE)], [1]⟩ ∧
      (false = false → ([] : List Pos) = []) :=
  have h : solverLoop whiteScreen 1 2 1 ⟨⟨[['1', 'E']], [], 0⟩, [], [], false, 0, [], []⟩ =
      some ⟨⟨[['1', 'M']], [flagClick (0, 1)], 1⟩, [(0, 0)], [], false, 1,
        [((0, 0), STRATEGY.SIMPLE)], [1]⟩ := by rfl
  ⟨h, pivots_visited_simple_mode.1 whiteScreen 1 2 1 _ _ h⟩

/-! ## Resolved tiles -/

theorem countP_disjoint_le {l : List Pos} {f g : Pos → Bool}
    (h : ∀ t, f t = true → g t = false) : l.countP f + l.countP g ≤ l.length := by
  induction l with
  | nil => simp
  | cons a rest ih =>
    rw [List.countP_cons, List.countP_cons, List.length_cons]
    cases hf : f a
    · cases hg : g a <;> simp <;> omega
    · rw [h a hf]
      simp
      omega

/-- A tile has at most eight flagged or unrevealed neighbours. -/
theorem hidden_count_le (board : Board) (rows cols : Nat) (p : Pos) :
    flaggedCount board rows cols p + unrevealedCount board rows cols p ≤ 8 := by
  have h1 : (neighbours rows cols p).length ≤ 8 := by
    unfold neighbours
    exact Nat.le_trans (List.length_filter_le _ _) (by simp)
  have h2 := @countP_disjoint_le (neighbours rows cols p) (holds board 'M') (holds board 'E')
    (by
      intro t ht
      rw [holds_iff] at ht
      unfold holds
      rw [ht]
      decide)
  unfold flaggedCount unrevealedCount
  omega

/-- A successful SIMPLE deduction is made on a `Number` tile: its character is a digit
that a count of neighbours can reach. -/
theorem markBombs_simple_true_number (screen : Nat → Mat) (w : World) {rows cols : Nat}
    (hrect : Rect w.board rows cols) (hrows : 0 < rows) (hcols : 0 < cols) {p : Pos}
    (hp : InBounds rows cols p) {c : Char} (hc : boardAt w.board p.1 p.2 = some c)
    (hE : c ≠ 'E') (hM : c ≠ 'M') {w1 : World}
    (h : markBombs screen w p.1 p.2 STRATEGY.SIMPLE = some (true, w1)) :
    ∃ n, IsNumber w.board p n := by
  have hself : hidden w.board p = false := by
    unfold hidden holds
    rw [hc]
    simp only [Option.some.injEq, Bool.or_eq_false_iff, decide_eq_false_iff_not]
    exact ⟨hE, hM⟩
  obtain ⟨S, hS, -, -, hsep, hlen⟩ := markBombs_lists hrect hrows hcols hp hself
  have hle := hidden_count_le w.board rows cols p
  have hdigit : ∀ m : Nat, m ≤ 8 → ((m : Nat) : Int) = (c.toNat : Int) - 48 →
      ∃ n, IsNumber w.board p n := by
    intro m hm heq
    refine ⟨m, hm, ?_⟩
    have : c.toNat = 48 + m := by omega
    rw [hc, ← this, Char.ofNat_toNat]
  unfold markBombs at h
  simp only [hc, hS, hsep, hlen] at h
  split at h
  · next h1 => exact hdigit _ (by omega) h1
  · split at h
    · next h2 =>
      exact hdigit (flaggedCount w.board rows cols p + unrevealedCount w.board rows cols p) hle
        (by push_cast; exact h2)
    · cases h

/-- An empty result of the lookup for `'E'` around an in-bounds tile: no neighbour is
unrevealed. -/
theorem unrevealedCount_zero_of_lookup {board : Board} {rows cols : Nat}
    (hrect : Rect board rows cols) (hrows : 0 < rows) (hcols : 0 < cols) {p : Pos}
    (hp : InBounds rows cols p) (h : surroundingTiles board p.1 p.2 ['E'] = some []) :
    unrevealedCount board rows cols p = 0 := by
  obtain ⟨res, hres, -, hmem⟩ := surroundingTiles_spec hrect hrows hcols p.1 p.2 ['E']
  rw [h] at hres
  cases hres
  unfold unrevealedCount
  rw [List.countP_eq_zero]
  intro q hq hE
  obtain ⟨hin, hadj, -⟩ := mem_neighbours.mp hq
  have hq2 : q ∈ ([] : List Pos) :=
    (hmem q).mpr ⟨(clampedPos_iff hp q).mpr ⟨hin, hadj⟩, 'E', holds_iff.mp hE, by simp⟩
  cases hq2

theorem resolved_keeps {b b1 : Board} {rows cols : Nat} (hrect : Rect b rows cols)
    (hk : Keeps b b1) {t : Pos} (h : Resolved b rows cols t) : Resolved b1 rows cols t := by
  obtain ⟨hin, ⟨n, hn⟩, hcount⟩ := h
  refine ⟨hin, ⟨n, hn.1, hk.2 _ _ _ hn.2 (number_char hn.1).2.1⟩, ?_⟩
  unfold unrevealedCount at hcount ⊢
  rw [List.countP_eq_zero] at hcount ⊢
  intro q hq hE
  obtain ⟨hqin, -, -⟩ := mem_neighbours.mp hq
  obtain ⟨c, hc⟩ := rect_boardAt_of_inBounds hrect hqin
  have hne : c ≠ 'E' := by
    intro he
    rw [he] at hc
    exact hcount q hq (holds_iff.mpr hc)
  have h1 := hk.2 _ _ _ hc hne
  rw [holds_iff, h1] at hE
  exact hne (Option.some.inj hE)

/-- One execution of the loop body keeps the board rectangular and every tile of
`visited` resolved; a tile joins `visited` only after a successful SIMPLE call on it that
leaves it without unrevealed neighbour. -/
theorem solverTile_resolved (screen : Nat → Mat) {rows cols : Nat} (hrows : 0 < rows)
    (hcols : 0 < cols) {s s1 : Solver} {i j : Nat} (hi : i < rows) (hj : j < cols)
    (hrect : Rect s.world.board rows cols)
    (hinv : ∀ t ∈ s.visited, Resolved s.world.board rows cols t)
    (h : solverTile screen s i j = some s1) :
    Rect s1.world.board rows cols ∧
      (∀ t ∈ s1.visited, Resolved s1.world.board rows cols t) ∧
      (s1.visited = s.visited ∨
        (s1.visited = s.visited ++ [((i : Int), (j : Int))] ∧ s.board_stalled = false ∧
          markBombs screen s.world i j STRATEGY.SIMPLE = some (true, s1.world) ∧
          Resolved s1.world.board rows cols ((i : Int), (j : Int)))) := by
  have hp : InBounds rows cols ((i : Int), (j : Int)) := by
    unfold InBounds
    simp only
    omega
  obtain ⟨c, hc, hcase⟩ := solverTile_inv h
  rcases hcase with ⟨-, rfl⟩ | ⟨hg, -, b, w1, hm, hw, -, -, -, -, -, hvis⟩
  · exact ⟨hrect, hinv, Or.inl rfl⟩
  · subst hw
    have hk : Keeps s.world.board s1.world.board :=
      markBombs_keeps screen s.world hrect hrows hcols _ _ _ b _ hm
    have hrect1 := sameShape_rect hk.1 hrect
    have hold : ∀ t ∈ s.visited, Resolved s1.world.board rows cols t :=
      fun t ht => resolved_keeps hrect hk (hinv t ht)
    refine ⟨hrect1, ?_, ?_⟩
    · rcases hvis with hv | ⟨hv, hst, hb, hafter⟩
      · rw [hv]
        exact hold
      · rw [hv]
        intro t ht
        rcases List.mem_append.mp ht with ht | ht
        · exact hold t ht
        · rw [List.mem_singleton] at ht
          subst ht
          rw [hst, hb] at hm
          obtain ⟨n, hn⟩ := @markBombs_simple_true_number screen s.world rows cols hrect hrows
            hcols ((i : Int), (j : Int)) hp c hc hg.1 hg.2.2 _ hm
          exact ⟨hp, ⟨n, hn.1, hk.2 _ _ _ hn.2 (number_char hn.1).2.1⟩,
            @unrevealedCount_zero_of_lookup _ rows cols hrect1 hrows hcols
              ((i : Int), (j : Int)) hp hafter⟩
    · rcases hvis with hv | ⟨hv, hst, hb, hafter⟩
      · exact Or.inl hv
      · right
        rw [hst, hb] at hm
        obtain ⟨n, hn⟩ := @markBombs_simple_true_number screen s.world rows cols hrect hrows
          hcols ((i : Int), (j : Int)) hp c hc hg.1 hg.2.2 _ hm
        exact ⟨hv, hst, hm, hp, ⟨n, hn.1, hk.2 _ _ _ hn.2 (number_char hn.1).2.1⟩,
          @unrevealedCount_zero_of_lookup _ rows cols hrect1 hrows hcols
            ((i : Int), (j : Int)) hp hafter⟩

theorem solverRows_resolved (screen : Nat → Mat) {rows cols : Nat} (hrows : 0 < rows)
    (hcols : 0 < cols) (is : List Nat) (his : ∀ i ∈ is, i < rows) (s s1 : Solver)
    (hrect : Rect s.world.board rows cols)
    (hinv : ∀ t ∈ s.visited, Resolved s.world.board rows cols t)
    (h : solverRows screen cols is s = some s1) :
    Rect s1.world.board rows cols ∧ ∀ t ∈ s1.visited, Resolved s1.world.board rows cols t :=
  solverRows_induct screen
    (fun t => Rect t.world.board rows cols ∧
      ∀ q ∈ t.visited, Resolved t.world.board rows cols q) cols is
    (fun _ i _ _ hi hj hP ht =>
      ⟨(solverTile_resolved screen hrows hcols (his i hi) hj hP.1 hP.2 ht).1,
        (solverTile_resolved screen hrows hcols (his i hi) hj hP.1 hP.2 ht).2.1⟩)
    s s1 ⟨hrect, hinv⟩ h

theorem solverPass_resolved (screen : Nat → Mat) {rows cols : Nat} (hrows : 0 < rows)
    (hcols : 0 < cols) (s s1 : Solver) (hrect : Rect s.world.board rows cols)
    (hinv : ∀ t ∈ s.visited, Resolved s.world.board rows cols t)
    (h : solverPass screen rows cols s = some s1) :
    Rect s1.world.board rows cols ∧
      ∀ t ∈ s1.visited, Resolved s1.world.board rows cols t := by
  unfold solverPass at h
  split at h
  · cases h
  · next s2 h2 =>
    have h3 := solverRows_resolved screen hrows hcols (List.range rows)
      (fun i hi => List.mem_range.mp hi) { s with board_changes := 0 } s2 hrect hinv h2
    cases h
    exact h3

theorem solverLoop_resolved (screen : Nat → Mat) {rows cols : Nat} (hrows : 0 < rows)
    (hcols : 0 < cols) :
    ∀ (k : Nat) (s s1 : Solver), Rect s.world.board rows cols →
      (∀ t ∈ s.visited, Resolved s.world.board rows cols t) →
      solverLoop screen rows cols k s = some s1 →
      Rect s1.world.board rows cols ∧
        ∀ t ∈ s1.visited, Resolved s1.world.board rows cols t := by
  intro k
  induction k with
  | zero =>
    intro s s1 hrect hinv h
    cases h
    exact ⟨hrect, hinv⟩
  | succ k ih =>
    intro s s1 hrect hinv h
    simp only [solverLoop] at h
    split at h
    · cases h
    · next s2 h2 =>
      obtain ⟨hr2, hi2⟩ := solverPass_resolved screen hrows hcols s s2 hrect hinv h2
      exact ih s2 s1 hr2 hi2 h

/-! ## Claims about the solver loop: resolved tiles -/

/-- C23: on a non-empty rectangular board, a tile is added to `visited` only right after
a successful SIMPLE deduction on it that leaves it a `Number` tile with zero unrevealed
neighbours; every execution of the loop body, every part of a pass and any number of
passes of the solver loop keep every position of `visited` resolved (an in-bounds `Number`
tile with zero unrevealed neighbours); and a resolved tile stays resolved through any
later sequence of refreshes and deductions, because no tile that is not `'E'` changes. -/
theorem resolved_invariant :
    (∀ (screen : Nat → Mat) (rows cols k : Nat) (w : World) (s : Solver),
      0 < rows → 0 < cols → Rect w.board rows cols →
      solverLoop screen rows cols k ⟨w, [], [], false, 0, [], []⟩ = some s →
      ∀ t ∈ s.visited, Resolved s.world.board rows cols t) ∧
    (∀ (screen : Nat → Mat) (rows cols : Nat) (s s1 : Solver) (i j : Nat),
      0 < rows → 0 < cols → i < rows → j < cols → Rect s.world.board rows cols →
      (∀ t ∈ s.visited, Resolved s.world.board rows cols t) →
      solverTile screen s i j = some s1 →
      (∀ t ∈ s1.visited, Resolved s1.world.board rows cols t) ∧
        (s1.visited = s.visited ∨
          (s1.visited = s.visited ++ [((i : Int), (j : Int))] ∧ s.board_stalled = false ∧
            markBombs screen s.world i j STRATEGY.SIMPLE = some (true, s1.world) ∧
            Resolved s1.world.board rows cols ((i : Int), (j : Int))))) ∧
    (∀ (screen : Nat → Mat) (rows cols : Nat) (is : List Nat) (s s1 : Solver),
      0 < rows → 0 < cols → (∀ i ∈ is, i < rows) → Rect s.world.board rows cols →
      (∀ t ∈ s.visited, Resolved s.world.board rows cols t) →
      solverRows screen cols is s = some s1 →
      ∀ t ∈ s1.visited, Resolved s1.world.board rows cols t) ∧
    (∀ (screen : Nat → Mat) (rows cols : Nat) (ops : List Op) (w w1 : World) (t : Pos),
      0 < rows → 0 < cols → Rect w.board rows cols → runOps screen ops w = some w1 →
      Resolved w.board rows cols t → Resolved w1.board rows cols t) := by
  refine ⟨?_, ?_, ?_, ?_⟩
  · intro screen rows cols k w s hrows hcols hrect h
    exact (solverLoop_resolved screen hrows hcols k _ s hrect
      (fun t ht => absurd ht (List.not_mem_nil t)) h).2
  · intro screen rows cols s s1 i j hrows hcols hi hj hrect hinv h
    exact (solverTile_resolved screen hrows hcols hi hj hrect hinv h).2
  · intro screen rows cols is s s1 hrows hcols his hrect hinv h
    exact (solverRows_resolved screen hrows hcols is his s s1 hrect hinv h).2
  · intro screen rows cols ops w w1 t hrows hcols hrect h hres
    exact resolved_keeps hrect (runOps_keeps screen hrows hcols ops w w1 hrect h) hres

set_option maxRecDepth 100000 in
theorem resolved_invariant_witness :
    solverLoop whiteScreen 1 2 1 ⟨⟨[['1', 'E']], [], 0⟩, [], [], false, 0, [], []⟩ =
        some ⟨⟨[['1', 'M']], [flagClick (0, 1)], 1⟩, [(0, 0)], [], false, 1,
          [((0, 0), STRATEGY.SIMPLE)], [1]⟩ ∧
      ∀ t ∈ ([(0, 0)] : List Pos), Resolved [['1', 'M']] 1 2 t :=
  have h : solverLoop whiteScreen 1 2 1 ⟨⟨[['1', 'E']], [], 0⟩, [], [], false, 0, [], []⟩ =
      some ⟨⟨[['1', 'M']], [flagClick (0, 1)], 1⟩, [(0, 0)], [], false, 1,
        [((0, 0), STRATEGY.SIMPLE)], [1]⟩ := by rfl
  ⟨h, resolved_invariant.1 whiteScreen 1 2 1 ⟨[['1', 'E']], [], 0⟩ _ (by decide) (by decide)
    ⟨rfl, by simp⟩ h⟩

/-! ## Claims about the running average of the tile sampler -/

end Minesweeper
